import Mathlib

/-!
# RuC compiler front-end: interning tables, mode table and scope discipline

A shallow embedding of `libs/compiler/syntax.c` (the `syntax` context and the
operations on it), followed by theorems about that embedding.

Conventions of the embedding.

* A pool (`reprtab`, `identab`, `modetab`, `mem`, `tree`, `predef`) is a total
  map from cell index to `int` value.  The capacities (`MAXREPRTAB`, ...) are
  constants of a header that is not embedded here, so no capacity is modelled:
  a cell index is a natural number and every cell exists.
* `size_t` values are natural numbers below `2 ^ 64`, `int` values are
  integers.  Conversions between the two are written `toInt` and `toSize`.
  The counter of the restore loop of the scope exits is reduced modulo
  `2 ^ 64`, as is the `id` cursor; `uint8_t` arithmetic is reduced modulo 256.
* The `NULL` guards (`sx == NULL`, `record == NULL`) are not modelled: the
  context and the arguments always exist.
* A loop with no bound of its own (`repr_is_equal`, the bucket walk of
  `repr_add`, the chain walk of `mode_add`, the restore loop) takes a fuel
  argument and yields `none` when the fuel is used up.
* `sx_check` reports through `error`, which belongs to another module: the
  diagnostics are collected in a list next to the flag that is returned.
* A store through an `int` index that is negative lands outside the pool in C.
  The layout of the context around its pools belongs to a header that is not
  embedded here, so no cell outside a pool is modelled: such a store leaves the
  pool as it is.  The restore loop of the scope exits makes such a store when a
  symbol record carries a back-reference below -1; `RestoreInTable` is the
  condition that it makes none.
* The cursor `pc` is kept in 32 bits when `mem_increase` advances it.
-/

namespace RuC

/-- A pool of `int` cells. -/
abbrev Table := Nat → Int

/-- The store `t[i] = v`. -/
def tset (t : Table) (i : Nat) (v : Int) : Table :=
  fun j => if j = i then v else t j

/-- The store `t[i] = v` through an index expression of type `int`.  A negative
index denotes no cell of the pool: the C store lands outside the pool then, and
the pool keeps its cells. -/
def tsetI (t : Table) (i : Int) (v : Int) : Table :=
  if 0 ≤ i then tset t i.toNat v else t

def SIZE_MAX : Nat := 18446744073709551615

def INT_MAX : Int := 2147483647

/-- The conversion `(int)n` of an unsigned value (two's complement, 32 bits). -/
def toInt (n : Nat) : Int :=
  (((n + 2147483648) % 4294967296 : Nat) : Int) - 2147483648

/-- The conversion of an `int` to `size_t` (64 bits). -/
def toSize (i : Int) : Nat :=
  (i % 18446744073709551616).toNat

/-- An `int` result kept in 32 bits (two's complement). -/
def wrapInt (i : Int) : Int :=
  (i + 2147483648) % 4294967296 - 2147483648

/-- Subtraction on `size_t`. -/
def subSize (a b : Nat) : Nat :=
  (a + 18446744073709551616 - b % 18446744073709551616) % 18446744073709551616

/-- Addition on `size_t`. -/
def addSize (a b : Nat) : Nat :=
  (a + b) % 18446744073709551616

/-- The constants of `defs.h` used by `syntax.c`; their values are parameters
of the development. -/
structure Defs where
  MSTRUCT : Int
  MFUNCTION : Int
  LFLOAT : Int

/-- The context `syntax` of `syntax.h`: the fields that `syntax.c` uses, with the
types its casts and comparisons show (`pc`, `tc`, `prdf`, `main_ref` and the
displacement fields are `int`; `id`, `curid`, `md`, `startmode`, `rp` and the
cells of `hashtab` are `size_t`; the pools hold `int` cells). -/
structure Sx where
  mem : Table
  pc : Int
  identab : Table
  id : Nat
  curid : Nat
  modetab : Table
  md : Nat
  startmode : Nat
  tree : Table
  tc : Int
  reprtab : Table
  rp : Nat
  maxdisplg : Int
  main_ref : Int
  maxdispl : Int
  displ : Int
  lg : Int
  predef : Table
  prdf : Int
  hash : Int
  keywordsnum : Int
  hashtab : Nat → Nat
  procd : Int
  funcnum : Nat

/-- A context whose memory is all zero, as storage of static duration is before
`sx_init` runs. -/
def zeroed : Sx :=
  { mem := fun _ => 0, pc := 0, identab := fun _ => 0, id := 0, curid := 0,
    modetab := fun _ => 0, md := 0, startmode := 0, tree := fun _ => 0, tc := 0,
    reprtab := fun _ => 0, rp := 0, maxdisplg := 0, main_ref := 0, maxdispl := 0,
    displ := 0, lg := 0, predef := fun _ => 0, prdf := 0, hash := 0,
    keywordsnum := 0, hashtab := fun _ => 0, procd := 0, funcnum := 0 }

/-! ## Modes -/

/-- The function `mode_get`. -/
def mode_get (sx : Sx) (index : Nat) : Int :=
  if index ≥ sx.md then INT_MAX else sx.modetab index

/-- The function `size_of`. -/
def size_of (K : Defs) (sx : Sx) (mode : Int) : Int :=
  if mode = K.LFLOAT then 2
  else if mode > 0 ∧ mode_get sx (toSize mode) = K.MSTRUCT then mode_get sx (toSize (mode + 1))
  else 1

/-- The function `getstatic`: the old displacement and the updated context. -/
def getstatic (K : Defs) (sx : Sx) (type : Int) : Int × Sx :=
  let olddispl := sx.displ
  let sx1 := { sx with displ := sx.displ + sx.lg * size_of K sx type }
  if sx1.lg > 0 then
    (olddispl, { sx1 with maxdispl := if sx1.displ > sx1.maxdispl then sx1.displ else sx1.maxdispl })
  else
    (olddispl, { sx1 with maxdisplg := -sx1.displ })

/-- The number of cells after the tag that `mode_is_equal` compares for the
record starting at `first`. -/
def mode_length (K : Defs) (t : Table) (first : Nat) : Nat :=
  if t first = K.MSTRUCT ∨ t first = K.MFUNCTION then toSize (2 + t (first + 2)) else 1

/-- The loop `for (i = 1; i <= length; i++)` of `mode_is_equal`: `true` when no
compared pair of cells differs. -/
def mode_cells_equal (t : Table) (first second : Nat) (length : Nat) : Bool :=
  (List.range length).all (fun k => decide (t (first + (k + 1)) = t (second + (k + 1))))

/-- The function `mode_is_equal`.  With `length = SIZE_MAX` the loop condition `i <= length`
never fails, so the loop can only be left through a differing pair. -/
def mode_is_equal (K : Defs) (sx : Sx) (first second : Nat) : Option Bool :=
  if sx.modetab first ≠ sx.modetab second then some false
  else
    let length := mode_length K sx.modetab first
    if mode_cells_equal sx.modetab first second length then
      (if length = SIZE_MAX then none else some true)
    else some false

/-- The copy loop of `mode_add`: the table and the cursor `md` after the cells
of `record` have been appended. -/
def mode_write : List Int → Table → Nat → Table × Nat
  | [], t, md => (t, md)
  | c :: cs, t, md => mode_write cs (tset t md c) (md + 1)

/-- The duplicate search of `mode_add`, `while (old)`, with its two exits. -/
def mode_find (K : Defs) (sx : Sx) : Nat → Nat → Option (Nat × Sx)
  | 0, old => if old = 0 then some (sx.startmode + 1, sx) else none
  | fuel + 1, old =>
    if old = 0 then some (sx.startmode + 1, sx)
    else
      match mode_is_equal K sx (sx.startmode + 1) (old + 1) with
      | none => none
      | some true =>
        some (old + 1, { sx with md := sx.startmode, startmode := toSize (sx.modetab sx.startmode) })
      | some false => mode_find K sx fuel (toSize (sx.modetab old))

/-- The function `mode_add`; `record` carries its `size` as its length. -/
def mode_add (K : Defs) (fuel : Nat) (sx : Sx) (record : List Int) : Option (Nat × Sx) :=
  let t1 := tset sx.modetab sx.md (toInt sx.startmode)
  let w := mode_write record t1 (sx.md + 1)
  let sx1 := { sx with modetab := w.1, startmode := sx.md, md := w.2 }
  mode_find K sx1 fuel (toSize (sx1.modetab sx1.startmode))

/-! ## Representations -/

/-- The loop of `repr_is_equal`, entered with the counter `i`. -/
def repr_is_equal_loop (t : Table) (first second : Nat) : Nat → Nat → Option Bool
  | 0, _ => none
  | fuel + 1, i =>
    if t (first + i) = t (second + i) then
      if t (first + (i + 1)) = 0 ∧ t (second + (i + 1)) = 0 then some true
      else repr_is_equal_loop t first second fuel (i + 1)
    else some false

/-- The function `repr_is_equal`. -/
def repr_is_equal (fuel : Nat) (sx : Sx) (first second : Nat) : Option Bool :=
  repr_is_equal_loop sx.reprtab first second fuel 2

/-- The `do ... while (spelling[i++] != 0)` loop of `repr_add`: the table, the
cursor `rp` and the 8-bit hash after the spelling and its terminator have been
written.  The spelling is the list of code points at the pointer; the cell after
the end of the list is the terminator. -/
def repr_write : List Nat → Table → Nat → Nat → Table × Nat × Nat
  | [], t, rp, hash => (tset t rp 0, rp + 1, hash)
  | c :: cs, t, rp, hash =>
    if c = 0 then (tset t rp 0, rp + 1, hash)
    else repr_write cs (tset t rp (toInt c)) (rp + 1) ((hash + c % 256) % 256)

/-- The bucket walk of `repr_add`: `some (some h)` on a hit at `h`, `some none`
when the chain ends. -/
def repr_find (sx : Sx) (old_repr : Nat) (fuel : Nat) : Nat → Nat → Option (Option Nat)
  | 0, cur_repr => if cur_repr = 0 then some none else none
  | n + 1, cur_repr =>
    if cur_repr = 0 then some none
    else
      match repr_is_equal fuel sx cur_repr old_repr with
      | none => none
      | some true => some (some cur_repr)
      | some false => repr_find sx old_repr fuel n (toSize (sx.reprtab cur_repr))

/-- The function `repr_add`. -/
def repr_add (fuel : Nat) (sx : Sx) (spelling : List Nat) : Option (Nat × Sx) :=
  let old_repr := sx.rp
  let w := repr_write spelling sx.reprtab (sx.rp + 2) 0
  let hash := w.2.2
  let sx1 := { sx with reprtab := w.1, rp := w.2.1, hash := (hash : Int) }
  match repr_find sx1 old_repr fuel fuel (sx1.hashtab hash) with
  | none => none
  | some (some cur_repr) => some (cur_repr, { sx1 with rp := old_repr })
  | some none =>
    let t2 := tset sx1.reprtab old_repr (toInt (sx1.hashtab hash))
    let ht := fun j => if j = hash then old_repr else sx1.hashtab j
    if sx1.keywordsnum ≠ 0 then
      let k := sx1.keywordsnum + 1
      some (old_repr, { sx1 with reprtab := tset t2 (old_repr + 1) (-(Int.tdiv (k - 2) 4)),
                                 hashtab := ht, keywordsnum := k })
    else
      some (old_repr, { sx1 with reprtab := tset t2 (old_repr + 1) 1, hashtab := ht })

/-- The function `repr_get_reference`. -/
def repr_get_reference (sx : Sx) (index : Nat) : Int :=
  if index ≥ sx.rp then INT_MAX else sx.reprtab (index + 1)

/-- The function `repr_set_reference`. -/
def repr_set_reference (sx : Sx) (index : Nat) (ref : Nat) : Int × Sx :=
  if index ≥ sx.rp then (-1, sx)
  else (0, { sx with reprtab := tset sx.reprtab (index + 1) (toInt ref) })

/-- The conversion of an `int` cell to `char32_t`. -/
def toChar (v : Int) : Nat :=
  (v % 4294967296).toNat

/-- The loop `do { spelling[i] = reprtab[index + i]; i++; } while (reprtab[index + i] != 0)`
of `repr_get_spelling`, entered with the counter `i`: the buffer after the loop. -/
def repr_get_spelling_loop (t : Table) (index : Nat) : Nat → Nat → (Nat → Nat) → Option (Nat → Nat)
  | 0, _, _ => none
  | fuel + 1, i, buf =>
    let buf2 := fun j => if j = i then toChar (t (index + i)) else buf j
    if t (index + (i + 1)) ≠ 0 then repr_get_spelling_loop t index fuel (i + 1) buf2
    else some buf2

/-- The function `repr_get_spelling`: the status and the buffer `spelling` after
the call.  The context is `const` and is not returned. -/
def repr_get_spelling (fuel : Nat) (sx : Sx) (index : Nat) (spelling : Nat → Nat) :
    Option (Int × (Nat → Nat)) :=
  if index ≥ sx.rp then some (-1, spelling)
  else (repr_get_spelling_loop sx.reprtab index fuel 2 spelling).map (fun b => (0, b))

/-! ## The context and the code pool -/

/-- The function `sx_init`, applied to whatever the storage of the context holds. -/
def sx_init (sx : Sx) : Int × Sx :=
  (0, { sx with pc := 4, procd := 1, funcnum := 2, id := 2, md := 1, startmode := 1, tc := 0,
                rp := 1, maxdisplg := 3, main_ref := 0, maxdispl := 3, displ := -3, curid := 2,
                lg := -1, prdf := -1,
                hashtab := fun i => if i < 256 then 0 else sx.hashtab i })

/-- The function `mem_set`. -/
def mem_set (sx : Sx) (index : Nat) (value : Int) : Int × Sx :=
  if toInt index ≥ sx.pc then (-1, sx)
  else (0, { sx with mem := tset sx.mem index value })

/-- The function `mem_get`. -/
def mem_get (sx : Sx) (index : Nat) : Int :=
  if toInt index ≥ sx.pc then INT_MAX else sx.mem index

/-- The function `mem_get_size`. -/
def mem_get_size (sx : Sx) : Nat :=
  toSize sx.pc

/-- The function `mem_increase`: the cursor is an `int` and the amount a
`size_t` converted to `int`; the sum is kept in 32 bits, and the value returned
is the status 0. -/
def mem_increase (sx : Sx) (value : Nat) : Int × Sx :=
  (0, { sx with pc := wrapInt (sx.pc + toInt value) })

/-- The function `mem_add`: the cursor is advanced first, then `mem_set` stores
at the `int` index `pc - 1` converted to `size_t`, and its status is returned. -/
def mem_add (sx : Sx) (value : Int) : Int × Sx :=
  let sx1 := { sx with pc := sx.pc + 1 }
  mem_set sx1 (toSize (sx1.pc - 1)) value

/-- The diagnostics that `sx_check` hands to `error`, with the argument of
`predef_but_notdef`. -/
inductive Diag where
  | no_main_in_program : Diag
  | predef_but_notdef (repr : Int) : Diag
  deriving DecidableEq

/-- One pass of the loop of `sx_check` over the list `predef`: the pair is the
error flag and the diagnostics reported so far. -/
def sx_check_step (predef : Table) (r : Int × List Diag) (i : Nat) : Int × List Diag :=
  if predef i ≠ 0 then (-1, r.2 ++ [Diag.predef_but_notdef (predef i)]) else r

/-- The function `sx_check`: the error flag it returns, and the diagnostics it
reports in order. -/
def sx_check (sx : Sx) : Int × List Diag :=
  let r0 : Int × List Diag :=
    if sx.main_ref = 0 then (-1, [Diag.no_main_in_program]) else (0, [])
  (List.range (sx.prdf + 1).toNat).foldl (sx_check_step sx.predef) r0

/-! ## Identifiers -/

/-- The function `ident_set_mode`. -/
def ident_set_mode (sx : Sx) (index : Nat) (mode : Int) : Int × Sx :=
  if index ≥ sx.id then (-1, sx)
  else (0, { sx with identab := tset sx.identab (index + 2) mode })

/-- The function `ident_set_displ`. -/
def ident_set_displ (sx : Sx) (index : Nat) (displ : Int) : Int × Sx :=
  if index ≥ sx.id then (-1, sx)
  else (0, { sx with identab := tset sx.identab (index + 3) displ })

/-- The function `ident_get_mode`. -/
def ident_get_mode (sx : Sx) (index : Nat) : Int :=
  if index ≥ sx.id then INT_MAX else sx.identab (index + 2)

/-- The function `ident_get_displ`. -/
def ident_get_displ (sx : Sx) (index : Nat) : Int :=
  if index ≥ sx.id then INT_MAX else sx.identab (index + 3)

/-- The body `if (sx->predef[i] == repr) sx->predef[i] = 0` of the clearing
loop of `ident_add`. -/
def predef_clear_step (repr : Nat) (predef : Table) (i : Nat) : Table :=
  if toSize (predef i) = repr then tset predef i 0 else predef

/-- The loop `for (i = 0; i <= sx->prdf; i++)` of `ident_add` that clears the
entries of `predef` equal to `repr`. -/
def predef_clear (predef : Table) (prdf : Int) (repr : Nat) : Table :=
  (List.range (prdf + 1).toNat).foldl (predef_clear_step repr) predef

/-- The collision test of `ident_add`:
`func_def == 3 ? 1 : identab[pred + 1] > 0 ? 1 : func_def == 1 ? 0 : 1`.
The index `pred + 1` is computed on `size_t`. -/
def ident_collides (sx : Sx) (pred : Nat) (func_def : Int) : Bool :=
  if func_def = 3 then true
  else if sx.identab (addSize pred 1) > 0 then true
  else if func_def = 1 then false
  else true

/-- The part of `ident_add` between the `main` test and the collision test:
`main_ref` is set when the representation is `main`, the previous binding is
stored in `identab[lastid]`, and the representation is pointed at `lastid`
unless the previous binding is 0. -/
def ident_link (sx : Sx) (lastid repr : Nat) : Sx :=
  let sx2 := if repr_get_reference sx repr = 0 then { sx with main_ref := toInt lastid } else sx
  let sx3 := { sx2 with identab := tset sx2.identab lastid (sx2.reprtab (repr + 1)) }
  if toSize (sx3.identab lastid) ≠ 0 then (repr_set_reference sx3 repr lastid).2 else sx3

/-- The part of `ident_add` after the collision test, from
`sx->identab[lastid + 1] = (int)repr` on. -/
def ident_fill (K : Defs) (sx : Sx) (lastid repr : Nat) (type mode func_def : Int) : Sx :=
  let sx5 := { sx with identab := tset sx.identab (lastid + 1) (toInt repr) }
  let sx6 := (ident_set_mode sx5 lastid mode).2
  if type = 1 then
    (ident_set_displ (ident_set_mode sx6 lastid 0).2 lastid 0).2
  else if type ≥ 1000 then
    (ident_set_displ sx6 lastid type).2
  else if type ≠ 0 then
    if type < 0 then
      let sx7 := (ident_set_displ { sx6 with displ := sx6.displ + 1 } lastid (-sx6.displ)).2
      { sx7 with maxdispl := sx7.displ }
    else
      let sx7 := (ident_set_displ sx6 lastid type).2
      if func_def = 2 then
        let sx8 := { sx7 with identab := tset sx7.identab (lastid + 1) (sx7.identab (lastid + 1) * -1) }
        { sx8 with prdf := sx8.prdf + 1,
                   predef := tsetI sx8.predef (sx8.prdf + 1) (toInt repr) }
      else
        { sx7 with predef := predef_clear sx7.predef sx7.prdf repr }
  else
    let g := getstatic K sx6 mode
    (ident_set_displ g.2 lastid g.1).2

/-- The function `ident_add`: the returned handle or sentinel and the updated context. -/
def ident_add (K : Defs) (sx : Sx) (repr : Nat) (type : Int) (mode : Int) (func_def : Int) :
    Nat × Sx :=
  let lastid := sx.id
  let sx1 := { sx with id := addSize sx.id 4 }
  if repr_get_reference sx1 repr = 0 ∧ sx1.main_ref ≠ 0 then (SIZE_MAX, sx1)
  else
    let sx4 := ident_link sx1 lastid repr
    let pred := toSize (sx4.identab lastid)
    if type ≠ 1 ∧ pred ≥ sx4.curid ∧ ident_collides sx4 pred func_def = true then
      (SIZE_MAX - 1, sx4)
    else
      (lastid, ident_fill K sx4 lastid repr type mode func_def)

/-! ## Scopes -/

/-- The function `enter_block_scope`: the saved `displ` and `lg`, and the updated context. -/
def enter_block_scope (sx : Sx) : (Int × Int) × Sx :=
  ((sx.displ, sx.lg), { sx with curid := sx.id })

/-- The restore loop `for (size_t i = sx->id - 4; i >= sx->curid; i -= 4)` of the
scope exits, entered with the counter `i`: the representation table after the
loop.  The store `reprtab[identab[i + 1] + 1] = identab[i]` goes through an `int`
index, which is negative when the back-reference `identab[i + 1]` is below -1
(see `tsetI` and `RestoreInTable`). -/
def restore_loop (identab : Table) (curid : Nat) : Nat → Nat → Table → Option Table
  | 0, i, t => if i ≥ curid then none else some t
  | fuel + 1, i, t =>
    if i ≥ curid then
      restore_loop identab curid fuel (subSize i 4)
        (tsetI t (identab (addSize i 1) + 1) (identab i))
    else some t

/-- The function `exit_block_scope`. -/
def exit_block_scope (fuel : Nat) (sx : Sx) (old_displ old_lg : Int) : Option (Int × Sx) :=
  match restore_loop sx.identab sx.curid fuel (subSize sx.id 4) sx.reprtab with
  | none => none
  | some t => some (0, { sx with reprtab := t, displ := old_displ, lg := old_lg })

/-- The function `enter_func_scope`. -/
def enter_func_scope (sx : Sx) : Int × Sx :=
  (sx.displ, { sx with curid := sx.id, displ := 3, maxdispl := 3, lg := 1 })

/-- The function `exit_func_scope`. -/
def exit_func_scope (fuel : Nat) (sx : Sx) (pred : Nat) (scope_start : Int) : Option (Int × Sx) :=
  if toInt pred ≥ sx.tc then some (-1, sx)
  else
    match restore_loop sx.identab sx.curid fuel (subSize sx.id 4) sx.reprtab with
    | none => none
    | some t =>
      some (0, { sx with reprtab := t, curid := 2, tree := tset sx.tree pred sx.maxdispl,
                         lg := -1, displ := scope_start })

/-! ## The macro storage -/

/-- The inline function `storage_add_arg` of `storage.h`.  Its callees
`storage_get_index` and `storage_add_arg_by_index` are declared in the header and
defined in another file: they are parameters here, each giving its value and the
storage after the call.  The `int` that the second one returns is converted to
the `size_t` that `storage_add_arg` returns. -/
def storage_add_arg {Stg Id Arg : Type} (storage_get_index : Stg → Id → Nat × Stg)
    (storage_add_arg_by_index : Stg → Nat → Nat → Arg → Int × Stg)
    (stg : Stg) (id : Id) (index : Nat) (arg : Arg) : Nat × Stg :=
  let i := storage_get_index stg id
  let r := storage_add_arg_by_index i.2 i.1 index arg
  (toSize r.1, r.2)

/-- A sample macro storage: the records in order, each a macro name with the
names of its arguments. -/
abbrev SampleStorage := List (List Nat × List (List Nat))

/-- A sample `storage_get_index` that behaves as documented: the index of the
record named `id`, and `SIZE_MAX` when there is none. -/
def sample_get_index (stg : SampleStorage) (id : List Nat) : Nat × SampleStorage :=
  if (stg.map Prod.fst).indexOf id < stg.length then ((stg.map Prod.fst).indexOf id, stg)
  else (SIZE_MAX, stg)

/-- A sample `storage_add_arg_by_index` that behaves as documented: 0 on success,
when the record exists and `index` is its next argument number, and -1 on
failure. -/
def sample_add_arg_by_index (stg : SampleStorage) (id index : Nat) (arg : List Nat) :
    Int × SampleStorage :=
  match stg.get? id with
  | some m => if index = m.2.length then (0, stg.set id (m.1, m.2 ++ [arg])) else (-1, stg)
  | none => (-1, stg)

/-- A sample storage with the macros `A` (index 0) and `B` (index 1), neither
with arguments. -/
def ex_storage : SampleStorage := [([65], []), ([66], [])]

/-! ## Sequences of calls, and sample contexts -/

/-- The arguments of one call of `ident_add`. -/
structure IdentCall where
  repr : Nat
  type : Int
  mode : Int
  func_def : Int

/-- The context after the calls of `ident_add` in `calls`, in order, whatever
each call returns. -/
def ident_adds (K : Defs) (sx : Sx) (calls : List IdentCall) : Sx :=
  calls.foldl (fun s c => (ident_add K s c.repr c.type c.mode c.func_def).2) sx

/-- The stores of the restore loop for the `k` symbol records at `base`,
`base + 4`, ..., taken from the top record down. -/
def restore_records (identab : Table) (base : Nat) : Nat → Table → Table
  | 0, t => t
  | k + 1, t =>
    restore_records identab base k
      (tsetI t (identab (base + 4 * k + 1) + 1) (identab (base + 4 * k)))

/-- No store of the restore loop over the `k` symbol records at `base`,
`base + 4`, ... falls before the first cell of `reprtab`: the back-reference cell
of each of these records holds -1 or more. -/
def RestoreInTable (identab : Table) (base k : Nat) : Prop :=
  ∀ j, j < k → -1 ≤ identab (base + 4 * j + 1)

/-- The call is a function predeclaration: function kind with `func_def = 2`. -/
def IdentCall.predeclares (c : IdentCall) : Prop :=
  1 < c.type ∧ c.type < 1000 ∧ c.func_def = 2

/-- A step inside a function scope: a variable declaration (`ident_add` with
`type = 0`), the entry of a block scope, or the exit of the block scope entered
last. -/
inductive FrameOp where
  | alloc (repr : Nat) (mode func_def : Int) : FrameOp
  | enter : FrameOp
  | leave : FrameOp

/-- The steps are well nested from the block depth `d`: no `leave` without an
`enter` before it. -/
def frame_nested : Nat → List FrameOp → Prop
  | _, [] => True
  | d, FrameOp.alloc _ _ _ :: ops => frame_nested d ops
  | d, FrameOp.enter :: ops => frame_nested (d + 1) ops
  | 0, FrameOp.leave :: _ => False
  | d + 1, FrameOp.leave :: ops => frame_nested d ops

/-- The steps `ops` run from the context `s`.  `saved` holds the pairs
(`displ`, `lg`) handed out by the block entries that have not been left yet, the
last one first; each exit is called with the pair of its entry.  `high` is the
largest value `displ` has had so far.  The result is `none` when an exit does not
return or has no entry. -/
def frame_run (K : Defs) (fuel : Nat) :
    List FrameOp → Sx → List (Int × Int) → Int → Option (Sx × List (Int × Int) × Int)
  | [], s, saved, high => some (s, saved, high)
  | FrameOp.alloc r m f :: ops, s, saved, high =>
    frame_run K fuel ops (ident_add K s r 0 m f).2 saved
      (max high (ident_add K s r 0 m f).2.displ)
  | FrameOp.enter :: ops, s, saved, high =>
    frame_run K fuel ops (enter_block_scope s).2 ((enter_block_scope s).1 :: saved)
      (max high (enter_block_scope s).2.displ)
  | FrameOp.leave :: ops, s, p :: saved, high =>
    match exit_block_scope fuel s p.1 p.2 with
    | none => none
    | some r => frame_run K fuel ops r.2 saved (max high r.2.displ)
  | FrameOp.leave :: _, _, [], _ => none

/-- The 8-bit hash of a spelling as the specification words it: the sum of the
low bytes of its code points, modulo 256. -/
def spelling_hash (sp : List Nat) : Nat :=
  (sp.map (fun c => c % 256)).sum % 256

/-- The record with handle `h` holds the spelling `sp` and its terminator. -/
def SpellingAt (t : Table) (h : Nat) (sp : List Nat) : Prop :=
  (∀ i, i < sp.length → t (h + 2 + i) = toInt (sp.getD i 0)) ∧ t (h + 2 + sp.length) = 0

/-- A spelling: code points of a `char32_t` string before its terminator. -/
def Spelling (sp : List Nat) : Prop :=
  ∀ c ∈ sp, c ≠ 0 ∧ c < 4294967296

/-- Sample values for the constants of `defs.h`. -/
def sampleDefs : Defs := { MSTRUCT := 1002, MFUNCTION := 1001, LFLOAT := -3 }

/-- The context after `sx_init` on zeroed storage. -/
def ex_init : Sx := (sx_init zeroed).2

/-- The context `ex_init` after `repr_add` of the spelling `f`, which gets the
handle 1. -/
def ex_interned : Sx :=
  match repr_add 4 ex_init [102] with
  | some r => r.2
  | none => ex_init

/-- The context `ex_interned` after the representation 1 has been declared as a
variable: its symbol record is at offset 2. -/
def ex_variable : Sx := (ident_add sampleDefs ex_interned 1 0 (-1) 0).2

/-- The context `ex_interned` after the representation 1 has been predeclared as
function number 2: its symbol record is at offset 2. -/
def ex_predeclared : Sx := (ident_add sampleDefs ex_interned 1 2 0 2).2

/-- The context after `sx_init` and `repr_add` of the spelling `main` while the
keyword counter is 1, as it is when the first keyword is read: the
representation gets the handle 1 and the current-binding slot 0. -/
def ex_main : Sx :=
  match repr_add 4 { ex_init with keywordsnum := 1 } [109, 97, 105, 110] with
  | some r => r.2
  | none => ex_init

/-- The context `ex_main` after the representation 1 has been declared as a
variable of mode -1. -/
def ex_main_variable : Sx := (ident_add sampleDefs ex_main 1 0 (-1) 0).2

/-- The context `ex_main` after `main` has been defined as a function, the
keyword counter has been put back to 0 and the spelling `f` has been interned:
`f` gets the handle 8 and is unbound, and no predeclaration is pending. -/
def ex_program : Sx :=
  match repr_add 4 { (ident_add sampleDefs ex_main 1 2 0 1).2 with keywordsnum := 0 } [102] with
  | some r => r.2
  | none => ex_main

/-- The context `ex_variable` after `repr_add` of the spelling `g`, which gets
the handle 5: the representation 1 is bound to the record at 2, the
representation 5 is unbound. -/
def ex_two : Sx :=
  match repr_add 4 ex_variable [103] with
  | some r => r.2
  | none => ex_variable

/-- The context `ex_two` after a block scope A has been entered and the
representation 5 declared in it as a variable: its record is at 6. -/
def ex_outer : Sx := (ident_add sampleDefs (enter_block_scope ex_two).2 5 0 (-1) 0).2

/-- The context `ex_outer` after a block scope B has been entered and the
representation 1 declared in it as a variable: its record is at 10. -/
def ex_inner : Sx := (ident_add sampleDefs (enter_block_scope ex_outer).2 1 0 (-1) 0).2

/-- The context `ex_two` with one tree cell, after a function scope A has been
entered and the representation 5 declared in it as a variable. -/
def ex_outer_func : Sx :=
  (ident_add sampleDefs (enter_func_scope { ex_two with tc := 1 }).2 5 0 (-1) 0).2

/-- The context `ex_outer_func` after a block scope B has been entered and the
representation 1 declared in it as a variable. -/
def ex_inner_func : Sx :=
  (ident_add sampleDefs (enter_block_scope ex_outer_func).2 1 0 (-1) 0).2

/-- The context `ex_two`, in program scope, after a block scope has been entered
and the representations 1 and 5 declared in it as variables. -/
def ex_global_block : Sx :=
  (ident_add sampleDefs (ident_add sampleDefs (enter_block_scope ex_two).2 1 0 (-1) 0).2
    5 0 (-1) 0).2

/-- The context after `sx_init` and `repr_add` of the spelling `ab`, which gets
the handle 1. -/
def ex_ab : Sx :=
  match repr_add 4 ex_init [97, 98] with
  | some r => r.2
  | none => ex_init

/-- The context after `sx_init` and `repr_add` of the spellings `*2*` (handle 1,
bucket 134) and `x` (handle 7, bucket 120). -/
def ex_chain_a : Sx :=
  match (repr_add 4 ex_init [42, 50, 42]).bind (fun r => repr_add 4 r.2 [120]) with
  | some r => r.2
  | none => ex_init

/-- The context `ex_chain_a` after the representation 1 has been declared
(record 2), a block scope entered, the representation 7 declared in it (record
6) and declared again, which collides. -/
def ex_chain_b : Sx :=
  (ident_add sampleDefs (ident_add sampleDefs
    (enter_block_scope (ident_add sampleDefs ex_chain_a 1 0 (-1) 0).2).2 7 0 (-1) 0).2
    7 0 (-1) 0).2

/-- The context `ex_chain_b` after the block scope has been left and the
representation 7 declared once more (record 14). -/
def ex_chain_c : Sx :=
  match exit_block_scope 4 ex_chain_b ex_chain_a.displ ex_chain_a.lg with
  | some r => (ident_add sampleDefs r.2 7 0 (-1) 0).2
  | none => ex_chain_b

/-- The context `ex_chain_c` after 63 further declarations of the
representation 1 and one more of the representation 7, whose slot is then 270. -/
def ex_chain_d : Sx :=
  (ident_add sampleDefs
    (ident_adds sampleDefs ex_chain_c
      (List.replicate 63 { repr := 1, type := 0, mode := -1, func_def := 0 })) 7 0 (-1) 0).2

/-- A context with two structure records, at the handles 2 and 8, laid out as
tag, size in cells, number of fields (1), then the mode and the name of the
field: the two records differ in the name of the field only. -/
def ex_struct_pair : Sx :=
  { ex_init with
    modetab := (mode_write [1002, 1, 1, -1, 9]
      (mode_write [1002, 1, 1, -1, 5] ex_init.modetab 2).1 8).1,
    md := 13 }

/-- Storage that is zero except for the cell `identab[1]`, which holds 1. -/
def ex_stale : Sx := { zeroed with identab := fun j => if j = 1 then 1 else 0 }

/-- The context after `sx_init` on the storage `ex_stale`, `repr_add` of the
spelling `f` (handle 1) and the declaration of the representation 1 as a
variable: its symbol record is at offset 2. -/
def ex_stale_variable : Sx :=
  match repr_add 4 (sx_init ex_stale).2 [102] with
  | some r => (ident_add sampleDefs r.2 1 0 (-1) 0).2
  | none => ex_stale

/-- The context `ex_init` after `mode_add` of the descriptor of a function with
one parameter. -/
def ex_mode_first : Sx :=
  match mode_add sampleDefs 1 ex_init [1001, -1, 1, -1] with
  | some r => r.2
  | none => ex_init

/-- The context `ex_init` with an empty back-link chain (`startmode = 0`). -/
def ex_mode_empty : Sx := { ex_init with startmode := 0 }

/-- The context `ex_mode_empty` after `mode_add` of the descriptor of a function
with one parameter: the record is committed at offset 1, its handle is 2. -/
def ex_mode : Sx :=
  match mode_add sampleDefs 1 ex_mode_empty [1001, -1, 1, -1] with
  | some r => r.2
  | none => ex_mode_empty

/-- The context `ex_mode_empty` after `mode_add` of the descriptor of a structure
of 3 cells with an `int` member and a floating member: its handle is 2. -/
def ex_struct : Sx :=
  match mode_add sampleDefs 1 ex_mode_empty [1002, 3, 4, -1, 1, -3, 5] with
  | some r => r.2
  | none => ex_mode_empty

/-- The context of `repr_add` after the spelling has been written and the hash
stored, before the bucket walk. -/
def repr_written (sx : Sx) (spelling : List Nat) : Sx :=
  { sx with reprtab := (repr_write spelling sx.reprtab (sx.rp + 2) 0).1,
            rp := (repr_write spelling sx.reprtab (sx.rp + 2) 0).2.1,
            hash := ((repr_write spelling sx.reprtab (sx.rp + 2) 0).2.2 : Int) }

/-- The 8-bit hash that `repr_add` computes for the spelling. -/
def repr_hash (sx : Sx) (spelling : List Nat) : Nat :=
  (repr_write spelling sx.reprtab (sx.rp + 2) 0).2.2

/-! ## Reachable contexts and binding chains -/

/-- The contexts reachable from `sx_init` on the storage `m0` by `repr_add`,
`ident_add` and the scope entries and exits, each with the list of the
representations (the records created by `repr_add`) so far.  A call of
`repr_add` or of a scope exit is a step when it returns; `ident_add` is called on
a representation, with the symbol table below `2 ^ 31` cells; a scope exit runs
over `k` whole symbol records and makes no store before the first cell of
`reprtab`.  The tree pool is filled by the callers of `syntax.c`, which itself
sets `tc` in `sx_init` only and writes `tree` in `exit_func_scope` only: a store
of the caller into `tree` and `tc` is a step as well. -/
inductive Reach (K : Defs) (m0 : Sx) : Sx → List Nat → Prop
  | init : Reach K m0 (sx_init m0).2 []
  | intern (s : Sx) (R : List Nat) (fuel : Nat) (spelling : List Nat) (h : Nat) (s2 : Sx) :
      Reach K m0 s R → repr_add fuel s spelling = some (h, s2) →
      Reach K m0 s2 (if s2.rp = s.rp then R else h :: R)
  | declare (s : Sx) (R : List Nat) (r : Nat) (type mode func_def : Int) :
      Reach K m0 s R → r ∈ R → s.id + 4 < 2147483648 →
      Reach K m0 (ident_add K s r type mode func_def).2 R
  | tree_store (s : Sx) (R : List Nat) (tree : Table) (tc : Int) :
      Reach K m0 s R → Reach K m0 { s with tree := tree, tc := tc } R
  | block_entry (s : Sx) (R : List Nat) :
      Reach K m0 s R → Reach K m0 (enter_block_scope s).2 R
  | block_exit (s : Sx) (R : List Nat) (fuel k : Nat) (old_displ old_lg : Int) (res : Int × Sx) :
      Reach K m0 s R → s.id = s.curid + 4 * k → RestoreInTable s.identab s.curid k →
      exit_block_scope fuel s old_displ old_lg = some res → Reach K m0 res.2 R
  | func_entry (s : Sx) (R : List Nat) :
      Reach K m0 s R → Reach K m0 (enter_func_scope s).2 R
  | func_exit (s : Sx) (R : List Nat) (fuel k : Nat) (pred : Nat) (scope_start : Int)
      (res : Int × Sx) :
      Reach K m0 s R → s.id = s.curid + 4 * k → RestoreInTable s.identab s.curid k →
      exit_func_scope fuel s pred scope_start = some res → Reach K m0 res.2 R

/-- The contexts reachable from `sx_init` on the storage `m0` by `repr_add` of
spellings, by `ident_add` on handles that `repr_add` has returned, by the scope
entries, and by the scope exits whose restore loop runs over `k` symbol records
that each carry the handle of a representation in their back-reference cell (as
the records of successful declarations do); each context comes with the log of
the calls of `repr_add`, last call first: the handle returned and the spelling.
The representation table stays below `2 ^ 31` cells. -/
inductive Interned (K : Defs) (m0 : Sx) : Sx → List (Nat × List Nat) → Prop
  | init : Interned K m0 (sx_init m0).2 []
  | intern (s : Sx) (log : List (Nat × List Nat)) (fuel : Nat) (sp : List Nat) (h : Nat)
      (s2 : Sx) :
      Interned K m0 s log → Spelling sp → s.rp + sp.length + 3 < 2147483648 →
      repr_add fuel s sp = some (h, s2) → Interned K m0 s2 ((h, sp) :: log)
  | declare (s : Sx) (log : List (Nat × List Nat)) (r : Nat) (type mode func_def : Int) :
      Interned K m0 s log → (∃ e ∈ log, e.1 = r) →
      Interned K m0 (ident_add K s r type mode func_def).2 log
  | block_entry (s : Sx) (log : List (Nat × List Nat)) :
      Interned K m0 s log → Interned K m0 (enter_block_scope s).2 log
  | func_entry (s : Sx) (log : List (Nat × List Nat)) :
      Interned K m0 s log → Interned K m0 (enter_func_scope s).2 log
  | block_exit (s : Sx) (log : List (Nat × List Nat)) (fuel k : Nat) (old_displ old_lg : Int)
      (res : Int × Sx) :
      Interned K m0 s log → 4 ≤ s.curid → s.id = s.curid + 4 * k →
      s.id < 18446744073709551616 → k ≤ fuel →
      (∀ j, j < k → ∃ e ∈ log, s.identab (s.curid + 4 * j + 1) = (e.1 : Int)) →
      exit_block_scope fuel s old_displ old_lg = some res → Interned K m0 res.2 log
  | func_exit (s : Sx) (log : List (Nat × List Nat)) (fuel k : Nat) (pred : Nat)
      (scope_start : Int) (res : Int × Sx) :
      Interned K m0 s log → 4 ≤ s.curid → s.id = s.curid + 4 * k →
      s.id < 18446744073709551616 → k ≤ fuel →
      (∀ j, j < k → ∃ e ∈ log, s.identab (s.curid + 4 * j + 1) = (e.1 : Int)) →
      exit_func_scope fuel s pred scope_start = some res → Interned K m0 res.2 log

/-- The invariant of the interned contexts: every logged handle is a record
below `rp` that holds the logged spelling, the records do not overlap, the hash
links and the bucket heads lead to logged handles only, going down, and a handle
is logged with one spelling only. -/
def InternInv (s : Sx) (log : List (Nat × List Nat)) : Prop :=
  (1 ≤ s.rp ∧ s.rp < 2147483648) ∧
  (∀ e ∈ log, Spelling e.2 ∧ 1 ≤ e.1 ∧ e.1 + 2 + e.2.length < s.rp ∧
    SpellingAt s.reprtab e.1 e.2 ∧ 0 ≤ s.reprtab e.1 ∧ s.reprtab e.1 < e.1 ∧
    (s.reprtab e.1 = 0 ∨ ∃ e2 ∈ log, e2.1 = (s.reprtab e.1).toNat)) ∧
  (∀ b, b < 256 → s.hashtab b = 0 ∨ ∃ e ∈ log, e.1 = s.hashtab b) ∧
  (∀ e1 ∈ log, ∀ e2 ∈ log, e1.1 = e2.1 → e1.2 = e2.2) ∧
  (∀ e1 ∈ log, ∀ e2 ∈ log, e1.1 < e2.1 → e1.1 + 2 + e1.2.length < e2.1)

/-- The walk along the previous-binding cells: the offset reached from `i` after
`n` steps `i := identab[i]`. -/
def binding_walk (identab : Table) : Nat → Nat → Nat
  | 0, i => i
  | n + 1, i => binding_walk identab n (toSize (identab i))

/-- A value of a binding cell: the marker 1 of an unbound representation, or
the offset of a symbol record below `bound`. -/
def GoodVal (v : Int) (bound : Nat) : Prop :=
  v = 1 ∨ (2 ≤ v ∧ v < bound ∧ v % 4 = 2)

/-- The invariant of the cursors of the symbol table: records are 4 cells wide
and start at offset 2, and the scope boundary `curid` is the offset of a record
or the cursor `id` itself. -/
def CursorInv (s : Sx) : Prop :=
  s.id % 4 = 2 ∧ s.id < 2147483648 ∧ s.curid % 4 = 2 ∧ s.curid ≤ s.id

/-- The invariant of the reachable contexts behind the binding chains: the
previous-binding cell of every symbol record and the current-binding slot of
every representation hold the marker 1 or the offset of a record, which for a
previous binding lies below the record itself. -/
def BindingInv (s : Sx) (R : List Nat) : Prop :=
  (∀ i, i % 4 = 2 → i < s.id → GoodVal (s.identab i) i) ∧
  (∀ r ∈ R, r + 1 < s.rp ∧ GoodVal (s.reprtab (r + 1)) s.id) ∧
  s.keywordsnum = 0

/-! ## Well-formed mode tables -/

/-- The context of `mode_add` after the back-link cell and the cells of `record`
have been written, before the duplicate search. -/
def mode_written (sx : Sx) (record : List Int) : Sx :=
  { sx with modetab := (mode_write record (tset sx.modetab sx.md (toInt sx.startmode)) (sx.md + 1)).1,
            startmode := sx.md,
            md := (mode_write record (tset sx.modetab sx.md (toInt sx.startmode)) (sx.md + 1)).2 }

/-- The exit of `mode_add` on a duplicate: the cursor is rewound to the record
just written and the head goes back one step. -/
def mode_rewound (sx : Sx) : Sx :=
  { sx with md := sx.startmode, startmode := toSize (sx.modetab sx.startmode) }

/-- The list `chain` holds the records met from `o` along the back-links, which
strictly decrease down to 0. -/
def ModeChain (t : Table) : Nat → List Nat → Prop
  | o, [] => o = 0
  | o, a :: l => o = a ∧ a ≠ 0 ∧ 0 ≤ t a ∧ t a < a ∧ ModeChain t (t a).toNat l

/-- The number of cells after the tag that `mode_is_equal` compares for a
record holding the descriptor `d`. -/
def desc_length (K : Defs) (d : List Int) : Nat :=
  if d.getD 0 0 = K.MSTRUCT ∨ d.getD 0 0 = K.MFUNCTION then toSize (2 + d.getD 2 0) else 1

/-- A well-formed descriptor: it holds its tag and every cell the comparison
reads, and the count in cell 2 of a structure or function is a non-negative
`int`. -/
def DescOK (K : Defs) (d : List Int) : Prop :=
  desc_length K d < d.length ∧
  ((d.getD 0 0 = K.MSTRUCT ∨ d.getD 0 0 = K.MFUNCTION) →
    0 ≤ d.getD 2 0 ∧ d.getD 2 0 < 2147483648)

/-- The count in cell 2 of a structure or function record with handle `h` is a
non-negative `int`. -/
def CountOK (K : Defs) (t : Table) (h : Nat) : Prop :=
  (t h = K.MSTRUCT ∨ t h = K.MFUNCTION) → 0 ≤ t (h + 2) ∧ t (h + 2) < 2147483648

/-- The record with back-link cell `o` is well formed and lies below `md`. -/
def RecOK (K : Defs) (t : Table) (md : Nat) (o : Nat) : Prop :=
  o + 1 + mode_length K t (o + 1) < md ∧ CountOK K t (o + 1)

/-- The mode table is well formed: the back-link chain from `startmode` is
`chain` and strictly decreases to 0, its records are well formed and lie below
`md`, and no two of them are equal under `mode_is_equal`. -/
def ModeTableOK (K : Defs) (sx : Sx) (chain : List Nat) : Prop :=
  0 < sx.md ∧ ModeChain sx.modetab sx.startmode chain ∧
  (∀ o ∈ chain, RecOK K sx.modetab sx.md o) ∧
  (∀ a ∈ chain, ∀ b ∈ chain, a ≠ b → mode_is_equal K sx (a + 1) (b + 1) = some false)

/-- The record with handle `h` holds the tag and the compared cells of `d`. -/
def RecordIs (K : Defs) (t : Table) (h : Nat) (d : List Int) : Prop :=
  ∀ i, i ≤ desc_length K d → t (h + i) = d.getD i 0

/-- The tag cells agree and so do the cells the comparison reads for the record
at `a`: what `mode_is_equal` tests. -/
def ModeEq (K : Defs) (t : Table) (a b : Nat) : Prop :=
  t a = t b ∧ ∀ k, k < mode_length K t a → t (a + (k + 1)) = t (b + (k + 1))

/-- The records with handles `a` and `b` have the same tag, the same number of
compared cells and the same compared cells. -/
def SameRec (K : Defs) (t : Table) (a b : Nat) : Prop :=
  t a = t b ∧ mode_length K t a = mode_length K t b ∧
  ∀ k, k < mode_length K t a → t (a + (k + 1)) = t (b + (k + 1))

/-! ## Conversions and stores -/

theorem toInt_of_lt (n : Nat) (h : n < 2147483648) : toInt n = (n : Int) := by
  unfold toInt; omega

theorem toSize_natCast (n : Nat) (h : n < 18446744073709551616) : toSize (n : Int) = n := by
  unfold toSize; omega

theorem toSize_of_nonneg (i : Int) (h0 : 0 ≤ i) (h : i < 18446744073709551616) :
    toSize i = i.toNat := by
  unfold toSize; rw [Int.emod_eq_of_lt h0 h]

theorem tsetI_natCast (t : Table) (i : Nat) (v : Int) : tsetI t (i : Int) v = tset t i v := by
  unfold tsetI
  simp

theorem tset_eq (t : Table) (i : Nat) (v : Int) : tset t i v i = v := by
  simp [tset]

theorem tset_ne (t : Table) (i j : Nat) (v : Int) (h : j ≠ i) : tset t i v j = t j := by
  simp [tset, h]

/-! ## The code pool -/

/-- C4: `mem_set` at the index 4294967295, which is not below `mem_get_size` (4
after `sx_init`), returns 0 and stores the value: the test `(int)index >= sx->pc`
sees the index as -1. -/
theorem mem_set_beyond_size :
    ¬ (4294967295 < mem_get_size ex_init) ∧
    (mem_set ex_init 4294967295 7).1 = 0 ∧
    (mem_set ex_init 4294967295 7).2.mem 4294967295 = 7 := by
  decide

/-- For an index and a cursor `pc` that fit a non-negative `int`, `mem_set`
stores the value and returns 0 when the index is below `mem_get_size`, and
returns -1 and leaves the context as it is otherwise. -/
theorem mem_set_small_index (sx : Sx) (index : Nat) (value : Int)
    (hi : index < 2147483648) (hpc : 0 ≤ sx.pc) (hpc2 : sx.pc < 2147483648) :
    (index < mem_get_size sx →
      (mem_set sx index value).1 = 0 ∧ (mem_set sx index value).2.mem index = value) ∧
    (¬ index < mem_get_size sx → mem_set sx index value = (-1, sx)) := by
  have hsz : mem_get_size sx = sx.pc.toNat := by
    unfold mem_get_size
    exact toSize_of_nonneg _ hpc (by omega)
  have hti := toInt_of_lt index hi
  constructor
  · intro h
    rw [hsz] at h
    have hc : ¬ (toInt index ≥ sx.pc) := by rw [hti]; omega
    have e : mem_set sx index value = (0, { sx with mem := tset sx.mem index value }) := by
      unfold mem_set
      rw [if_neg hc]
    rw [e]
    exact ⟨rfl, tset_eq _ _ _⟩
  · intro h
    rw [hsz] at h
    have hc : toInt index ≥ sx.pc := by rw [hti]; omega
    unfold mem_set
    rw [if_pos hc]

/-! ## The name table -/

/-- C1: after `sx_init` on zeroed storage and two calls `repr_add` of `abc`
(both return 1, the second leaves its tail above `rp`), two calls in a row of
`repr_add` of the empty spelling return the different handles 7 and 10, and `rp`
grows on both. -/
theorem repr_add_empty_twice :
    ∃ s1 s2 s3 s4,
      repr_add 10 ex_init [97, 98, 99] = some (1, s1) ∧
      repr_add 10 s1 [97, 98, 99] = some (1, s2) ∧
      repr_add 10 s2 [] = some (7, s3) ∧
      repr_add 10 s3 [] = some (10, s4) ∧ s2.rp = 7 ∧ s3.rp = 10 ∧ s4.rp = 13 := by
  refine ⟨_, _, _, _, rfl, rfl, rfl, rfl, ?_, ?_, ?_⟩ <;> rfl

/-! ## Identifiers -/

theorem ident_link_identab (sx : Sx) (l r : Nat) :
    (ident_link sx l r).identab = tset sx.identab l (sx.reprtab (r + 1)) := by
  unfold ident_link repr_set_reference
  dsimp only
  split_ifs <;> rfl

theorem ident_link_curid (sx : Sx) (l r : Nat) : (ident_link sx l r).curid = sx.curid := by
  unfold ident_link repr_set_reference
  dsimp only
  split_ifs <;> rfl

theorem ident_link_prdf (sx : Sx) (l r : Nat) : (ident_link sx l r).prdf = sx.prdf := by
  unfold ident_link repr_set_reference
  dsimp only
  split_ifs <;> rfl

theorem ident_link_predef (sx : Sx) (l r : Nat) : (ident_link sx l r).predef = sx.predef := by
  unfold ident_link repr_set_reference
  dsimp only
  split_ifs <;> rfl

/-- The record written for a function predeclaration. -/
theorem ident_fill_predecl (K : Defs) (sx : Sx) (l r : Nat) (type mode : Int)
    (h1 : 1 < type) (h2 : type < 1000) :
    (ident_fill K sx l r type mode 2).identab (l + 1) = -(toInt r) ∧
    (ident_fill K sx l r type mode 2).prdf = sx.prdf + 1 ∧
    (ident_fill K sx l r type mode 2).predef = tsetI sx.predef (sx.prdf + 1) (toInt r) := by
  have a1 : ¬ type = 1 := by omega
  have a2 : ¬ type ≥ 1000 := by omega
  have a3 : type ≠ 0 := by omega
  have a4 : ¬ type < 0 := by omega
  unfold ident_fill ident_set_displ ident_set_mode
  simp only [a1, a2, a3, a4, if_false, if_true, ne_eq, not_false_eq_true]
  split_ifs <;> simp [tset]

/-- The record written for a function definition. -/
theorem ident_fill_define (K : Defs) (sx : Sx) (l r : Nat) (type mode func_def : Int)
    (h1 : 1 < type) (h2 : type < 1000) (h3 : func_def ≠ 2) :
    (ident_fill K sx l r type mode func_def).prdf = sx.prdf ∧
    (ident_fill K sx l r type mode func_def).predef = predef_clear sx.predef sx.prdf r := by
  have a1 : ¬ type = 1 := by omega
  have a2 : ¬ type ≥ 1000 := by omega
  have a3 : type ≠ 0 := by omega
  have a4 : ¬ type < 0 := by omega
  unfold ident_fill ident_set_displ ident_set_mode
  simp only [a1, a2, a3, a4, h3, if_false, if_true, ne_eq, not_false_eq_true]
  split_ifs <;> simp

theorem predef_clear_range (r : Nat) (n : Nat) (p : Table) (j : Nat) :
    (List.range n).foldl (predef_clear_step r) p j
      = if j < n ∧ toSize (p j) = r then 0 else p j := by
  induction n with
  | zero => simp
  | succ n ih =>
    rw [List.range_succ, List.foldl_append]
    simp only [List.foldl_cons, List.foldl_nil]
    generalize hq : (List.range n).foldl (predef_clear_step r) p = q at ih
    unfold predef_clear_step
    by_cases hj : j = n
    · subst hj
      have hn : q j = p j := by rw [ih]; simp
      split_ifs with h1 h2 h2
      · simp [tset]
      · exfalso; apply h2; rw [hn] at h1; exact ⟨by omega, h1⟩
      · exfalso; apply h1; rw [hn]; exact h2.2
      · exact hn
    · have : (if toSize (q n) = r then tset q n 0 else q) j = q j := by
        split_ifs
        · simp [tset, hj]
        · rfl
      rw [this, ih]
      have : (j < n + 1) ↔ (j < n) := by omega
      simp only [this]

theorem predef_clear_ne (p : Table) (prdf : Int) (r : Nat) (hr : 1 ≤ r)
    (hr2 : r < 18446744073709551616) (i : Nat) (hi : (i : Int) ≤ prdf) :
    predef_clear p prdf r i ≠ (r : Int) := by
  unfold predef_clear
  rw [predef_clear_range]
  split_ifs with h
  · omega
  · intro he
    apply h
    refine ⟨by omega, ?_⟩
    rw [he]; exact toSize_natCast r hr2


theorem repr_get_reference_ne_zero (sx : Sx) (r : Nat) (h : sx.reprtab (r + 1) ≠ 0) :
    ¬ (repr_get_reference sx r = 0) := by
  unfold repr_get_reference INT_MAX
  split_ifs
  · decide
  · exact h

/-- C8: when the current binding of a representation is a symbol record `p` of
the current scope (`curid <= p`) whose back-reference `identab[p + 1]` is
positive, `ident_add` with a kind other than label (`type != 1`) returns
`SIZE_MAX - 1`, whatever `func_def` is. -/
theorem ident_add_duplicate_rejected (K : Defs) (sx : Sx) (repr p : Nat)
    (type mode func_def : Int)
    (hslot : sx.reprtab (repr + 1) = (p : Int)) (hp : 2 ≤ p) (hrec : p + 4 ≤ sx.id)
    (hid : sx.id < 18446744073709551616) (hcur : sx.curid ≤ p)
    (hback : 0 < sx.identab (p + 1)) (htype : type ≠ 1) :
    (ident_add K sx repr type mode func_def).1 = SIZE_MAX - 1 := by
  have hps : toSize (p : Int) = p := toSize_natCast p (by omega)
  have h1 : p + 1 ≠ sx.id := by omega
  have hmain : ¬ (repr_get_reference { sx with id := addSize sx.id 4 } repr = 0) :=
    repr_get_reference_ne_zero _ repr (by simp only [hslot]; omega)
  have hcol : ident_collides (ident_link { sx with id := addSize sx.id 4 } sx.id repr) p func_def
      = true := by
    have ha : addSize p 1 = p + 1 := by unfold addSize; omega
    unfold ident_collides
    rw [ident_link_identab, ha]
    simp only [tset, h1, if_false, hback, if_true, ite_self]
  unfold ident_add
  simp only [hmain, false_and, if_false, ident_link_identab, ident_link_curid, tset_eq, hslot, hps,
    hcol, htype, ne_eq, not_false_eq_true, true_and, ge_iff_le, hcur, and_self, if_true]

/-- Witness for C8: the representation 1 of `ex_variable` is bound to the
record 2 of the current scope, and a second declaration with `func_def = 1` is
rejected. -/
theorem ident_add_duplicate_rejected_witness :
    (ident_add sampleDefs ex_variable 1 0 (-1) 1).1 = SIZE_MAX - 1 :=
  ident_add_duplicate_rejected sampleDefs ex_variable 1 2 0 (-1) 1 (by decide) (by decide)
    (by decide) (by decide) (by decide) (by decide) (by decide)

/-- C10: `ident_add` of function kind (`1 < type < 1000`) with `func_def = 2` on a
representation `r` whose current binding is 1 (unbound user identifier) returns
the handle `h = id`, stores `-r` in `identab[h + 1]`, increases `prdf` by one,
stores `r` in `predef[prdf]` and changes no other cell of `predef`.  The context
has `2 <= curid` and `-1 <= prdf`, as every context has from `sx_init` on, and
`r` fits an `int`. -/
theorem ident_add_predeclaration (K : Defs) (sx : Sx) (r : Nat) (type mode : Int)
    (hslot : sx.reprtab (r + 1) = 1) (hcur : 2 ≤ sx.curid)
    (h1 : 1 < type) (h2 : type < 1000) (hr : r < 2147483648) (hprdf : -1 ≤ sx.prdf) :
    (ident_add K sx r type mode 2).1 = sx.id ∧
    (ident_add K sx r type mode 2).2.identab ((ident_add K sx r type mode 2).1 + 1) = -(r : Int) ∧
    (ident_add K sx r type mode 2).2.prdf = sx.prdf + 1 ∧
    (ident_add K sx r type mode 2).2.predef ((ident_add K sx r type mode 2).2.prdf).toNat = (r : Int) ∧
    ∀ j : Nat, (j : Int) ≠ sx.prdf + 1 →
      (ident_add K sx r type mode 2).2.predef j = sx.predef j := by
  have hmain : ¬ (repr_get_reference { sx with id := addSize sx.id 4 } r = 0) :=
    repr_get_reference_ne_zero _ r (by simp [hslot])
  have hone : toSize 1 = 1 := by decide
  have hncol : ¬ (sx.curid ≤ 1) := by omega
  have hadd : ident_add K sx r type mode 2
      = (sx.id, ident_fill K (ident_link { sx with id := addSize sx.id 4 } sx.id r) sx.id r type mode 2) := by
    unfold ident_add
    simp only [hmain, false_and, if_false, ident_link_identab, ident_link_curid, tset_eq, hslot,
      hone, ge_iff_le, hncol, and_false]
  obtain ⟨f1, f2, f3⟩ := ident_fill_predecl K (ident_link { sx with id := addSize sx.id 4 } sx.id r)
    sx.id r type mode h1 h2
  rw [hadd]
  simp only [f1, f2, f3, ident_link_prdf, ident_link_predef, toInt_of_lt r hr]
  refine ⟨trivial, trivial, trivial, ?_, ?_⟩
  · unfold tsetI
    rw [if_pos (by omega)]
    exact tset_eq _ _ _
  · intro j hj
    unfold tsetI
    rw [if_pos (by omega)]
    apply tset_ne
    omega

/-- Witness for C10: predeclaring the representation 1 of `ex_interned`. -/
theorem ident_add_predeclaration_witness :
    (ident_add sampleDefs ex_interned 1 2 0 2).1 = ex_interned.id ∧
    (ident_add sampleDefs ex_interned 1 2 0 2).2.prdf = ex_interned.prdf + 1 :=
  ⟨(ident_add_predeclaration sampleDefs ex_interned 1 2 0 (by decide) (by decide) (by decide)
      (by decide) (by decide) (by decide)).1,
   (ident_add_predeclaration sampleDefs ex_interned 1 2 0 (by decide) (by decide) (by decide)
      (by decide) (by decide) (by decide)).2.2.1⟩

/-- Counterexample for C9: in `ex_predeclared` the representation 1 is bound to
the pending predeclaration at record 2 of the current scope, and `ident_add` of
function kind with `func_def = 3` returns the sentinel `SIZE_MAX - 1`. -/
theorem ident_add_func_def_three_collides :
    ex_predeclared.reprtab (1 + 1) = 2 ∧ ex_predeclared.curid ≤ 2 ∧
    ex_predeclared.identab (2 + 1) = -1 ∧
    (ident_add sampleDefs ex_predeclared 1 2 0 3).1 = SIZE_MAX - 1 := by
  decide

/-- C9, amended: when the current binding of the representation `r` is a pending
function predeclaration `p` of the current scope (`curid <= p`,
`identab[p + 1] = -r`), `ident_add` of function kind with `func_def = 1` returns
the fresh handle `id`, which is no sentinel, and afterwards no entry of
`predef[0..prdf]` equals `r`; with `func_def = 3` it returns `SIZE_MAX - 1`. -/
theorem ident_add_definition_after_predeclaration (K : Defs) (sx : Sx) (r p : Nat)
    (type mode : Int)
    (hslot : sx.reprtab (r + 1) = (p : Int)) (hp : 2 ≤ p) (hrec : p + 4 ≤ sx.id)
    (hid : sx.id + 4 < 18446744073709551616) (hcur : sx.curid ≤ p)
    (hback : sx.identab (p + 1) = -(r : Int)) (hr : 1 ≤ r) (hr2 : r < 18446744073709551616)
    (h1 : 1 < type) (h2 : type < 1000) :
    ((ident_add K sx r type mode 1).1 = sx.id ∧ sx.id < SIZE_MAX - 1 ∧
      ∀ i : Nat, (i : Int) ≤ (ident_add K sx r type mode 1).2.prdf →
        (ident_add K sx r type mode 1).2.predef i ≠ (r : Int)) ∧
    (ident_add K sx r type mode 3).1 = SIZE_MAX - 1 := by
  have hps : toSize (p : Int) = p := toSize_natCast p (by omega)
  have hne : p + 1 ≠ sx.id := by omega
  have hmain : ¬ (repr_get_reference { sx with id := addSize sx.id 4 } r = 0) :=
    repr_get_reference_ne_zero _ r (by simp only [hslot]; omega)
  have hcol1 : ident_collides (ident_link { sx with id := addSize sx.id 4 } sx.id r) p 1
      = false := by
    have ha : addSize p 1 = p + 1 := by unfold addSize; omega
    unfold ident_collides
    rw [ident_link_identab, ha]
    have : ¬ (-(r : Int) > 0) := by omega
    simp [tset, hne, hback, this]
  have hcol3 : ident_collides (ident_link { sx with id := addSize sx.id 4 } sx.id r) p 3
      = true := by
    unfold ident_collides
    simp
  have hadd : ident_add K sx r type mode 1
      = (sx.id, ident_fill K (ident_link { sx with id := addSize sx.id 4 } sx.id r) sx.id r type mode 1) := by
    unfold ident_add
    simp only [hmain, false_and, if_false, ident_link_identab, ident_link_curid, tset_eq, hslot,
      hps, hcol1, Bool.false_eq_true, and_false]
  refine ⟨⟨?_, ?_, ?_⟩, ?_⟩
  · rw [hadd]
  · unfold SIZE_MAX; omega
  · obtain ⟨f1, f2⟩ := ident_fill_define K (ident_link { sx with id := addSize sx.id 4 } sx.id r)
      sx.id r type mode 1 h1 h2 (by decide)
    rw [hadd]
    simp only [f1, f2, ident_link_prdf, ident_link_predef]
    intro i hi
    exact predef_clear_ne _ _ r hr hr2 i hi
  · have htype : type ≠ 1 := by omega
    unfold ident_add
    simp only [hmain, false_and, if_false, ident_link_identab, ident_link_curid, tset_eq, hslot,
      hps, hcol3, htype, ne_eq, not_false_eq_true, true_and, ge_iff_le, hcur, and_self, if_true]

/-- Witness for C9: defining the predeclared representation 1 of
`ex_predeclared`. -/
theorem ident_add_definition_after_predeclaration_witness :
    (ident_add sampleDefs ex_predeclared 1 2 0 1).1 = ex_predeclared.id ∧
    (ident_add sampleDefs ex_predeclared 1 2 0 3).1 = SIZE_MAX - 1 :=
  ⟨(ident_add_definition_after_predeclaration sampleDefs ex_predeclared 1 2 2 0 (by decide)
      (by decide) (by decide) (by decide) (by decide) (by decide) (by decide) (by decide)
      (by decide) (by decide)).1.1,
   (ident_add_definition_after_predeclaration sampleDefs ex_predeclared 1 2 2 0 (by decide)
      (by decide) (by decide) (by decide) (by decide) (by decide) (by decide) (by decide)
      (by decide) (by decide)).2⟩

theorem ident_set_mode_frame (sx : Sx) (i : Nat) (m : Int) :
    (ident_set_mode sx i m).2.id = sx.id ∧ (ident_set_mode sx i m).2.curid = sx.curid ∧
    (ident_set_mode sx i m).2.rp = sx.rp ∧ (ident_set_mode sx i m).2.tc = sx.tc ∧
    (ident_set_mode sx i m).2.keywordsnum = sx.keywordsnum ∧
    (ident_set_mode sx i m).2.reprtab = sx.reprtab ∧
    (ident_set_mode sx i m).2.displ = sx.displ ∧ (ident_set_mode sx i m).2.lg = sx.lg ∧
    (ident_set_mode sx i m).2.prdf = sx.prdf ∧ (ident_set_mode sx i m).2.predef = sx.predef := by
  unfold ident_set_mode
  split_ifs <;> simp

theorem ident_set_mode_identab (sx : Sx) (i : Nat) (m : Int) (j : Nat) (hj : j ≠ i + 2) :
    (ident_set_mode sx i m).2.identab j = sx.identab j := by
  unfold ident_set_mode
  split_ifs <;> simp [tset, hj]

theorem ident_set_displ_frame (sx : Sx) (i : Nat) (m : Int) :
    (ident_set_displ sx i m).2.id = sx.id ∧ (ident_set_displ sx i m).2.curid = sx.curid ∧
    (ident_set_displ sx i m).2.rp = sx.rp ∧ (ident_set_displ sx i m).2.tc = sx.tc ∧
    (ident_set_displ sx i m).2.keywordsnum = sx.keywordsnum ∧
    (ident_set_displ sx i m).2.reprtab = sx.reprtab ∧
    (ident_set_displ sx i m).2.displ = sx.displ ∧ (ident_set_displ sx i m).2.lg = sx.lg ∧
    (ident_set_displ sx i m).2.prdf = sx.prdf ∧ (ident_set_displ sx i m).2.predef = sx.predef := by
  unfold ident_set_displ
  split_ifs <;> simp

theorem ident_set_displ_identab (sx : Sx) (i : Nat) (m : Int) (j : Nat) (hj : j ≠ i + 3) :
    (ident_set_displ sx i m).2.identab j = sx.identab j := by
  unfold ident_set_displ
  split_ifs <;> simp [tset, hj]

theorem getstatic_frame (K : Defs) (sx : Sx) (m : Int) :
    (getstatic K sx m).2.id = sx.id ∧ (getstatic K sx m).2.curid = sx.curid ∧
    (getstatic K sx m).2.rp = sx.rp ∧ (getstatic K sx m).2.tc = sx.tc ∧
    (getstatic K sx m).2.keywordsnum = sx.keywordsnum ∧
    (getstatic K sx m).2.reprtab = sx.reprtab ∧ (getstatic K sx m).2.identab = sx.identab ∧
    (getstatic K sx m).2.lg = sx.lg ∧
    (getstatic K sx m).2.prdf = sx.prdf ∧ (getstatic K sx m).2.predef = sx.predef := by
  unfold getstatic
  dsimp only
  split_ifs <;> simp

theorem ident_link_frame (sx : Sx) (l r : Nat) :
    (ident_link sx l r).id = sx.id ∧ (ident_link sx l r).rp = sx.rp ∧
    (ident_link sx l r).tc = sx.tc ∧ (ident_link sx l r).keywordsnum = sx.keywordsnum ∧
    (ident_link sx l r).displ = sx.displ ∧ (ident_link sx l r).lg = sx.lg := by
  unfold ident_link repr_set_reference
  dsimp only
  split_ifs <;> simp

theorem ident_link_reprtab (sx : Sx) (l r : Nat) :
    (ident_link sx l r).reprtab =
      if toSize (sx.reprtab (r + 1)) ≠ 0 ∧ r < sx.rp then tset sx.reprtab (r + 1) (toInt l)
      else sx.reprtab := by
  unfold ident_link repr_set_reference
  dsimp only
  simp only [tset_eq]
  split_ifs <;> dsimp only at * <;> first | rfl | (exfalso; omega)

theorem ident_fill_frame (K : Defs) (sx : Sx) (l r : Nat) (type mode fd : Int) :
    (ident_fill K sx l r type mode fd).id = sx.id ∧
    (ident_fill K sx l r type mode fd).curid = sx.curid ∧
    (ident_fill K sx l r type mode fd).rp = sx.rp ∧
    (ident_fill K sx l r type mode fd).tc = sx.tc ∧
    (ident_fill K sx l r type mode fd).keywordsnum = sx.keywordsnum ∧
    (ident_fill K sx l r type mode fd).reprtab = sx.reprtab := by
  unfold ident_fill
  split_ifs <;>
    simp [ident_set_mode_frame, ident_set_displ_frame, getstatic_frame]

theorem ident_fill_identab (K : Defs) (sx : Sx) (l r : Nat) (type mode fd : Int) (j : Nat)
    (hj : j < l + 1 ∨ l + 4 ≤ j) :
    (ident_fill K sx l r type mode fd).identab j = sx.identab j := by
  have h1 : j ≠ l + 1 := by omega
  have h2 : j ≠ l + 2 := by omega
  have h3 : j ≠ l + 3 := by omega
  unfold ident_fill
  split_ifs <;>
    simp [ident_set_mode_identab, ident_set_displ_identab, getstatic_frame, tset, h1, h2, h3]

theorem ident_fill_backref (K : Defs) (sx : Sx) (l r : Nat) (type mode fd : Int)
    (h : ¬ (1 < type ∧ type < 1000 ∧ fd = 2)) :
    (ident_fill K sx l r type mode fd).identab (l + 1) = toInt r := by
  unfold ident_fill
  split_ifs <;> first
    | (exfalso; omega)
    | simp [ident_set_mode_identab, ident_set_displ_identab, getstatic_frame, tset]


/-! ## Scopes -/

theorem subSize_four (i : Nat) (h4 : 4 ≤ i) (h : i < 18446744073709551616) :
    subSize i 4 = i - 4 := by
  unfold subSize; omega

theorem addSize_of_lt (a b : Nat) (h : a + b < 18446744073709551616) : addSize a b = a + b := by
  unfold addSize; omega

theorem ident_add_frame (K : Defs) (sx : Sx) (r : Nat) (type mode fd : Int) :
    (ident_add K sx r type mode fd).2.id = addSize sx.id 4 ∧
    (ident_add K sx r type mode fd).2.curid = sx.curid ∧
    (ident_add K sx r type mode fd).2.rp = sx.rp ∧
    (ident_add K sx r type mode fd).2.tc = sx.tc ∧
    (ident_add K sx r type mode fd).2.keywordsnum = sx.keywordsnum := by
  unfold ident_add
  dsimp only
  split_ifs <;> simp [ident_fill_frame, ident_link_frame, ident_link_curid]

theorem ident_add_identab (K : Defs) (sx : Sx) (r : Nat) (type mode fd : Int) (j : Nat)
    (hj : j < sx.id ∨ sx.id + 4 ≤ j) :
    (ident_add K sx r type mode fd).2.identab j = sx.identab j := by
  have h0 : j ≠ sx.id := by omega
  unfold ident_add
  dsimp only
  split_ifs
  · rfl
  · simp [ident_link_identab, tset, h0]
  · rw [ident_fill_identab K _ _ _ _ _ _ j (by omega)]
    simp [ident_link_identab, tset, h0]

theorem ident_adds_nil (K : Defs) (sx : Sx) : ident_adds K sx [] = sx := rfl

theorem ident_adds_snoc (K : Defs) (sx : Sx) (calls : List IdentCall) (c : IdentCall) :
    ident_adds K sx (calls ++ [c])
      = (ident_add K (ident_adds K sx calls) c.repr c.type c.mode c.func_def).2 := by
  unfold ident_adds
  rw [List.foldl_append]
  rfl

theorem ident_adds_frame (K : Defs) (sx : Sx) (calls : List IdentCall)
    (h : sx.id + 4 * calls.length < 18446744073709551616) :
    (ident_adds K sx calls).id = sx.id + 4 * calls.length ∧
    (ident_adds K sx calls).curid = sx.curid ∧
    (ident_adds K sx calls).tc = sx.tc ∧
    (ident_adds K sx calls).rp = sx.rp := by
  induction calls using List.reverseRecOn with
  | nil => simp [ident_adds_nil]
  | append_singleton calls c ih =>
    rw [List.length_append, List.length_singleton] at h
    obtain ⟨i1, i2, i3, i4⟩ := ih (by omega)
    obtain ⟨f1, f2, f3, f4, _⟩ :=
      ident_add_frame K (ident_adds K sx calls) c.repr c.type c.mode c.func_def
    rw [ident_adds_snoc, f1, f2, f3, f4, i1, i2, i3, i4, List.length_append,
      List.length_singleton, addSize_of_lt _ _ (by omega)]
    exact ⟨by omega, rfl, rfl, rfl⟩

/-- The restore loop over `k` whole records above `base` ends, and its stores
are those of `restore_records`. -/
theorem restore_loop_eq (identab : Table) (base : Nat) (hb : 4 ≤ base) (k : Nat) :
    ∀ (fuel : Nat) (t : Table), base + 4 * k < 18446744073709551616 → k ≤ fuel →
      restore_loop identab base fuel (subSize (base + 4 * k) 4) t
        = some (restore_records identab base k t) := by
  induction k with
  | zero =>
    intro fuel t hlt _
    have h : ¬ (subSize (base + 4 * 0) 4 ≥ base) := by
      rw [subSize_four _ (by omega) (by omega)]; omega
    cases fuel <;> simp only [restore_loop, h, if_false, restore_records]
  | succ k ih =>
    intro fuel t hlt hf
    obtain ⟨f, rfl⟩ : ∃ f, fuel = f + 1 := ⟨fuel - 1, by omega⟩
    have e1 : subSize (base + 4 * (k + 1)) 4 = base + 4 * k := by
      rw [subSize_four _ (by omega) (by omega)]; omega
    have e2 : addSize (base + 4 * k) 1 = base + 4 * k + 1 := addSize_of_lt _ _ (by omega)
    have h : base + 4 * k ≥ base := by omega
    rw [e1]
    simp only [restore_loop, h, if_true, e2, restore_records]
    exact ih f _ (by omega) (by omega)

theorem ident_add_cases (K : Defs) (sx : Sx) (r : Nat) (type mode fd : Int)
    (hpre : ¬ (1 < type ∧ type < 1000 ∧ fd = 2)) :
    ((ident_add K sx r type mode fd).2.reprtab = sx.reprtab ∧
      (ident_add K sx r type mode fd).2.identab sx.id = sx.identab sx.id ∧
      (ident_add K sx r type mode fd).2.identab (sx.id + 1) = sx.identab (sx.id + 1)) ∨
    (((ident_add K sx r type mode fd).2.reprtab = sx.reprtab ∨
        (ident_add K sx r type mode fd).2.reprtab = tset sx.reprtab (r + 1) (toInt sx.id)) ∧
      (ident_add K sx r type mode fd).2.identab sx.id = sx.reprtab (r + 1) ∧
      (ident_add K sx r type mode fd).2.identab (sx.id + 1) = sx.identab (sx.id + 1) ∧
      sx.curid ≤ toSize (sx.reprtab (r + 1))) ∨
    (((ident_add K sx r type mode fd).2.reprtab = sx.reprtab ∨
        (ident_add K sx r type mode fd).2.reprtab = tset sx.reprtab (r + 1) (toInt sx.id)) ∧
      (ident_add K sx r type mode fd).2.identab sx.id = sx.reprtab (r + 1) ∧
      (ident_add K sx r type mode fd).2.identab (sx.id + 1) = toInt r) := by
  have hrep : (ident_link { sx with id := addSize sx.id 4 } sx.id r).reprtab = sx.reprtab ∨
      (ident_link { sx with id := addSize sx.id 4 } sx.id r).reprtab
        = tset sx.reprtab (r + 1) (toInt sx.id) := by
    rw [ident_link_reprtab]
    split_ifs
    · right; rfl
    · left; rfl
  unfold ident_add
  dsimp only
  split_ifs with h1 h2
  · left; exact ⟨rfl, rfl, rfl⟩
  · right; left
    refine ⟨hrep, ?_, ?_, ?_⟩
    · rw [ident_link_identab]; exact tset_eq _ _ _
    · rw [ident_link_identab]; exact tset_ne _ _ _ _ (by omega)
    · have := h2.2.1
      rw [ident_link_identab, tset_eq, ident_link_curid] at this
      exact this
  · right; right
    refine ⟨?_, ?_, ?_⟩
    · rw [(ident_fill_frame K _ _ _ _ _ _).2.2.2.2.2]; exact hrep
    · rw [ident_fill_identab K _ _ _ _ _ _ _ (by omega), ident_link_identab]; exact tset_eq _ _ _
    · exact ident_fill_backref K _ _ _ _ _ _ hpre

theorem restore_records_congr_cell (identab : Table) (base : Nat) (c : Nat) (k : Nat) :
    ∀ t t2 : Table, t c = t2 c →
      restore_records identab base k t c = restore_records identab base k t2 c := by
  induction k with
  | zero => intro t t2 h; exact h
  | succ k ih =>
    intro t t2 h
    simp only [restore_records]
    apply ih
    unfold tsetI
    split_ifs
    · unfold tset; split_ifs
      · rfl
      · exact h
    · exact h

theorem restore_records_targeted (identab : Table) (base : Nat) (c : Nat) (k : Nat) :
    ∀ t t2 : Table, (∃ j, j < k ∧ identab (base + 4 * j + 1) + 1 = (c : Int)) →
      restore_records identab base k t c = restore_records identab base k t2 c := by
  induction k with
  | zero => intro t t2 ⟨j, hj, _⟩; omega
  | succ k ih =>
    intro t t2 ⟨j, hj, hc⟩
    simp only [restore_records]
    by_cases hjk : j = k
    · subst hjk
      apply restore_records_congr_cell
      rw [hc, tsetI_natCast, tsetI_natCast, tset_eq, tset_eq]
    · exact ih _ _ ⟨j, by omega, hc⟩

theorem restore_records_untargeted (identab : Table) (base : Nat) (c : Nat) (k : Nat) :
    ∀ t : Table, (∀ j, j < k → identab (base + 4 * j + 1) + 1 ≠ (c : Int)) →
      restore_records identab base k t c = t c := by
  induction k with
  | zero => intro t _; rfl
  | succ k ih =>
    intro t h
    simp only [restore_records]
    rw [ih _ (fun j hj => h j (by omega))]
    have hk := h k (by omega)
    unfold tsetI
    split_ifs with h0
    · apply tset_ne
      intro he
      apply hk
      omega
    · rfl

theorem restore_records_congr_identab (identab identab2 : Table) (base : Nat) (k : Nat) :
    ∀ t : Table, (∀ j, j < base + 4 * k → identab j = identab2 j) →
      restore_records identab base k t = restore_records identab2 base k t := by
  induction k with
  | zero => intro t _; rfl
  | succ k ih =>
    intro t h
    simp only [restore_records]
    rw [h (base + 4 * k + 1) (by omega), h (base + 4 * k) (by omega)]
    exact ih _ (fun j hj => h j (by omega))

/-- With `curid = 2` the restore loop never ends: its counter stays congruent to
2 modulo 4, wraps below 0 to `2 ^ 64 - 2` and is never below 2. -/
theorem restore_loop_wraps (identab : Table) :
    ∀ (fuel i : Nat) (t : Table), i % 4 = 2 → restore_loop identab 2 fuel i t = none := by
  intro fuel
  induction fuel with
  | zero =>
    intro i t hi
    have h : i ≥ 2 := by omega
    simp only [restore_loop, h, if_true]
  | succ f ih =>
    intro i t hi
    have h : i ≥ 2 := by omega
    simp only [restore_loop, h, if_true]
    exact ih _ _ (by unfold subSize; omega)

/-- In program scope before any scope has been entered (`curid = 2`), and after
`enter_block_scope` in a context without symbol records (`curid = id = 2`),
`exit_block_scope` does not return. -/
theorem exit_block_scope_wraps (fuel : Nat) (sx : Sx) (old_displ old_lg : Int)
    (hcur : sx.curid = 2) (hid : sx.id % 4 = 2) :
    exit_block_scope fuel sx old_displ old_lg = none := by
  unfold exit_block_scope
  rw [hcur, restore_loop_wraps sx.identab fuel _ _ (by unfold subSize; omega)]

/-- The invariant behind the scope round trip: after the calls in `calls`, made
in a scope entered at `sx`, undoing the records of the scope gives back every
current-binding slot of `sx`, and the symbol table above `id` is still zero. -/
theorem ident_adds_restorable (K : Defs) (sx : Sx) (calls : List IdentCall)
    (hb : sx.id + 4 * calls.length < 18446744073709551616)
    (hcur : sx.curid = sx.id)
    (hzero : ∀ j, sx.id ≤ j → sx.identab j = 0)
    (hcalls : ∀ c ∈ calls, 1 ≤ c.repr ∧ c.repr < 2147483648 ∧ 0 ≤ sx.reprtab (c.repr + 1) ∧
      sx.reprtab (c.repr + 1) < sx.id ∧ ¬ c.predeclares) :
    (∀ q, 1 ≤ q →
      restore_records (ident_adds K sx calls).identab sx.id calls.length
        (ident_adds K sx calls).reprtab (q + 1) = sx.reprtab (q + 1)) ∧
    (∀ j, sx.id + 4 * calls.length ≤ j → (ident_adds K sx calls).identab j = 0) := by
  induction calls using List.reverseRecOn with
  | nil =>
    refine ⟨fun q _ => rfl, fun j hj => ?_⟩
    rw [ident_adds_nil]
    exact hzero j (by simpa using hj)
  | append_singleton calls c ih =>
    rw [List.length_append, List.length_singleton] at hb
    obtain ⟨ihA, ihZ⟩ := ih (by omega) (fun c hc => hcalls c (List.mem_append_left _ hc))
    obtain ⟨hc1, hc2, hc3, hc4, hc5⟩ := hcalls c (by simp)
    obtain ⟨fid, fcur, _, _⟩ := ident_adds_frame K sx calls (by omega)
    have hpre : ¬ (1 < c.type ∧ c.type < 1000 ∧ c.func_def = 2) := hc5
    have hframe := ident_add_identab K (ident_adds K sx calls) c.repr c.type c.mode c.func_def
    have hcases := ident_add_cases K (ident_adds K sx calls) c.repr c.type c.mode c.func_def hpre
    rw [ident_adds_snoc, List.length_append, List.length_singleton]
    generalize hs : ident_adds K sx calls = s at *
    generalize hs2 : (ident_add K s c.repr c.type c.mode c.func_def).2 = s2 at *
    constructor
    · intro q hq
      simp only [restore_records]
      rw [restore_records_congr_identab s2.identab s.identab sx.id calls.length _
        (fun j hj => hframe j (by omega))]
      rw [← ihA q hq, ← fid]
      rcases hcases with ⟨e1, e2, e3⟩ | ⟨e1, e2, e3, e4⟩ | ⟨e1, e2, e3⟩
      · -- the call is a second binding of main
        apply restore_records_congr_cell
        rw [e1, e2, e3, ihZ s.id (by omega), ihZ (s.id + 1) (by omega)]
        show tsetI s.reprtab ((1 : Nat) : Int) 0 (q + 1) = _
        rw [tsetI_natCast]
        exact tset_ne _ _ _ _ (by omega)
      · -- the call collides
        rw [e2, e3, ihZ (s.id + 1) (by omega)]
        by_cases hq2 : q = c.repr
        · subst hq2
          apply restore_records_targeted
          by_contra hno
          have hun := restore_records_untargeted s.identab sx.id (c.repr + 1) calls.length
            s.reprtab (fun j hj he => hno ⟨j, hj, he⟩)
          rw [ihA c.repr hc1] at hun
          rw [← hun, toSize_of_nonneg _ hc3 (by omega)] at e4
          omega
        · apply restore_records_congr_cell
          show tsetI s2.reprtab ((1 : Nat) : Int) _ (q + 1) = _
          rw [tsetI_natCast, tset_ne _ _ _ _ (by omega)]
          rcases e1 with e1 | e1
          · rw [e1]
          · rw [e1]; exact tset_ne _ _ _ _ (by omega)
      · -- the call writes its record
        apply restore_records_congr_cell
        rw [e2, e3, toInt_of_lt _ hc2]
        show tsetI s2.reprtab ((c.repr + 1 : Nat) : Int) _ (q + 1) = _
        rw [tsetI_natCast]
        rcases e1 with e1 | e1
        · rw [e1]; unfold tset; split_ifs with h
          · rw [h]
          · rfl
        · rw [e1]; unfold tset; split_ifs with h
          · rw [h]
          · rfl
    · intro j hj
      rw [hframe j (by omega)]
      exact ihZ j (by omega)

/-- Counterexample for C3: in `ex_variable` (`id = 6`) the representation 1 is
bound to record 2.  A block is entered, the representation is predeclared as a
function (the call succeeds and returns 6), and the block is left with the saved
`displ` and `lg`: the current-binding slot `reprtab[2]` is then 6, not 2. -/
theorem exit_block_scope_keeps_predeclaration :
    ex_variable.reprtab (1 + 1) = 2 ∧
    (ident_add sampleDefs (enter_block_scope ex_variable).2 1 2 0 2).1 = 6 ∧
    (exit_block_scope 4 (ident_add sampleDefs (enter_block_scope ex_variable).2 1 2 0 2).2
      (enter_block_scope ex_variable).1.1 (enter_block_scope ex_variable).1.2).map
        (fun r => r.2.reprtab (1 + 1)) = some 6 := by
  decide

/-- C3, amended: a block scope is entered in a context that already holds a
symbol record (`4 <= id`) and whose symbol table is zero from `id` on; then any
number of `ident_add` calls follow, successful or not, none of them a function
predeclaration, each on a representation handle `r >= 1` whose current binding
at the entry is no keyword class (it lies in `[0, id)`); then `exit_block_scope`
is called with the saved `displ` and `lg`.  The exit returns 0, the
current-binding slot `reprtab[r + 1]` of every `r >= 1` has its value from
before the entry, and `displ` and `lg` are restored. -/
theorem scope_round_trip (K : Defs) (sx : Sx) (calls : List IdentCall) (fuel : Nat)
    (hid : 4 ≤ sx.id) (hb : sx.id + 4 * calls.length < 18446744073709551616)
    (hf : calls.length ≤ fuel)
    (hzero : ∀ j, sx.id ≤ j → sx.identab j = 0)
    (hcalls : ∀ c ∈ calls, 1 ≤ c.repr ∧ c.repr < 2147483648 ∧ 0 ≤ sx.reprtab (c.repr + 1) ∧
      sx.reprtab (c.repr + 1) < sx.id ∧ ¬ c.predeclares) :
    ∃ r, exit_block_scope fuel (ident_adds K (enter_block_scope sx).2 calls)
        (enter_block_scope sx).1.1 (enter_block_scope sx).1.2 = some r ∧ r.1 = 0 ∧
      (∀ q, 1 ≤ q → r.2.reprtab (q + 1) = sx.reprtab (q + 1)) ∧
      r.2.displ = sx.displ ∧ r.2.lg = sx.lg := by
  obtain ⟨hA, _⟩ := ident_adds_restorable K (enter_block_scope sx).2 calls hb rfl hzero hcalls
  obtain ⟨fid, fcur, _, _⟩ := ident_adds_frame K (enter_block_scope sx).2 calls hb
  have hloop := restore_loop_eq (ident_adds K (enter_block_scope sx).2 calls).identab sx.id hid
    calls.length fuel (ident_adds K (enter_block_scope sx).2 calls).reprtab hb hf
  have e1 : (enter_block_scope sx).2.id = sx.id := rfl
  have e2 : (enter_block_scope sx).2.curid = sx.id := rfl
  rw [e1] at fid hA
  rw [e2] at fcur
  unfold exit_block_scope
  rw [fid, fcur, hloop]
  exact ⟨_, rfl, rfl, hA, rfl, rfl⟩

/-- Witness for C3: in `ex_variable` a block is entered, the representation 1 is
declared again as a variable, and the block is left. -/
theorem scope_round_trip_witness :
    ∃ r, exit_block_scope 1 (ident_adds sampleDefs (enter_block_scope ex_variable).2
          [{ repr := 1, type := 0, mode := -1, func_def := 0 }])
        (enter_block_scope ex_variable).1.1 (enter_block_scope ex_variable).1.2 = some r ∧
      r.1 = 0 ∧ (∀ q, 1 ≤ q → r.2.reprtab (q + 1) = ex_variable.reprtab (q + 1)) ∧
      r.2.displ = ex_variable.displ ∧ r.2.lg = ex_variable.lg :=
  scope_round_trip sampleDefs ex_variable [{ repr := 1, type := 0, mode := -1, func_def := 0 }] 1
    (by decide) (by decide) (by decide)
    (fun j hj => by
      have h : ex_interned.id + 4 ≤ j := hj
      rw [ex_variable, ident_add_identab sampleDefs ex_interned 1 0 (-1) 0 j (Or.inr h)]
      rfl)
    (fun c hc => by
      rw [List.mem_singleton] at hc
      subst hc
      unfold IdentCall.predeclares
      decide)

/-! ## The mode table -/

theorem mode_write_snd (d : List Int) : ∀ (t : Table) (m : Nat),
    (mode_write d t m).2 = m + d.length := by
  induction d with
  | nil => intro t m; rfl
  | cons c cs ih => intro t m; simp only [mode_write, ih, List.length_cons]; omega

theorem mode_write_get (d : List Int) : ∀ (t : Table) (m : Nat) (j : Nat),
    (mode_write d t m).1 j = if m ≤ j ∧ j < m + d.length then d.getD (j - m) 0 else t j := by
  induction d with
  | nil =>
    intro t m j
    have h : ¬ (m ≤ j ∧ j < m + ([] : List Int).length) := by simp only [List.length_nil]; omega
    rw [if_neg h]; rfl
  | cons c cs ih =>
    intro t m j
    simp only [mode_write, ih, List.length_cons]
    by_cases h1 : m + 1 ≤ j ∧ j < m + 1 + cs.length
    · have h2 : m ≤ j ∧ j < m + (cs.length + 1) := by omega
      rw [if_pos h1, if_pos h2]
      obtain ⟨k, hk⟩ : ∃ k, j - m = k + 1 := ⟨j - m - 1, by omega⟩
      have : j - (m + 1) = k := by omega
      rw [hk, this]
      rfl
    · rw [if_neg h1]
      by_cases h3 : j = m
      · subst h3
        simp [tset]
      · have h2 : ¬ (m ≤ j ∧ j < m + (cs.length + 1)) := by omega
        rw [if_neg h2]
        exact tset_ne _ _ _ _ h3

theorem mode_add_eq (K : Defs) (fuel : Nat) (sx : Sx) (d : List Int) :
    mode_add K fuel sx d
      = mode_find K (mode_written sx d) fuel
          (toSize ((mode_written sx d).modetab (mode_written sx d).startmode)) := rfl

theorem mode_written_fields (sx : Sx) (d : List Int) :
    (mode_written sx d).startmode = sx.md ∧ (mode_written sx d).md = sx.md + 1 + d.length := by
  unfold mode_written
  simp only [mode_write_snd]
  exact ⟨trivial, trivial⟩

theorem mode_written_below (sx : Sx) (d : List Int) (j : Nat) (hj : j < sx.md) :
    (mode_written sx d).modetab j = sx.modetab j := by
  unfold mode_written
  simp only [mode_write_get]
  rw [if_neg (by omega)]
  exact tset_ne _ _ _ _ (by omega)

theorem mode_written_link (sx : Sx) (d : List Int) :
    (mode_written sx d).modetab sx.md = toInt sx.startmode := by
  unfold mode_written
  simp only [mode_write_get]
  rw [if_neg (by omega)]
  exact tset_eq _ _ _

theorem mode_written_cell (sx : Sx) (d : List Int) (i : Nat) (hi : i < d.length) :
    (mode_written sx d).modetab (sx.md + 1 + i) = d.getD i 0 := by
  unfold mode_written
  simp only [mode_write_get]
  rw [if_pos (by omega)]
  congr 1
  omega

theorem mode_cells_equal_iff (t : Table) (a b n : Nat) :
    mode_cells_equal t a b n = true ↔ ∀ k, k < n → t (a + (k + 1)) = t (b + (k + 1)) := by
  unfold mode_cells_equal
  simp [List.all_eq_true]

theorem mode_is_equal_true (K : Defs) (sx : Sx) (a b : Nat)
    (hl : mode_length K sx.modetab a ≠ SIZE_MAX) (h : ModeEq K sx.modetab a b) :
    mode_is_equal K sx a b = some true := by
  unfold mode_is_equal
  have hc := (mode_cells_equal_iff sx.modetab a b (mode_length K sx.modetab a)).2 h.2
  simp [h.1, hc, hl]

theorem mode_is_equal_false (K : Defs) (sx : Sx) (a b : Nat)
    (h : ¬ ModeEq K sx.modetab a b) :
    mode_is_equal K sx a b = some false := by
  unfold mode_is_equal
  by_cases ht : sx.modetab a = sx.modetab b
  · have hc : ¬ (mode_cells_equal sx.modetab a b (mode_length K sx.modetab a) = true) := by
      rw [mode_cells_equal_iff]
      intro hall
      exact h ⟨ht, hall⟩
    simp [ht, hc]
  · simp [ht]

theorem mode_is_equal_false_iff (K : Defs) (sx : Sx) (a b : Nat) :
    mode_is_equal K sx a b = some false ↔ ¬ ModeEq K sx.modetab a b := by
  constructor
  · intro h hEq
    unfold mode_is_equal at h
    have hc := (mode_cells_equal_iff sx.modetab a b (mode_length K sx.modetab a)).2 hEq.2
    simp [hEq.1, hc] at h
  · exact mode_is_equal_false K sx a b

theorem ModeChain_congr (t t2 : Table) (chain : List Nat) :
    ∀ o, (∀ a ∈ chain, t2 a = t a) → ModeChain t o chain → ModeChain t2 o chain := by
  induction chain with
  | nil => intro o _ h; exact h
  | cons a l ih =>
    intro o hag h
    obtain ⟨h1, h2, h3, h4, h5⟩ := h
    have e := hag a (List.mem_cons_self _ _)
    refine ⟨h1, h2, by rw [e]; exact h3, by rw [e]; exact h4, ?_⟩
    rw [e]
    exact ih _ (fun b hb => hag b (List.mem_cons_of_mem _ hb)) h5

theorem mode_length_count (K : Defs) (t : Table) (h : Nat) (hc : CountOK K t h)
    (htag : t h = K.MSTRUCT ∨ t h = K.MFUNCTION) :
    (mode_length K t h : Int) = 2 + t (h + 2) ∧ 2 ≤ mode_length K t h := by
  obtain ⟨c1, c2⟩ := hc htag
  unfold mode_length
  rw [if_pos htag, toSize_of_nonneg _ (by omega) (by omega)]
  omega

theorem mode_length_plain (K : Defs) (t : Table) (h : Nat)
    (htag : ¬ (t h = K.MSTRUCT ∨ t h = K.MFUNCTION)) : mode_length K t h = 1 := by
  unfold mode_length
  rw [if_neg htag]

theorem mode_length_lt (K : Defs) (t : Table) (h : Nat) (hc : CountOK K t h) :
    mode_length K t h < 2147483651 := by
  by_cases htag : t h = K.MSTRUCT ∨ t h = K.MFUNCTION
  · have := (mode_length_count K t h hc htag).1
    have := (hc htag).2
    omega
  · rw [mode_length_plain K t h htag]; omega

theorem mode_length_congr (K : Defs) (t t2 : Table) (h : Nat) (hc : CountOK K t h)
    (hag : ∀ i, i ≤ mode_length K t h → t2 (h + i) = t (h + i)) :
    mode_length K t2 h = mode_length K t h ∧ CountOK K t2 h := by
  have e0 : t2 h = t h := hag 0 (by omega)
  by_cases htag : t h = K.MSTRUCT ∨ t h = K.MFUNCTION
  · have hl := mode_length_count K t h hc htag
    have e2 : t2 (h + 2) = t (h + 2) := hag 2 hl.2
    have hc2 : CountOK K t2 h := by
      intro _; rw [e2]; exact hc htag
    refine ⟨?_, hc2⟩
    have hl2 := mode_length_count K t2 h hc2 (by rw [e0]; exact htag)
    rw [e2] at hl2
    omega
  · have htag2 : ¬ (t2 h = K.MSTRUCT ∨ t2 h = K.MFUNCTION) := by rw [e0]; exact htag
    refine ⟨by rw [mode_length_plain K t h htag, mode_length_plain K t2 h htag2], ?_⟩
    intro h'; exact absurd h' htag2

theorem ModeEq_iff_SameRec (K : Defs) (t : Table) (a b : Nat) (hc : CountOK K t a) :
    ModeEq K t a b ↔ SameRec K t a b := by
  constructor
  · intro ⟨h1, h2⟩
    refine ⟨h1, ?_, h2⟩
    by_cases htag : t a = K.MSTRUCT ∨ t a = K.MFUNCTION
    · have hl := mode_length_count K t a hc htag
      have e2 : t (a + 2) = t (b + 2) := h2 1 (by omega)
      have hcb : CountOK K t b := by
        intro _; rw [← e2]; exact hc htag
      have hlb := mode_length_count K t b hcb (by rw [← h1]; exact htag)
      rw [← e2] at hlb
      omega
    · rw [mode_length_plain K t a htag, mode_length_plain K t b (by rw [← h1]; exact htag)]
  · intro ⟨h1, _, h3⟩
    exact ⟨h1, h3⟩

theorem SameRec_symm (K : Defs) (t : Table) (a b : Nat) (h : SameRec K t a b) :
    SameRec K t b a := by
  obtain ⟨h1, h2, h3⟩ := h
  exact ⟨h1.symm, h2.symm, fun k hk => (h3 k (by omega)).symm⟩

theorem SameRec_congr (K : Defs) (t t2 : Table) (a b : Nat)
    (hca : CountOK K t a) (hcb : CountOK K t b)
    (haga : ∀ i, i ≤ mode_length K t a → t2 (a + i) = t (a + i))
    (hagb : ∀ i, i ≤ mode_length K t b → t2 (b + i) = t (b + i)) :
    SameRec K t2 a b ↔ SameRec K t a b := by
  have la := (mode_length_congr K t t2 a hca haga).1
  have lb := (mode_length_congr K t t2 b hcb hagb).1
  have ea : t2 a = t a := haga 0 (by omega)
  have eb : t2 b = t b := hagb 0 (by omega)
  constructor
  · intro ⟨h1, h2, h3⟩
    rw [la, lb] at h2
    rw [la] at h3
    refine ⟨?_, h2, ?_⟩
    · rw [← ea, ← eb]; exact h1
    · intro k hk
      rw [← haga (k + 1) (by omega), ← hagb (k + 1) (by omega)]
      exact h3 k hk
  · intro ⟨h1, h2, h3⟩
    refine ⟨?_, by rw [la, lb]; exact h2, ?_⟩
    · rw [ea, eb]; exact h1
    · intro k hk
      rw [la] at hk
      rw [haga (k + 1) (by omega), hagb (k + 1) (by omega)]
      exact h3 k hk

theorem RecordIs_length (K : Defs) (t : Table) (h : Nat) (d : List Int) (hd : DescOK K d)
    (hr : RecordIs K t h d) : mode_length K t h = desc_length K d ∧ CountOK K t h := by
  have e0 : t h = d.getD 0 0 := hr 0 (by omega)
  by_cases htag : d.getD 0 0 = K.MSTRUCT ∨ d.getD 0 0 = K.MFUNCTION
  · obtain ⟨c1, c2⟩ := hd.2 htag
    have hl : desc_length K d = (2 + d.getD 2 0).toNat := by
      unfold desc_length
      rw [if_pos htag, toSize_of_nonneg _ (by omega) (by omega)]
    have e2 : t (h + 2) = d.getD 2 0 := hr 2 (by omega)
    have hc : CountOK K t h := by
      intro _; rw [e2]; exact ⟨c1, c2⟩
    refine ⟨?_, hc⟩
    have := (mode_length_count K t h hc (by rw [e0]; exact htag)).1
    rw [e2] at this
    omega
  · have htag2 : ¬ (t h = K.MSTRUCT ∨ t h = K.MFUNCTION) := by rw [e0]; exact htag
    refine ⟨?_, fun h' => absurd h' htag2⟩
    rw [mode_length_plain K t h htag2]
    unfold desc_length
    rw [if_neg htag]

theorem RecordIs_SameRec (K : Defs) (t : Table) (a b : Nat) (d : List Int) (hd : DescOK K d)
    (ha : RecordIs K t a d) (hb : RecordIs K t b d) : SameRec K t a b := by
  have la := (RecordIs_length K t a d hd ha).1
  have lb := (RecordIs_length K t b d hd hb).1
  refine ⟨?_, by rw [la, lb], ?_⟩
  · have e1 := ha 0 (by omega)
    have e2 := hb 0 (by omega)
    simp only [Nat.add_zero] at e1 e2
    rw [e1, e2]
  · intro k hk
    rw [la] at hk
    rw [ha (k + 1) (by omega), hb (k + 1) (by omega)]

theorem SameRec_RecordIs (K : Defs) (t : Table) (a b : Nat) (d : List Int) (hd : DescOK K d)
    (ha : RecordIs K t a d) (hs : SameRec K t a b) : RecordIs K t b d := by
  have la := (RecordIs_length K t a d hd ha).1
  obtain ⟨h1, _, h3⟩ := hs
  intro i hi
  cases i with
  | zero =>
    have e1 := ha 0 (by omega)
    simp only [Nat.add_zero] at e1 ⊢
    rw [← h1, e1]
  | succ k =>
    rw [← h3 k (by omega)]
    exact ha (k + 1) hi

theorem mode_find_chain (K : Defs) (sA : Sx) (L : List Nat)
    (hl : mode_length K sA.modetab (sA.startmode + 1) ≠ SIZE_MAX) :
    ∀ (o fuel : Nat), ModeChain sA.modetab o L → L.length ≤ fuel →
      (∀ a ∈ L, a < 4294967296) →
      (∃ a ∈ L, ModeEq K sA.modetab (sA.startmode + 1) (a + 1) ∧
          mode_find K sA fuel o = some (a + 1, mode_rewound sA)) ∨
      ((∀ a ∈ L, ¬ ModeEq K sA.modetab (sA.startmode + 1) (a + 1)) ∧
          mode_find K sA fuel o = some (sA.startmode + 1, sA)) := by
  induction L with
  | nil =>
    intro o fuel hch _ _
    right
    have ho : o = 0 := hch
    subst ho
    refine ⟨fun a ha => absurd ha (List.not_mem_nil a), ?_⟩
    cases fuel <;> simp [mode_find]
  | cons a l ih =>
    intro o fuel hch hf hlt
    obtain ⟨h1, h2, h3, h4, h5⟩ := hch
    subst h1
    rw [List.length_cons] at hf
    obtain ⟨f, rfl⟩ : ∃ f, fuel = f + 1 := ⟨fuel - 1, by omega⟩
    have ha := hlt o (List.mem_cons_self _ _)
    by_cases hEq : ModeEq K sA.modetab (sA.startmode + 1) (o + 1)
    · left
      refine ⟨o, List.mem_cons_self _ _, hEq, ?_⟩
      simp only [mode_find, if_neg h2, mode_is_equal_true K sA _ _ hl hEq]
      rfl
    · have hnext : toSize (sA.modetab o) = (sA.modetab o).toNat :=
        toSize_of_nonneg _ h3 (by omega)
      rcases ih (sA.modetab o).toNat f h5 (by omega)
          (fun b hb => hlt b (List.mem_cons_of_mem _ hb)) with ⟨b, hb, hbe, hres⟩ | ⟨hall, hres⟩
      · left
        refine ⟨b, List.mem_cons_of_mem _ hb, hbe, ?_⟩
        simp only [mode_find, if_neg h2, mode_is_equal_false K sA _ _ hEq, hnext]
        exact hres
      · right
        refine ⟨?_, ?_⟩
        · intro b hb
          rcases List.mem_cons.1 hb with rfl | hb
          · exact hEq
          · exact hall b hb
        · simp only [mode_find, if_neg h2, mode_is_equal_false K sA _ _ hEq, hnext]
          exact hres

theorem mode_written_record (K : Defs) (sx : Sx) (d : List Int) (hd : DescOK K d) :
    RecordIs K (mode_written sx d).modetab (sx.md + 1) d := by
  intro i hi
  exact mode_written_cell sx d i (by have := hd.1; omega)

theorem ModeChain_head_lt (K : Defs) (t : Table) (md o : Nat) (chain : List Nat) (hmd : 0 < md)
    (hch : ModeChain t o chain) (hrec : ∀ a ∈ chain, RecOK K t md a) : o < md := by
  cases chain with
  | nil => have : o = 0 := hch; omega
  | cons a l =>
    obtain ⟨h1, _⟩ := hch
    have := (hrec a (List.mem_cons_self _ _)).1
    omega

/-- When the records of the chain lie below `md` (the back-link chain from
`startmode` strictly decreases to 0, its records are well formed and end below
`md`, no two of them are equal under `mode_is_equal`), `mode_add` of a
well-formed descriptor returns, leaves the table in this form, and the handle it
returns is that of the one record of the chain that holds the descriptor. -/
theorem mode_add_canonical (K : Defs) (sx : Sx) (chain : List Nat) (d : List Int) (fuel : Nat)
    (hinv : ModeTableOK K sx chain) (hd : DescOK K d)
    (hb : sx.md + d.length + 1 < 2147483648) (hf : chain.length ≤ fuel) :
    ∃ h s2 chain2, mode_add K fuel sx d = some (h, s2) ∧ ModeTableOK K s2 chain2 ∧
      (∃ o ∈ chain2, h = o + 1) ∧ RecordIs K s2.modetab h d ∧
      ∀ o ∈ chain2, RecordIs K s2.modetab (o + 1) d → o + 1 = h := by
  obtain ⟨hmd, hch, hrec, hpair⟩ := hinv
  obtain ⟨fA1, fA2⟩ := mode_written_fields sx d
  have hbelow := mode_written_below sx d
  have hlt : ∀ a ∈ chain, a < sx.md := fun a ha => by have := (hrec a ha).1; omega
  have hstart : sx.startmode < sx.md := ModeChain_head_lt K _ _ _ _ hmd hch hrec
  have hlink : (mode_written sx d).modetab sx.md = (sx.startmode : Int) := by
    rw [mode_written_link, toInt_of_lt _ (by omega)]
  have hnew := mode_written_record K sx d hd
  obtain ⟨hnl, hnc⟩ := RecordIs_length K _ _ _ hd hnew
  have hchA : ModeChain (mode_written sx d).modetab sx.startmode chain :=
    ModeChain_congr _ _ _ _ (fun a ha => hbelow a (hlt a ha)) hch
  have hag : ∀ a ∈ chain, ∀ i, i ≤ mode_length K sx.modetab (a + 1) →
      (mode_written sx d).modetab (a + 1 + i) = sx.modetab (a + 1 + i) := by
    intro a ha i hi
    have := (hrec a ha).1
    exact hbelow _ (by omega)
  have hrecA : ∀ a ∈ chain, RecOK K (mode_written sx d).modetab sx.md a := by
    intro a ha
    obtain ⟨e, c⟩ := mode_length_congr K _ _ (a + 1) (hrec a ha).2 (hag a ha)
    exact ⟨by rw [e]; exact (hrec a ha).1, c⟩
  have hpairA : ∀ a ∈ chain, ∀ b ∈ chain, a ≠ b →
      ¬ SameRec K (mode_written sx d).modetab (a + 1) (b + 1) := by
    intro a ha b hb hab hs
    have h1 := (SameRec_congr K _ _ (a + 1) (b + 1) (hrec a ha).2 (hrec b hb).2 (hag a ha)
      (hag b hb)).1 hs
    have h2 := (ModeEq_iff_SameRec K _ (a + 1) (b + 1) (hrec a ha).2).2 h1
    exact (mode_is_equal_false_iff K sx _ _).1 (hpair a ha b hb hab) h2
  have hsz : toSize ((mode_written sx d).modetab (mode_written sx d).startmode) = sx.startmode := by
    rw [fA1, hlink]; exact toSize_natCast _ (by omega)
  have hfind := mode_find_chain K (mode_written sx d) chain
    (by rw [fA1, hnl]; have := hd.1; unfold SIZE_MAX; omega)
    sx.startmode fuel hchA hf (fun a ha => by have := hlt a ha; omega)
  rw [fA1] at hfind
  rw [mode_add_eq, hsz]
  rcases hfind with ⟨a, ha, hEq, hres⟩ | ⟨hall, hres⟩
  · -- a record of the chain holds the descriptor
    have hsame := (ModeEq_iff_SameRec K _ _ _ hnc).1 hEq
    have hra : RecordIs K (mode_written sx d).modetab (a + 1) d :=
      SameRec_RecordIs K _ _ _ d hd hnew hsame
    refine ⟨a + 1, mode_rewound (mode_written sx d), chain, hres, ⟨?_, ?_, ?_, ?_⟩,
      ⟨a, ha, rfl⟩, hra, ?_⟩
    · show 0 < (mode_written sx d).startmode
      rw [fA1]; exact hmd
    · show ModeChain (mode_written sx d).modetab
        (toSize ((mode_written sx d).modetab (mode_written sx d).startmode)) chain
      rw [hsz]; exact hchA
    · intro o ho
      show RecOK K (mode_written sx d).modetab (mode_written sx d).startmode o
      rw [fA1]; exact hrecA o ho
    · intro x hx y hy hxy
      apply mode_is_equal_false
      intro hE
      exact hpairA x hx y hy hxy ((ModeEq_iff_SameRec K _ _ _ (hrecA x hx).2).1 hE)
    · intro o ho hro
      by_contra hne
      exact hpairA a ha o ho (by omega) (RecordIs_SameRec K _ _ _ d hd hra hro)
  · -- no record of the chain holds the descriptor: the new record is committed
    refine ⟨sx.md + 1, mode_written sx d, sx.md :: chain, hres, ⟨?_, ?_, ?_, ?_⟩,
      ⟨sx.md, List.mem_cons_self _ _, rfl⟩, hnew, ?_⟩
    · rw [fA2]; omega
    · refine ⟨fA1, by omega, by rw [hlink]; omega, by rw [hlink]; omega, ?_⟩
      rw [hlink]
      exact hchA
    · intro o ho
      rcases List.mem_cons.1 ho with rfl | ho
      · refine ⟨?_, hnc⟩
        rw [fA2, hnl]; have := hd.1; omega
      · refine ⟨?_, (hrecA o ho).2⟩
        rw [fA2]; have := (hrecA o ho).1; omega
    · intro x hx y hy hxy
      apply mode_is_equal_false
      intro hE
      rcases List.mem_cons.1 hx with rfl | hx
      · rcases List.mem_cons.1 hy with rfl | hy
        · exact hxy rfl
        · exact hall y hy hE
      · have hsxy := (ModeEq_iff_SameRec K _ _ _ (hrecA x hx).2).1 hE
        rcases List.mem_cons.1 hy with rfl | hy
        · exact hall x hx ((ModeEq_iff_SameRec K _ _ _ hnc).2 (SameRec_symm K _ _ _ hsxy))
        · exact hpairA x hx y hy hxy hsxy
    · intro o ho hro
      rcases List.mem_cons.1 ho with rfl | ho
      · rfl
      · exfalso
        exact hall o ho ((ModeEq_iff_SameRec K _ _ _ hnc).2
          (RecordIs_SameRec K _ _ _ d hd hnew hro))

/-- An instance of `mode_add_canonical`: in `ex_mode`, whose chain holds the one
record at offset 1, the descriptor of that record is added again. -/
theorem mode_add_canonical_witness :
    ∃ h s2 chain2, mode_add sampleDefs 1 ex_mode [1001, -1, 1, -1] = some (h, s2) ∧
      ModeTableOK sampleDefs s2 chain2 ∧ (∃ o ∈ chain2, h = o + 1) ∧
      RecordIs sampleDefs s2.modetab h [1001, -1, 1, -1] ∧
      ∀ o ∈ chain2, RecordIs sampleDefs s2.modetab (o + 1) [1001, -1, 1, -1] → o + 1 = h :=
  mode_add_canonical sampleDefs ex_mode [1] [1001, -1, 1, -1] 1
    ⟨by decide, ⟨by decide, by decide, by decide, by decide, by unfold ModeChain; decide⟩,
      fun o ho => by
        rw [List.mem_singleton] at ho
        subst ho
        unfold RecOK CountOK mode_length
        decide,
      fun a ha b hb hab => by
        rw [List.mem_singleton] at ha hb
        subst ha hb
        exact absurd rfl hab⟩
    (by unfold DescOK desc_length; decide) (by decide) (by decide)

/-- With `0 < md` and `startmode = md`, as after `sx_init`, a call of `mode_add`
that returns has found the record it has written itself: the handle is `md + 1`,
and `md` and `startmode` are as before.  So every context that `sx_init` and
`mode_add` produce has `startmode = md = 1`. -/
theorem mode_add_fresh_stays (K : Defs) (sx : Sx) (d : List Int) (fuel : Nat) (h : Nat) (s1 : Sx)
    (hmd : 0 < sx.md) (hst : sx.startmode = sx.md) (hb : sx.md < 2147483648)
    (hres : mode_add K fuel sx d = some (h, s1)) :
    h = sx.md + 1 ∧ s1.md = sx.md ∧ s1.startmode = sx.md := by
  obtain ⟨fA1, _⟩ := mode_written_fields sx d
  have hlink : (mode_written sx d).modetab sx.md = (sx.md : Int) := by
    rw [mode_written_link, hst, toInt_of_lt _ hb]
  have hsz : toSize ((mode_written sx d).modetab (mode_written sx d).startmode) = sx.md := by
    rw [fA1, hlink]; exact toSize_natCast _ (by omega)
  have hne : ¬ (sx.md = 0) := by omega
  have hself : mode_is_equal K (mode_written sx d) ((mode_written sx d).startmode + 1) (sx.md + 1)
      = some true ∨
      mode_is_equal K (mode_written sx d) ((mode_written sx d).startmode + 1) (sx.md + 1)
      = none := by
    rw [fA1]
    have hc := (mode_cells_equal_iff (mode_written sx d).modetab (sx.md + 1) (sx.md + 1)
      (mode_length K (mode_written sx d).modetab (sx.md + 1))).2 (fun _ _ => rfl)
    unfold mode_is_equal
    simp only [ne_eq, not_true_eq_false, if_false, hc, if_true]
    by_cases hL : mode_length K (mode_written sx d).modetab (sx.md + 1) = SIZE_MAX
    · right; rw [if_pos hL]
    · left; rw [if_neg hL]
  rw [mode_add_eq, hsz] at hres
  cases fuel with
  | zero =>
    simp only [mode_find, if_neg hne] at hres
    exact absurd hres (by simp)
  | succ f =>
    rcases hself with e | e
    · simp only [mode_find, if_neg hne, e, Option.some.injEq, Prod.mk.injEq] at hres
      obtain ⟨rfl, rfl⟩ := hres
      exact ⟨rfl, fA1, hsz⟩
    · simp only [mode_find, if_neg hne, e] at hres
      exact absurd hres (by simp)

/-- C5, at a failing input: right after `sx_init` on zeroed storage the back-link
chain from `startmode = 1` is the one cell 1, whose link is 0: it strictly
decreases to 0 and holds no two records.  `mode_add` of the well-formed
descriptor of a function with one parameter returns the handle 2 and leaves
`md = 1` and `startmode = 1`, and afterwards `modetab[startmode]` is `startmode`
itself: no chain from `startmode` strictly decreases to 0 any more. -/
theorem mode_add_breaks_chain :
    ModeChain ex_init.modetab ex_init.startmode [1] ∧
    DescOK sampleDefs [1001, -1, 1, -1] ∧
    (mode_add sampleDefs 1 ex_init [1001, -1, 1, -1]).map
      (fun r => (r.1, r.2.md, r.2.startmode)) = some (2, 1, 1) ∧
    ex_mode_first.modetab ex_mode_first.startmode = 1 ∧
    ∀ chain, ¬ ModeChain ex_mode_first.modetab ex_mode_first.startmode chain := by
  have hs : ex_mode_first.startmode = 1 := by decide
  have ht : ex_mode_first.modetab 1 = 1 := by decide
  refine ⟨⟨by decide, by decide, by decide, by decide, by unfold ModeChain; decide⟩,
    by unfold DescOK desc_length; decide, by decide, by rw [hs]; exact ht, ?_⟩
  intro chain hch
  rw [hs] at hch
  cases chain with
  | nil =>
    have h0 : (1 : Nat) = 0 := hch
    omega
  | cons a l =>
    obtain ⟨h1, _, _, h4, _⟩ := hch
    subst h1
    rw [ht] at h4
    omega


/-! ## Binding chains -/

theorem repr_write_below (sp : List Nat) : ∀ (t : Table) (rp hash j : Nat), j < rp →
    (repr_write sp t rp hash).1 j = t j := by
  induction sp with
  | nil => intro t rp hash j hj; exact tset_ne _ _ _ _ (by omega)
  | cons c cs ih =>
    intro t rp hash j hj
    simp only [repr_write]
    split_ifs
    · exact tset_ne _ _ _ _ (by omega)
    · rw [ih _ _ _ j (by omega)]
      exact tset_ne _ _ _ _ (by omega)

theorem repr_write_cursor (sp : List Nat) : ∀ (t : Table) (rp hash : Nat),
    rp < (repr_write sp t rp hash).2.1 := by
  induction sp with
  | nil => intro t rp hash; simp [repr_write]
  | cons c cs ih =>
    intro t rp hash
    simp only [repr_write]
    split_ifs
    · simp
    · have := ih (tset t rp (toInt c)) (rp + 1) ((hash + c % 256) % 256)
      omega

theorem repr_add_effect (fuel : Nat) (s : Sx) (sp : List Nat) (h : Nat) (s2 : Sx)
    (hk : s.keywordsnum = 0) (hres : repr_add fuel s sp = some (h, s2)) :
    s2.identab = s.identab ∧ s2.id = s.id ∧ s2.keywordsnum = 0 ∧
    (∀ j, j < s.rp → s2.reprtab j = s.reprtab j) ∧
    (s2.rp = s.rp ∨ (s.rp < s2.rp ∧ h = s.rp ∧ s2.reprtab (h + 1) = 1 ∧ h + 1 < s2.rp)) := by
  have hw := repr_write_below sp s.reprtab (s.rp + 2) 0
  have hc := repr_write_cursor sp s.reprtab (s.rp + 2) 0
  unfold repr_add at hres
  dsimp only at hres
  split at hres
  · exact absurd hres (by simp)
  · simp only [Option.some.injEq, Prod.mk.injEq] at hres
    obtain ⟨_, rfl⟩ := hres
    exact ⟨rfl, rfl, hk, fun j hj => hw j (by omega), Or.inl rfl⟩
  · rw [if_neg (by simp [hk])] at hres
    simp only [Option.some.injEq, Prod.mk.injEq] at hres
    obtain ⟨rfl, rfl⟩ := hres
    refine ⟨rfl, rfl, hk, ?_, Or.inr ⟨?_, rfl, ?_, ?_⟩⟩
    · intro j hj
      show tset (tset _ _ _) _ _ j = _
      rw [tset_ne _ _ _ _ (by omega), tset_ne _ _ _ _ (by omega)]
      exact hw j (by omega)
    · show s.rp < (repr_write sp s.reprtab (s.rp + 2) 0).2.1
      omega
    · exact tset_eq _ _ _
    · show s.rp + 1 < (repr_write sp s.reprtab (s.rp + 2) 0).2.1
      omega

theorem subSize_four_mod (i : Nat) (hi : i % 4 = 2) : subSize i 4 % 4 = 2 := by
  unfold subSize; omega

theorem restore_loop_good (identab : Table) (curid bound : Nat) (Q : Int → Prop)
    (hc : 4 ≤ curid) (hb : bound ≤ 18446744073709551616)
    (hQ : ∀ i, i % 4 = 2 → i < bound → Q (identab i)) :
    ∀ (fuel i : Nat) (t t2 : Table), i % 4 = 2 → i < bound →
      restore_loop identab curid fuel i t = some t2 → ∀ c, t2 c = t c ∨ Q (t2 c) := by
  intro fuel
  induction fuel with
  | zero =>
    intro i t t2 _ _ h c
    simp only [restore_loop] at h
    split_ifs at h
    simp only [Option.some.injEq] at h
    left; rw [h]
  | succ f ih =>
    intro i t t2 hi hlt h c
    simp only [restore_loop] at h
    split_ifs at h with hge
    · have e4 : subSize i 4 = i - 4 := subSize_four i (by omega) (by omega)
      rw [e4] at h
      rcases ih _ _ _ (by omega) (by omega) h c with e | e
      · rw [e]
        unfold tsetI
        split_ifs
        · unfold tset
          split_ifs
          · right; exact hQ i hi hlt
          · left; rfl
        · left; rfl
      · right; exact e
    · simp only [Option.some.injEq] at h
      left; rw [h]

theorem ident_add_link (K : Defs) (sx : Sx) (r : Nat) (type mode fd : Int) :
    ((ident_add K sx r type mode fd).2.reprtab = sx.reprtab ∨
      (ident_add K sx r type mode fd).2.reprtab = tset sx.reprtab (r + 1) (toInt sx.id)) ∧
    ((ident_add K sx r type mode fd).2.identab sx.id = sx.identab sx.id ∨
      (ident_add K sx r type mode fd).2.identab sx.id = sx.reprtab (r + 1)) := by
  have hrep : (ident_link { sx with id := addSize sx.id 4 } sx.id r).reprtab = sx.reprtab ∨
      (ident_link { sx with id := addSize sx.id 4 } sx.id r).reprtab
        = tset sx.reprtab (r + 1) (toInt sx.id) := by
    rw [ident_link_reprtab]
    split_ifs
    · right; rfl
    · left; rfl
  unfold ident_add
  dsimp only
  split_ifs
  · exact ⟨Or.inl rfl, Or.inl rfl⟩
  · refine ⟨hrep, Or.inr ?_⟩
    rw [ident_link_identab]; exact tset_eq _ _ _
  · refine ⟨?_, Or.inr ?_⟩
    · rw [(ident_fill_frame K _ _ _ _ _ _).2.2.2.2.2]; exact hrep
    · rw [ident_fill_identab K _ _ _ _ _ _ _ (by omega), ident_link_identab]; exact tset_eq _ _ _

/-- When the slot of the representation is not 0, `ident_add` stores the slot in
the previous-binding cell of the new record, whatever it returns. -/
theorem ident_add_prev (K : Defs) (sx : Sx) (r : Nat) (type mode fd : Int)
    (h : ¬ (repr_get_reference sx r = 0)) :
    (ident_add K sx r type mode fd).2.identab sx.id = sx.reprtab (r + 1) := by
  unfold ident_add
  dsimp only
  split_ifs with h1
  · exact absurd h1.1 h
  · rw [ident_link_identab]; exact tset_eq _ _ _
  · rw [ident_fill_identab K _ _ _ _ _ _ _ (by omega), ident_link_identab]; exact tset_eq _ _ _

theorem repr_add_cursors (fuel : Nat) (s : Sx) (sp : List Nat) (h : Nat) (s2 : Sx)
    (hres : repr_add fuel s sp = some (h, s2)) : s2.id = s.id ∧ s2.curid = s.curid := by
  unfold repr_add at hres
  dsimp only at hres
  split at hres
  · exact absurd hres (by simp)
  · simp only [Option.some.injEq, Prod.mk.injEq] at hres
    obtain ⟨_, rfl⟩ := hres
    exact ⟨rfl, rfl⟩
  · split_ifs at hres
    · simp only [Option.some.injEq, Prod.mk.injEq] at hres
      obtain ⟨_, rfl⟩ := hres
      exact ⟨rfl, rfl⟩
    · simp only [Option.some.injEq, Prod.mk.injEq] at hres
      obtain ⟨_, rfl⟩ := hres
      exact ⟨rfl, rfl⟩

theorem GoodVal_mono (v : Int) (a b : Nat) (hab : a ≤ b) (h : GoodVal v a) : GoodVal v b := by
  rcases h with h | ⟨h1, h2, h3⟩
  · exact Or.inl h
  · exact Or.inr ⟨h1, by omega, h3⟩

/-- In every reachable context the cursor `id` is the offset of the next symbol
record, and the scope boundary `curid` is the offset of a record at most `id`. -/
theorem Reach_CursorInv (K : Defs) (m0 s : Sx) (R : List Nat) (h : Reach K m0 s R) :
    CursorInv s := by
  induction h with
  | init =>
    have hid : (sx_init m0).2.id = 2 := rfl
    have hcur : (sx_init m0).2.curid = 2 := rfl
    unfold CursorInv
    rw [hid, hcur]
    exact ⟨rfl, by omega, rfl, Nat.le_refl _⟩
  | intern s R fuel sp h s2 _ hres ih =>
    obtain ⟨e1, e2⟩ := repr_add_cursors fuel s sp h s2 hres
    unfold CursorInv at ih ⊢
    rw [e1, e2]
    exact ih
  | declare s R r type mode fd _ _ hid ih =>
    obtain ⟨f1, f2, _, _, _⟩ := ident_add_frame K s r type mode fd
    rw [addSize_of_lt _ _ (by omega)] at f1
    unfold CursorInv at ih ⊢
    rw [f1, f2]
    omega
  | tree_store s R tree tc _ ih => exact ih
  | block_entry s R _ ih =>
    obtain ⟨a, b, _, _⟩ := ih
    exact ⟨a, b, a, Nat.le_refl _⟩
  | block_exit s R fuel k od ol res _ _ _ hres ih =>
    unfold exit_block_scope at hres
    cases hl : restore_loop s.identab s.curid fuel (subSize s.id 4) s.reprtab with
    | none => rw [hl] at hres; exact absurd hres (by simp)
    | some t2 =>
      rw [hl] at hres
      simp only [Option.some.injEq] at hres
      subst hres
      exact ih
  | func_entry s R _ ih =>
    obtain ⟨a, b, _, _⟩ := ih
    exact ⟨a, b, a, Nat.le_refl _⟩
  | func_exit s R fuel k pred st res _ _ _ hres ih =>
    unfold exit_func_scope at hres
    split_ifs at hres
    · simp only [Option.some.injEq] at hres
      subst hres
      exact ih
    · cases hl : restore_loop s.identab s.curid fuel (subSize s.id 4) s.reprtab with
      | none => rw [hl] at hres; exact absurd hres (by simp)
      | some t2 =>
        rw [hl] at hres
        simp only [Option.some.injEq] at hres
        subst hres
        obtain ⟨a, b, _, _⟩ := ih
        exact ⟨a, b, rfl, by show 2 ≤ s.id; omega⟩

theorem BindingInv_restore (s : Sx) (R : List Nat) (hc : CursorInv s) (h : BindingInv s R)
    (fuel : Nat) (t2 : Table)
    (hl : restore_loop s.identab s.curid fuel (subSize s.id 4) s.reprtab = some t2) :
    ∀ r ∈ R, GoodVal (t2 (r + 1)) s.id := by
  obtain ⟨c1, c2, c3, c4⟩ := hc
  intro r hr
  by_cases h2 : s.curid = 2
  · rw [h2, restore_loop_wraps s.identab fuel _ _ (by unfold subSize; omega)] at hl
    exact absurd hl (by simp)
  · have e4 : subSize s.id 4 = s.id - 4 := subSize_four s.id (by omega) (by omega)
    rw [e4] at hl
    have hgood := restore_loop_good s.identab s.curid s.id (fun v => GoodVal v s.id)
      (by omega) (by omega)
      (fun i hi hlt => GoodVal_mono _ _ _ (by omega) (h.1 i hi hlt)) fuel _ _ _
      (by omega) (by omega) hl (r + 1)
    rcases hgood with e | e
    · rw [e]; exact (h.2.1 r hr).2
    · exact e

/-- Every reachable context satisfies the binding invariant, when `keywordsnum`
is 0 in the storage given to `sx_init`. -/
theorem Reach_BindingInv (K : Defs) (m0 : Sx) (hk : m0.keywordsnum = 0) (s : Sx) (R : List Nat)
    (h : Reach K m0 s R) : BindingInv s R := by
  induction h with
  | init =>
    have hid : (sx_init m0).2.id = 2 := rfl
    refine ⟨fun i hi hlt => ?_, fun r hr => absurd hr (List.not_mem_nil r), hk⟩
    rw [hid] at hlt
    omega
  | intern s R fuel sp h s2 _ hres ih =>
    obtain ⟨hc, hd, he⟩ := ih
    obtain ⟨e1, e2, e3, e4, e5⟩ := repr_add_effect fuel s sp h s2 he hres
    refine ⟨by rw [e1, e2]; exact hc, ?_, e3⟩
    have hold : ∀ r ∈ R, r + 1 < s2.rp ∧ GoodVal (s2.reprtab (r + 1)) s2.id := by
      intro r hr
      obtain ⟨d1, d2⟩ := hd r hr
      rw [e4 _ d1, e2]
      refine ⟨?_, d2⟩
      rcases e5 with e5 | e5
      · rw [e5]; exact d1
      · omega
    rcases e5 with e5 | ⟨f1, f2, f3, f4⟩
    · rw [if_pos e5]; exact hold
    · rw [if_neg (by omega)]
      intro r hr
      rcases List.mem_cons.1 hr with rfl | hr
      · exact ⟨f4, by rw [f3]; exact Or.inl rfl⟩
      · exact hold r hr
  | declare s R r type mode fd hreach hr hid ih =>
    obtain ⟨a1, a2, _, _⟩ := Reach_CursorInv K m0 s R hreach
    obtain ⟨hc, hd, he⟩ := ih
    obtain ⟨f1, _, f3, _, f5⟩ := ident_add_frame K s r type mode fd
    obtain ⟨l1, _⟩ := ident_add_link K s r type mode fd
    have hslot : GoodVal (s.reprtab (r + 1)) s.id := (hd r hr).2
    have hne : s.reprtab (r + 1) ≠ 0 := by
      rcases hslot with e | ⟨e, _, _⟩
      · rw [e]; decide
      · omega
    have l2 := ident_add_prev K s r type mode fd (repr_get_reference_ne_zero s r hne)
    have hfr := ident_add_identab K s r type mode fd
    rw [addSize_of_lt _ _ (by omega)] at f1
    refine ⟨?_, ?_, by rw [f5]; exact he⟩
    · intro i hi hlt
      rw [f1] at hlt
      by_cases hii : i = s.id
      · subst hii
        rw [l2]; exact hslot
      · rw [hfr i (by omega)]
        exact hc i hi (by omega)
    · intro q hq
      obtain ⟨d1, d2⟩ := hd q hq
      rw [f3, f1]
      refine ⟨d1, ?_⟩
      rcases l1 with l1 | l1
      · rw [l1]; exact GoodVal_mono _ _ _ (by omega) d2
      · rw [l1]
        unfold tset
        split_ifs
        · rw [toInt_of_lt _ (by omega)]
          exact Or.inr ⟨by omega, by omega, by omega⟩
        · exact GoodVal_mono _ _ _ (by omega) d2
  | tree_store s R tree tc _ ih => exact ih
  | block_entry s R _ ih => exact ih
  | block_exit s R fuel k od ol res hreach _ _ hres ih =>
    unfold exit_block_scope at hres
    cases hl : restore_loop s.identab s.curid fuel (subSize s.id 4) s.reprtab with
    | none => rw [hl] at hres; exact absurd hres (by simp)
    | some t2 =>
      rw [hl] at hres
      simp only [Option.some.injEq] at hres
      subst hres
      have hgood := BindingInv_restore s R (Reach_CursorInv K m0 s R hreach) ih fuel t2 hl
      obtain ⟨hc, hd, he⟩ := ih
      exact ⟨hc, fun r hr => ⟨(hd r hr).1, hgood r hr⟩, he⟩
  | func_entry s R _ ih => exact ih
  | func_exit s R fuel k pred st res hreach _ _ hres ih =>
    unfold exit_func_scope at hres
    split_ifs at hres
    · simp only [Option.some.injEq] at hres
      subst hres
      exact ih
    · cases hl : restore_loop s.identab s.curid fuel (subSize s.id 4) s.reprtab with
      | none => rw [hl] at hres; exact absurd hres (by simp)
      | some t2 =>
        rw [hl] at hres
        simp only [Option.some.injEq] at hres
        subst hres
        have hgood := BindingInv_restore s R (Reach_CursorInv K m0 s R hreach) ih fuel t2 hl
        obtain ⟨hc, hd, he⟩ := ih
        exact ⟨hc, fun r hr => ⟨(hd r hr).1, hgood r hr⟩, he⟩

/-- From a symbol record the walk along the previous-binding cells goes down
through records and arrives at the marker 1. -/
theorem binding_walk_ends (identab : Table) (bound : Nat) (hbound : bound ≤ 2147483648)
    (hg : ∀ i, i % 4 = 2 → i < bound → GoodVal (identab i) i) :
    ∀ v : Nat, v % 4 = 2 → v < bound →
      ∃ n, binding_walk identab n v = 1 ∧
        (∀ a, a < n → binding_walk identab a v % 4 = 2 ∧ binding_walk identab a v < bound) ∧
        (∀ a b, a < b → b ≤ n → binding_walk identab b v < binding_walk identab a v) := by
  intro v
  induction v using Nat.strong_induction_on with
  | _ v ih =>
    intro hv hlt
    rcases hg v hv hlt with e | ⟨e1, e2, e3⟩
    · have hstep : binding_walk identab 1 v = 1 := by
        simp only [binding_walk, e]; decide
      refine ⟨1, hstep, ?_, ?_⟩
      · intro a ha
        have : a = 0 := by omega
        subst this
        exact ⟨hv, hlt⟩
      · intro a b hab hb
        have ha0 : a = 0 := by omega
        have hb1 : b = 1 := by omega
        subst ha0 hb1
        rw [hstep]
        show 1 < v
        omega
    · have hw : toSize (identab v) < v ∧ toSize (identab v) % 4 = 2 := by
        rw [toSize_of_nonneg _ (by omega) (by omega)]
        omega
      obtain ⟨n, hn1, hn2, hn3⟩ := ih _ hw.1 hw.2 (by omega)
      refine ⟨n + 1, hn1, ?_, ?_⟩
      · intro a ha
        cases a with
        | zero => exact ⟨hv, hlt⟩
        | succ a => exact hn2 a (by omega)
      · intro a b hab hb
        cases b with
        | zero => omega
        | succ b =>
          cases a with
          | zero =>
            by_cases hb0 : b = 0
            · subst hb0
              simp only [binding_walk]
              exact hw.1
            · have := hn3 0 b (by omega) (by omega)
              simp only [binding_walk] at this ⊢
              omega
          | succ a =>
            simp only [binding_walk]
            exact hn3 a b (by omega) (by omega)

theorem binding_walk_stays (identab : Table) (h1 : identab 1 = 1) :
    ∀ n, binding_walk identab n 1 = 1 := by
  intro n
  induction n with
  | zero => rfl
  | succ n ih =>
    have ht : toSize 1 = 1 := by decide
    simp only [binding_walk, h1, ht]
    exact ih

/-- Counterexample for C7: `sx_init` runs on storage whose cell `identab[1]` holds
1 (it does not clear the symbol table), the spelling `f` is interned (handle 1)
and declared as a variable.  The current binding of the representation is the
symbol record 2, whose previous-binding cell holds the marker 1 of an unbound
identifier; `identab[1]` is 1, so the walk from the record is 2, 1, 1, ... and
never arrives at 0. -/
theorem binding_chain_misses_zero :
    ex_stale_variable.reprtab (1 + 1) = 2 ∧ ex_stale_variable.identab 2 = 1 ∧
    ex_stale_variable.identab 1 = 1 ∧
    ∀ n, binding_walk ex_stale_variable.identab (n + 1) 2 = 1 := by
  refine ⟨by decide, by decide, by decide, fun n => ?_⟩
  have h2 : ex_stale_variable.identab 2 = 1 := by decide
  have ht : toSize 1 = 1 := by decide
  simp only [binding_walk, h2, ht]
  exact binding_walk_stays _ (by decide) n

/-- C7, amended: in every context reachable from `sx_init` (with
`keywordsnum = 0`) by `repr_add`, `ident_add` on representations and the scope
entries and exits (the exits making no store before `reprtab`), for every
representation whose current binding is a symbol record, the walk along the
previous-binding cells `identab[i]` arrives after finitely many steps at the
marker 1, the value that seeds the slot of an unbound representation; every
offset before that is a symbol record below `id`, and the offsets strictly
decrease, so none is visited twice. -/
theorem binding_chain_reaches_marker (K : Defs) (m0 s : Sx) (R : List Nat)
    (hk : m0.keywordsnum = 0) (hreach : Reach K m0 s R)
    (r : Nat) (hr : r ∈ R) (hrec : 2 ≤ s.reprtab (r + 1)) :
    ∃ n, binding_walk s.identab n (toSize (s.reprtab (r + 1))) = 1 ∧
      (∀ a, a < n → binding_walk s.identab a (toSize (s.reprtab (r + 1))) % 4 = 2 ∧
        binding_walk s.identab a (toSize (s.reprtab (r + 1))) < s.id) ∧
      ∀ a b, a < b → b ≤ n →
        binding_walk s.identab b (toSize (s.reprtab (r + 1))) <
        binding_walk s.identab a (toSize (s.reprtab (r + 1))) := by
  obtain ⟨_, a2, _, _⟩ := Reach_CursorInv K m0 s R hreach
  obtain ⟨hc, hd, _⟩ := Reach_BindingInv K m0 hk s R hreach
  obtain ⟨_, hslot⟩ := hd r hr
  rcases hslot with e | ⟨e1, e2, e3⟩
  · omega
  · exact binding_walk_ends s.identab s.id (by omega) hc (toSize (s.reprtab (r + 1)))
      (by rw [toSize_of_nonneg _ (by omega) (by omega)]; omega)
      (by rw [toSize_of_nonneg _ (by omega) (by omega)]; omega)

/-- The sample context `ex_variable` is reachable, with the one representation 1. -/
theorem ex_variable_reach : Reach sampleDefs zeroed ex_variable [1] :=
  Reach.declare ex_interned [1] 1 0 (-1) 0
    (Reach.intern ex_init [] 4 [102] 1 ex_interned Reach.init rfl) (by decide) (by decide)

/-- Witness for C7: the binding chain of the representation 1 of `ex_variable`,
whose current binding is the record 2. -/
theorem binding_chain_reaches_marker_witness :
    ∃ n, binding_walk ex_variable.identab n (toSize (ex_variable.reprtab (1 + 1))) = 1 ∧
      (∀ a, a < n → binding_walk ex_variable.identab a (toSize (ex_variable.reprtab (1 + 1))) % 4 = 2 ∧
        binding_walk ex_variable.identab a (toSize (ex_variable.reprtab (1 + 1))) < ex_variable.id) ∧
      ∀ a b, a < b → b ≤ n →
        binding_walk ex_variable.identab b (toSize (ex_variable.reprtab (1 + 1))) <
        binding_walk ex_variable.identab a (toSize (ex_variable.reprtab (1 + 1))) :=
  binding_chain_reaches_marker sampleDefs zeroed ex_variable [1] rfl
    ex_variable_reach 1 (by decide) (by decide)

/-! ## The scope cursors -/

/-- Counterexample for C6: in `ex_variable` the cursor `id` is 6.  A block is
entered, one variable is declared and the block is left: the exit returns 0 and
`id` is 10 afterwards.  The same happens with a function scope. -/
theorem exit_scope_keeps_id :
    ex_variable.id = 6 ∧
    (exit_block_scope 4 (ident_add sampleDefs (enter_block_scope ex_variable).2 1 0 (-1) 0).2
      (enter_block_scope ex_variable).1.1 (enter_block_scope ex_variable).1.2).map
        (fun r => (r.1, r.2.id)) = some (0, 10) ∧
    (exit_func_scope 4
      (ident_add sampleDefs (enter_func_scope { ex_variable with tc := 1 }).2 1 0 (-1) 0).2 0
      (enter_func_scope { ex_variable with tc := 1 }).1).map
        (fun r => (r.1, r.2.id)) = some (0, 10) := by
  decide

/-- C6, amended: in every context reachable from `sx_init`, `curid` is at most
`id`, and entering a scope sets `curid` to `id`, so it never decreases `curid`.
The cursor `id` is not restored by the exits: after any `ident_add` calls in the
scope, the matching `exit_block_scope` or `exit_func_scope` returns 0 and `id` is
its value at the enter plus 4 for each call; `exit_func_scope` sets `curid` to 2,
the boundary of the program scope, where every function is declared.  The
context holds a symbol record at the enter (`4 <= id`), and the restore loop of
the exit makes no store before `reprtab`. -/
theorem scope_cursors (K : Defs) (m0 sx : Sx) (R : List Nat) (calls : List IdentCall)
    (fuel : Nat) (pred : Nat) (old_displ old_lg scope_start : Int)
    (hreach : Reach K m0 sx R) (hid : 4 ≤ sx.id)
    (hb : sx.id + 4 * calls.length < 18446744073709551616) (hf : calls.length ≤ fuel)
    (hpred : toInt pred < sx.tc) :
    sx.curid ≤ sx.id ∧
    (enter_block_scope sx).2.curid = sx.id ∧ (enter_block_scope sx).2.id = sx.id ∧
    (enter_func_scope sx).2.curid = sx.id ∧ (enter_func_scope sx).2.id = sx.id ∧
    (RestoreInTable (ident_adds K (enter_block_scope sx).2 calls).identab sx.id calls.length →
      ∃ r, exit_block_scope fuel (ident_adds K (enter_block_scope sx).2 calls) old_displ old_lg
        = some r ∧ r.1 = 0 ∧ r.2.id = sx.id + 4 * calls.length) ∧
    (RestoreInTable (ident_adds K (enter_func_scope sx).2 calls).identab sx.id calls.length →
      ∃ r, exit_func_scope fuel (ident_adds K (enter_func_scope sx).2 calls) pred scope_start
        = some r ∧ r.1 = 0 ∧ r.2.curid = 2 ∧ r.2.id = sx.id + 4 * calls.length) := by
  obtain ⟨_, _, _, hcur⟩ := Reach_CursorInv K m0 sx R hreach
  refine ⟨hcur, rfl, rfl, rfl, rfl, fun _ => ?_, fun _ => ?_⟩
  · obtain ⟨fid, fcur, _, _⟩ := ident_adds_frame K (enter_block_scope sx).2 calls hb
    have hloop := restore_loop_eq (ident_adds K (enter_block_scope sx).2 calls).identab sx.id hid
      calls.length fuel (ident_adds K (enter_block_scope sx).2 calls).reprtab hb hf
    have e1 : (enter_block_scope sx).2.id = sx.id := rfl
    have e2 : (enter_block_scope sx).2.curid = sx.id := rfl
    rw [e1] at fid
    rw [e2] at fcur
    unfold exit_block_scope
    rw [fid, fcur, hloop]
    exact ⟨_, rfl, rfl, rfl⟩
  · obtain ⟨fid, fcur, ftc, _⟩ := ident_adds_frame K (enter_func_scope sx).2 calls hb
    have hloop := restore_loop_eq (ident_adds K (enter_func_scope sx).2 calls).identab sx.id hid
      calls.length fuel (ident_adds K (enter_func_scope sx).2 calls).reprtab hb hf
    have e1 : (enter_func_scope sx).2.id = sx.id := rfl
    have e2 : (enter_func_scope sx).2.curid = sx.id := rfl
    have e3 : (enter_func_scope sx).2.tc = sx.tc := rfl
    rw [e1] at fid
    rw [e2] at fcur
    rw [e3] at ftc
    have hg : ¬ (toInt pred ≥ (ident_adds K (enter_func_scope sx).2 calls).tc) := by
      rw [ftc]; omega
    unfold exit_func_scope
    rw [if_neg hg, fid, fcur, hloop]
    exact ⟨_, rfl, rfl, rfl, rfl⟩

/-- The sample context `ex_variable` with one tree cell is reachable. -/
theorem ex_variable_tree_reach :
    Reach sampleDefs zeroed { ex_variable with tc := 1 } [1] :=
  Reach.tree_store ex_variable [1] ex_variable.tree 1 ex_variable_reach

/-- Witness for C6: in `ex_variable` with one tree cell a scope is entered and one
variable is declared in it; the record carries the back-reference 1. -/
theorem scope_cursors_witness :
    ({ ex_variable with tc := 1 } : Sx).curid ≤ ({ ex_variable with tc := 1 } : Sx).id ∧
    (∃ r, exit_block_scope 1 (ident_adds sampleDefs (enter_block_scope { ex_variable with tc := 1 }).2
          [{ repr := 1, type := 0, mode := -1, func_def := 0 }]) 0 0 = some r ∧
      r.1 = 0 ∧ r.2.id = 6 + 4 * 1) ∧
    (∃ r, exit_func_scope 1 (ident_adds sampleDefs (enter_func_scope { ex_variable with tc := 1 }).2
          [{ repr := 1, type := 0, mode := -1, func_def := 0 }]) 0 0 = some r ∧
      r.1 = 0 ∧ r.2.curid = 2 ∧ r.2.id = 6 + 4 * 1) :=
  ⟨(scope_cursors sampleDefs zeroed { ex_variable with tc := 1 } [1]
      [{ repr := 1, type := 0, mode := -1, func_def := 0 }] 1 0 0 0 0
      ex_variable_tree_reach (by decide) (by decide) (by decide) (by decide)).1,
   (scope_cursors sampleDefs zeroed { ex_variable with tc := 1 } [1]
      [{ repr := 1, type := 0, mode := -1, func_def := 0 }] 1 0 0 0 0
      ex_variable_tree_reach (by decide) (by decide) (by decide) (by decide)).2.2.2.2.2.1
        (fun j hj => by
          have hj1 : j < 1 := hj
          have h0 : j = 0 := by omega
          subst h0
          decide),
   (scope_cursors sampleDefs zeroed { ex_variable with tc := 1 } [1]
      [{ repr := 1, type := 0, mode := -1, func_def := 0 }] 1 0 0 0 0
      ex_variable_tree_reach (by decide) (by decide) (by decide) (by decide)).2.2.2.2.2.2
        (fun j hj => by
          have hj1 : j < 1 := hj
          have h0 : j = 0 := by omega
          subst h0
          decide)⟩


/-! ## Interning a non-empty spelling twice -/

theorem toInt_ne_zero (c : Nat) (h0 : c ≠ 0) (h : c < 4294967296) : toInt c ≠ 0 := by
  unfold toInt; omega

theorem repr_write_cursor_eq (sp : List Nat) (hnz : ∀ c ∈ sp, c ≠ 0) :
    ∀ (t : Table) (rp hash : Nat), (repr_write sp t rp hash).2.1 = rp + sp.length + 1 := by
  induction sp with
  | nil => intro t rp hash; rfl
  | cons c cs ih =>
    intro t rp hash
    have hc : c ≠ 0 := hnz c (List.mem_cons_self _ _)
    simp only [repr_write, if_neg hc, List.length_cons]
    rw [ih (fun x hx => hnz x (List.mem_cons_of_mem _ hx))]
    omega

theorem repr_write_hash (sp : List Nat) :
    ∀ (t t2 : Table) (rp rp2 hash : Nat),
      (repr_write sp t rp hash).2.2 = (repr_write sp t2 rp2 hash).2.2 := by
  induction sp with
  | nil => intro t t2 rp rp2 hash; rfl
  | cons c cs ih =>
    intro t t2 rp rp2 hash
    simp only [repr_write]
    split_ifs
    · rfl
    · exact ih _ _ _ _ _

theorem repr_write_get (sp : List Nat) (hnz : ∀ c ∈ sp, c ≠ 0) :
    ∀ (t : Table) (rp hash j : Nat),
      (repr_write sp t rp hash).1 j =
        if rp ≤ j ∧ j < rp + sp.length then toInt (sp.getD (j - rp) 0)
        else if j = rp + sp.length then 0 else t j := by
  induction sp with
  | nil =>
    intro t rp hash j
    simp only [repr_write, List.length_nil, Nat.add_zero]
    rw [if_neg (by omega)]
    rfl
  | cons c cs ih =>
    intro t rp hash j
    have hc : c ≠ 0 := hnz c (List.mem_cons_self _ _)
    simp only [repr_write, if_neg hc, List.length_cons]
    rw [ih (fun x hx => hnz x (List.mem_cons_of_mem _ hx))]
    by_cases h1 : rp + 1 ≤ j ∧ j < rp + 1 + cs.length
    · rw [if_pos h1, if_pos (by omega)]
      obtain ⟨k, hk⟩ : ∃ k, j - rp = k + 1 := ⟨j - rp - 1, by omega⟩
      have : j - (rp + 1) = k := by omega
      rw [hk, this]
      rfl
    · rw [if_neg h1]
      by_cases h2 : j = rp + 1 + cs.length
      · rw [if_pos h2, if_neg (by omega), if_pos (by omega)]
      · rw [if_neg h2]
        by_cases h3 : j = rp
        · subst h3
          rw [if_pos (by omega), tset_eq]
          simp
        · rw [if_neg (by omega), if_neg (by omega)]
          exact tset_ne _ _ _ _ h3

theorem repr_write_again (sp : List Nat) (hnz : ∀ c ∈ sp, c ≠ 0) (t : Table) (rp hash : Nat) :
    repr_write sp (repr_write sp t rp hash).1 rp hash = repr_write sp t rp hash := by
  have h1 : (repr_write sp (repr_write sp t rp hash).1 rp hash).1 = (repr_write sp t rp hash).1 := by
    funext j
    rw [repr_write_get sp hnz, repr_write_get sp hnz]
    split_ifs <;> rfl
  have h2 := repr_write_cursor_eq sp hnz (repr_write sp t rp hash).1 rp hash
  have h3 := repr_write_cursor_eq sp hnz t rp hash
  have h4 := repr_write_hash sp (repr_write sp t rp hash).1 t rp rp hash
  apply Prod.ext h1
  apply Prod.ext
  · show (repr_write sp (repr_write sp t rp hash).1 rp hash).2.1 = (repr_write sp t rp hash).2.1
    rw [h2, h3]
  · exact h4

theorem repr_is_equal_loop_same (t : Table) (first second n : Nat)
    (hsame : ∀ j, j ≤ n → t (first + (2 + j)) = t (second + (2 + j)))
    (hnz : ∀ j, j < n → t (first + (2 + j)) ≠ 0)
    (hend : t (first + (2 + n)) = 0) :
    ∀ (k fuel : Nat), k < n → n - k ≤ fuel →
      repr_is_equal_loop t first second fuel (2 + k) = some true := by
  intro k fuel
  induction fuel generalizing k with
  | zero => intro hk hf; omega
  | succ f ih =>
    intro hk hf
    simp only [repr_is_equal_loop]
    rw [if_pos (hsame k (by omega))]
    by_cases hlast : k + 1 = n
    · have e1 : t (first + (2 + k + 1)) = 0 := by
        rw [show first + (2 + k + 1) = first + (2 + n) by omega]; exact hend
      have e2 : t (second + (2 + k + 1)) = 0 := by
        rw [show second + (2 + k + 1) = second + (2 + n) by omega, ← hsame n (by omega)]
        exact hend
      rw [if_pos ⟨e1, e2⟩]
    · have e1 : ¬ (t (first + (2 + k + 1)) = 0 ∧ t (second + (2 + k + 1)) = 0) := by
        intro ⟨h, _⟩
        exact hnz (k + 1) (by omega) (by rw [show first + (2 + (k + 1)) = first + (2 + k + 1) by omega]; exact h)
      rw [if_neg e1]
      exact ih (k + 1) (by omega) (by omega)

theorem repr_add_eq (fuel : Nat) (sx : Sx) (sp : List Nat) :
    repr_add fuel sx sp =
      match repr_find (repr_written sx sp) sx.rp fuel fuel
          ((repr_written sx sp).hashtab (repr_hash sx sp)) with
      | none => none
      | some (some cur_repr) => some (cur_repr, { repr_written sx sp with rp := sx.rp })
      | some none =>
        if (repr_written sx sp).keywordsnum ≠ 0 then
          some (sx.rp, { repr_written sx sp with
            reprtab := tset (tset (repr_written sx sp).reprtab sx.rp
              (toInt ((repr_written sx sp).hashtab (repr_hash sx sp)))) (sx.rp + 1)
              (-(Int.tdiv ((repr_written sx sp).keywordsnum + 1 - 2) 4)),
            hashtab := fun j => if j = repr_hash sx sp then sx.rp
              else (repr_written sx sp).hashtab j,
            keywordsnum := (repr_written sx sp).keywordsnum + 1 })
        else
          some (sx.rp, { repr_written sx sp with
            reprtab := tset (tset (repr_written sx sp).reprtab sx.rp
              (toInt ((repr_written sx sp).hashtab (repr_hash sx sp)))) (sx.rp + 1) 1,
            hashtab := fun j => if j = repr_hash sx sp then sx.rp
              else (repr_written sx sp).hashtab j }) := rfl

theorem repr_written_again (s : Sx) (sp : List Nat) (hnz : ∀ c ∈ sp, c ≠ 0) :
    repr_written { repr_written s sp with rp := s.rp } sp = repr_written s sp ∧
    repr_hash { repr_written s sp with rp := s.rp } sp = repr_hash s sp := by
  have h := repr_write_again sp hnz s.reprtab (s.rp + 2) 0
  constructor
  · calc repr_written { repr_written s sp with rp := s.rp } sp
        = { repr_written s sp with
              reprtab := (repr_write sp (repr_write sp s.reprtab (s.rp + 2) 0).1 (s.rp + 2) 0).1,
              rp := (repr_write sp (repr_write sp s.reprtab (s.rp + 2) 0).1 (s.rp + 2) 0).2.1,
              hash := ((repr_write sp (repr_write sp s.reprtab (s.rp + 2) 0).1 (s.rp + 2) 0).2.2
                : Int) } := rfl
      _ = { repr_written s sp with
              reprtab := (repr_write sp s.reprtab (s.rp + 2) 0).1,
              rp := (repr_write sp s.reprtab (s.rp + 2) 0).2.1,
              hash := ((repr_write sp s.reprtab (s.rp + 2) 0).2.2 : Int) } := by rw [h]
      _ = repr_written s sp := rfl
  · show (repr_write sp (repr_write sp s.reprtab (s.rp + 2) 0).1 (s.rp + 2) 0).2.2 = _
    rw [h]; rfl

/-- Interning a non-empty spelling twice: when `repr_add` of a non-empty
spelling returns the handle `h`, a second call in a row returns `h` too and
leaves `rp` where the first call left it. -/
theorem repr_add_twice_nonempty (fuel : Nat) (s : Sx) (sp : List Nat) (h : Nat) (s1 : Sx)
    (hne : sp ≠ []) (hnz : ∀ c ∈ sp, c ≠ 0 ∧ c < 4294967296) (hrp : 0 < s.rp)
    (hf : sp.length ≤ fuel) (hres : repr_add fuel s sp = some (h, s1)) :
    ∃ s2, repr_add fuel s1 sp = some (h, s2) ∧ s2.rp = s1.rp := by
  have hnz0 : ∀ c ∈ sp, c ≠ 0 := fun c hc => (hnz c hc).1
  have hlen : 0 < sp.length := List.length_pos.2 hne
  rw [repr_add_eq] at hres
  split at hres
  · exact absurd hres (by simp)
  · -- the first call finds the spelling and rewinds; the second call repeats it
    rename_i cur hfind
    simp only [Option.some.injEq, Prod.mk.injEq] at hres
    obtain ⟨rfl, rfl⟩ := hres
    obtain ⟨e1, e2⟩ := repr_written_again s sp hnz0
    refine ⟨{ repr_written s sp with rp := s.rp }, ?_, rfl⟩
    rw [repr_add_eq, e1, e2]
    show (match repr_find (repr_written s sp) s.rp fuel fuel
      ((repr_written s sp).hashtab (repr_hash s sp)) with
      | none => none
      | some (some cur_repr) => some (cur_repr, { repr_written s sp with rp := s.rp })
      | some none => _) = _
    rw [hfind]
  · -- the first call commits a record at the old `rp`; the second call finds it
    have hcommit : h = s.rp ∧ s1.rp = s.rp + 2 + sp.length + 1 ∧
        s1.hashtab (repr_hash s sp) = s.rp ∧
        (∀ j, s1.reprtab (s.rp + 2 + j) = (repr_write sp s.reprtab (s.rp + 2) 0).1 (s.rp + 2 + j)) := by
      have hcur := repr_write_cursor_eq sp hnz0 s.reprtab (s.rp + 2) 0
      split_ifs at hres
      all_goals
        simp only [Option.some.injEq, Prod.mk.injEq] at hres
        obtain ⟨rfl, rfl⟩ := hres
        refine ⟨rfl, hcur, by simp, ?_⟩
        intro j
        show tset (tset _ _ _) _ _ _ = _
        rw [tset_ne _ _ _ _ (by omega), tset_ne _ _ _ _ (by omega)]
        rfl
    obtain ⟨rfl, c2, c3, c4⟩ := hcommit
    have hh : repr_hash s1 sp = repr_hash s sp := repr_write_hash sp _ _ _ _ _
    have hold : ∀ j, (repr_written s1 sp).reprtab (s.rp + (2 + j)) =
        if j < sp.length then toInt (sp.getD j 0) else if j = sp.length then 0
        else (repr_written s1 sp).reprtab (s.rp + (2 + j)) := by
      intro j
      by_cases hj : j ≤ sp.length
      · show (repr_write sp s1.reprtab (s1.rp + 2) 0).1 (s.rp + (2 + j)) = _
        rw [repr_write_below sp _ _ _ _ (by omega), show s.rp + (2 + j) = s.rp + 2 + j by omega,
          c4 j, repr_write_get sp hnz0]
        by_cases hj2 : j < sp.length
        · rw [if_pos (by omega), if_pos hj2]; congr 2; omega
        · rw [if_neg (by omega), if_pos (by omega), if_neg hj2, if_pos (by omega)]
      · rw [if_neg (by omega), if_neg (by omega)]
    have hnew : ∀ j, j ≤ sp.length → (repr_written s1 sp).reprtab (s1.rp + (2 + j)) =
        if j < sp.length then toInt (sp.getD j 0) else 0 := by
      intro j hj
      show (repr_write sp s1.reprtab (s1.rp + 2) 0).1 (s1.rp + (2 + j)) = _
      rw [repr_write_get sp hnz0]
      by_cases hj2 : j < sp.length
      · rw [if_pos (by omega), if_pos hj2]; congr 2; omega
      · rw [if_neg (by omega), if_pos (by omega), if_neg hj2]
    have heq : repr_is_equal fuel (repr_written s1 sp) s.rp s1.rp = some true := by
      unfold repr_is_equal
      apply repr_is_equal_loop_same _ _ _ sp.length ?_ ?_ ?_ 0 fuel hlen (by omega)
      · intro j hj
        rw [hold j, hnew j hj]
        by_cases hj2 : j < sp.length
        · rw [if_pos hj2, if_pos hj2]
        · rw [if_neg hj2, if_neg hj2, if_pos (by omega)]
      · intro j hj
        rw [hold j, if_pos hj]
        have hm : sp.getD j 0 ∈ sp := by
          rw [List.getD_eq_getElem _ _ hj]; exact List.getElem_mem _
        exact toInt_ne_zero _ (hnz _ hm).1 (hnz _ hm).2
      · rw [hold sp.length, if_neg (by omega), if_pos rfl]
    obtain ⟨f, rfl⟩ : ∃ f, fuel = f + 1 := ⟨fuel - 1, by omega⟩
    have hfind : repr_find (repr_written s1 sp) s1.rp (f + 1) (f + 1)
        ((repr_written s1 sp).hashtab (repr_hash s1 sp)) = some (some s.rp) := by
      have hc : (repr_written s1 sp).hashtab (repr_hash s1 sp) = s.rp := by
        rw [hh]; exact c3
      rw [hc]
      simp only [repr_find, if_neg (by omega : ¬ s.rp = 0), heq]
    refine ⟨{ repr_written s1 sp with rp := s1.rp }, ?_, rfl⟩
    rw [repr_add_eq, hfind]


/-! ## Sizes, emitting and reserving -/

/-- C15: `size_of` returns 2 for the mode `LFLOAT`; for the handle of a
structure record (a positive offset whose cell holds the tag `MSTRUCT` and whose
next cell lies below `md`) it returns that next cell, the member count in cells;
for every other mode, one that is not `LFLOAT` and is not a positive offset below
`md` holding the tag `MSTRUCT`, it returns 1.  The tag `MSTRUCT` is not the value
`INT_MAX` that `mode_get` returns out of range, and the mode is an `int`. -/
theorem size_of_cases (K : Defs) (sx : Sx) (mode : Int)
    (hK : K.MSTRUCT ≠ INT_MAX) (hm : mode < 2147483648) :
    (mode = K.LFLOAT → size_of K sx mode = 2) ∧
    (mode ≠ K.LFLOAT → 0 < mode → mode + 1 < sx.md → sx.modetab mode.toNat = K.MSTRUCT →
      size_of K sx mode = sx.modetab (mode.toNat + 1)) ∧
    (mode ≠ K.LFLOAT → ¬ (0 < mode ∧ mode < sx.md ∧ sx.modetab mode.toNat = K.MSTRUCT) →
      size_of K sx mode = 1) := by
  refine ⟨?_, ?_, ?_⟩
  · intro h
    unfold size_of
    rw [if_pos h]
  · intro h h0 h1 h2
    have e1 : toSize mode = mode.toNat := by unfold toSize; omega
    have e2 : toSize (mode + 1) = mode.toNat + 1 := by unfold toSize; omega
    have g1 : ¬ (mode.toNat ≥ sx.md) := by omega
    have g2 : ¬ (mode.toNat + 1 ≥ sx.md) := by omega
    unfold size_of mode_get
    rw [if_neg h, e1, e2, if_neg g1, if_neg g2, if_pos ⟨h0, h2⟩]
  · intro h hn
    unfold size_of
    rw [if_neg h]
    by_cases h0 : 0 < mode
    · have e1 : toSize mode = mode.toNat := by unfold toSize; omega
      have hg : ¬ (mode_get sx (toSize mode) = K.MSTRUCT) := by
        unfold mode_get
        rw [e1]
        split_ifs with hc
        · exact fun e => hK e.symm
        · intro e
          exact hn ⟨h0, by omega, e⟩
      rw [if_neg (fun hh => hg hh.2)]
    · rw [if_neg (fun hh => h0 hh.1)]

/-- Witness for C15: in `ex_struct` the handle 2 is a structure of 3 cells, the
mode -3 is `LFLOAT` and the mode -1 is another primitive. -/
theorem size_of_cases_witness :
    size_of sampleDefs ex_struct (-3) = 2 ∧ size_of sampleDefs ex_struct 2 = 3 ∧
    size_of sampleDefs ex_struct (-1) = 1 :=
  ⟨(size_of_cases sampleDefs ex_struct (-3) (by decide) (by decide)).1 (by decide),
   (size_of_cases sampleDefs ex_struct 2 (by decide) (by decide)).2.1 (by decide) (by decide)
      (by decide) (by decide),
   (size_of_cases sampleDefs ex_struct (-1) (by decide) (by decide)).2.2 (by decide)
      (by decide)⟩

theorem mem_add_eq (sx : Sx) (v : Int) (h0 : 0 ≤ sx.pc) (h1 : sx.pc + 1 < 2147483648) :
    mem_add sx v = (0, { sx with pc := sx.pc + 1, mem := tset sx.mem sx.pc.toNat v }) := by
  have e1 : toSize (sx.pc + 1 - 1) = sx.pc.toNat := by unfold toSize; omega
  have e2 : toInt sx.pc.toNat = sx.pc := by unfold toInt; omega
  have hg : ¬ (toInt sx.pc.toNat ≥ sx.pc + 1) := by rw [e2]; omega
  unfold mem_add mem_set
  dsimp only
  rw [e1, if_neg hg]

/-- C16, counterexample: in the context right after `sx_init` the code pool has
4 cells, and `mem_add` of the value 7 returns 0, not the offset 4 of the cell it
appends. -/
theorem mem_add_returns_status :
    mem_get_size ex_init = 4 ∧ (mem_add ex_init 7).1 = 0 ∧
    mem_get (mem_add ex_init 7).2 4 = 7 := by
  decide

/-- C16, amended: with a cursor that is non-negative and below `INT_MAX`,
`mem_add` appends one cell holding the value (the size grows by 1, `mem_get` at
the old size returns the value, every cell below the old size reads as before)
and returns the status 0. -/
theorem mem_add_appends (sx : Sx) (v : Int) (h0 : 0 ≤ sx.pc) (h1 : sx.pc + 1 < 2147483648) :
    (mem_add sx v).1 = 0 ∧
    mem_get_size (mem_add sx v).2 = mem_get_size sx + 1 ∧
    mem_get (mem_add sx v).2 (mem_get_size sx) = v ∧
    ∀ j : Nat, j < mem_get_size sx → mem_get (mem_add sx v).2 j = mem_get sx j := by
  have e := mem_add_eq sx v h0 h1
  have s0 : mem_get_size sx = sx.pc.toNat := by unfold mem_get_size toSize; omega
  have e2 : toInt sx.pc.toNat = sx.pc := by unfold toInt; omega
  rw [e, s0]
  refine ⟨rfl, ?_, ?_, ?_⟩
  · unfold mem_get_size toSize
    dsimp only
    omega
  · have hg : ¬ (toInt sx.pc.toNat ≥ sx.pc + 1) := by rw [e2]; omega
    unfold mem_get
    dsimp only
    rw [if_neg hg]
    exact tset_eq _ _ _
  · intro j hj
    have e3 : toInt j = (j : Int) := toInt_of_lt j (by omega)
    have hg1 : ¬ (toInt j ≥ sx.pc + 1) := by rw [e3]; omega
    have hg2 : ¬ (toInt j ≥ sx.pc) := by rw [e3]; omega
    unfold mem_get
    dsimp only
    rw [if_neg hg1, if_neg hg2]
    exact tset_ne _ _ _ _ (by omega)

/-- Witness for C16: appending the value 7 right after `sx_init`. -/
theorem mem_add_appends_witness :
    (mem_add ex_init 7).1 = 0 ∧ mem_get_size (mem_add ex_init 7).2 = mem_get_size ex_init + 1 :=
  ⟨(mem_add_appends ex_init 7 (by decide) (by decide)).1,
   (mem_add_appends ex_init 7 (by decide) (by decide)).2.1⟩

/-- C17, counterexample: right after `sx_init` the cursor is 4, and `mem_increase`
by 1 returns 0, not the base offset 4; by 4294967295, which the conversion to
`int` reads as -1, it leaves the size at 3. -/
theorem mem_increase_returns_status :
    mem_get_size ex_init = 4 ∧ (mem_increase ex_init 1).1 = 0 ∧
    mem_get_size (mem_increase ex_init 1).2 = 5 ∧
    mem_get_size (mem_increase ex_init 4294967295).2 = 3 := by
  decide

/-- C17, amended: for an amount that fits a non-negative `int`, with a cursor
that is non-negative and stays below `INT_MAX`, `mem_increase` advances the
cursor by exactly the amount, so the size does not shrink, and returns the
status 0. -/
theorem mem_increase_advances (sx : Sx) (n : Nat) (h0 : 0 ≤ sx.pc)
    (h1 : sx.pc + n < 2147483648) :
    (mem_increase sx n).1 = 0 ∧
    mem_get_size (mem_increase sx n).2 = mem_get_size sx + n ∧
    mem_get_size sx ≤ mem_get_size (mem_increase sx n).2 := by
  have e : toInt n = (n : Int) := toInt_of_lt n (by omega)
  have s0 : mem_get_size sx = sx.pc.toNat := by unfold mem_get_size toSize; omega
  have s1 : mem_get_size (mem_increase sx n).2 = sx.pc.toNat + n := by
    unfold mem_get_size mem_increase toSize wrapInt
    dsimp only
    rw [e]
    omega
  rw [s0, s1]
  exact ⟨rfl, rfl, by omega⟩

/-- Witness for C17: reserving 10 cells right after `sx_init`. -/
theorem mem_increase_advances_witness :
    (mem_increase ex_init 10).1 = 0 ∧
    mem_get_size (mem_increase ex_init 10).2 = mem_get_size ex_init + 10 :=
  ⟨(mem_increase_advances ex_init 10 (by decide) (by decide)).1,
   (mem_increase_advances ex_init 10 (by decide) (by decide)).2.1⟩

/-! ## The entry point -/

theorem ident_set_mode_more (sx : Sx) (i : Nat) (m : Int) :
    (ident_set_mode sx i m).2.main_ref = sx.main_ref ∧ (ident_set_mode sx i m).2.tree = sx.tree ∧
    (ident_set_mode sx i m).2.modetab = sx.modetab ∧ (ident_set_mode sx i m).2.md = sx.md ∧
    (ident_set_mode sx i m).2.maxdispl = sx.maxdispl ∧
    (ident_set_mode sx i m).2.maxdisplg = sx.maxdisplg := by
  unfold ident_set_mode
  split_ifs <;> simp

theorem ident_set_displ_more (sx : Sx) (i : Nat) (m : Int) :
    (ident_set_displ sx i m).2.main_ref = sx.main_ref ∧
    (ident_set_displ sx i m).2.tree = sx.tree ∧
    (ident_set_displ sx i m).2.modetab = sx.modetab ∧ (ident_set_displ sx i m).2.md = sx.md ∧
    (ident_set_displ sx i m).2.maxdispl = sx.maxdispl ∧
    (ident_set_displ sx i m).2.maxdisplg = sx.maxdisplg := by
  unfold ident_set_displ
  split_ifs <;> simp

theorem getstatic_more (K : Defs) (sx : Sx) (m : Int) :
    (getstatic K sx m).2.main_ref = sx.main_ref ∧ (getstatic K sx m).2.tree = sx.tree ∧
    (getstatic K sx m).2.modetab = sx.modetab ∧ (getstatic K sx m).2.md = sx.md := by
  unfold getstatic
  dsimp only
  split_ifs <;> simp

theorem ident_link_more (sx : Sx) (l r : Nat) :
    (ident_link sx l r).tree = sx.tree ∧ (ident_link sx l r).modetab = sx.modetab ∧
    (ident_link sx l r).md = sx.md ∧ (ident_link sx l r).maxdispl = sx.maxdispl ∧
    (ident_link sx l r).maxdisplg = sx.maxdisplg := by
  unfold ident_link repr_set_reference
  dsimp only
  split_ifs <;> simp

theorem ident_link_main_ref (sx : Sx) (l r : Nat) :
    (ident_link sx l r).main_ref
      = if repr_get_reference sx r = 0 then toInt l else sx.main_ref := by
  unfold ident_link repr_set_reference
  dsimp only
  split_ifs <;> rfl

theorem ident_fill_more (K : Defs) (sx : Sx) (l r : Nat) (type mode fd : Int) :
    (ident_fill K sx l r type mode fd).main_ref = sx.main_ref ∧
    (ident_fill K sx l r type mode fd).tree = sx.tree ∧
    (ident_fill K sx l r type mode fd).modetab = sx.modetab ∧
    (ident_fill K sx l r type mode fd).md = sx.md ∧
    (ident_fill K sx l r type mode fd).lg = sx.lg := by
  unfold ident_fill
  split_ifs <;>
    simp [ident_set_mode_frame, ident_set_displ_frame, getstatic_frame, ident_set_mode_more,
      ident_set_displ_more, getstatic_more]

theorem ident_add_more (K : Defs) (sx : Sx) (r : Nat) (type mode fd : Int) :
    (ident_add K sx r type mode fd).2.tree = sx.tree ∧
    (ident_add K sx r type mode fd).2.modetab = sx.modetab ∧
    (ident_add K sx r type mode fd).2.md = sx.md ∧
    (ident_add K sx r type mode fd).2.lg = sx.lg := by
  unfold ident_add
  dsimp only
  split_ifs <;> simp [ident_fill_more, ident_link_more, ident_link_frame]

theorem ident_fill_predef_cases (K : Defs) (sx : Sx) (l r : Nat) (type mode fd : Int) :
    ((ident_fill K sx l r type mode fd).prdf = sx.prdf ∧
      (ident_fill K sx l r type mode fd).predef = sx.predef) ∨
    (1 < type ∧ type < 1000 ∧ fd = 2 ∧
      (ident_fill K sx l r type mode fd).prdf = sx.prdf + 1 ∧
      (ident_fill K sx l r type mode fd).predef = tsetI sx.predef (sx.prdf + 1) (toInt r)) ∨
    (1 < type ∧ type < 1000 ∧ fd ≠ 2 ∧
      (ident_fill K sx l r type mode fd).prdf = sx.prdf ∧
      (ident_fill K sx l r type mode fd).predef = predef_clear sx.predef sx.prdf r) := by
  by_cases h : 1 < type ∧ type < 1000
  · by_cases hf : fd = 2
    · subst hf
      obtain ⟨_, f2, f3⟩ := ident_fill_predecl K sx l r type mode h.1 h.2
      exact Or.inr (Or.inl ⟨h.1, h.2, rfl, f2, f3⟩)
    · obtain ⟨f2, f3⟩ := ident_fill_define K sx l r type mode fd h.1 h.2 hf
      exact Or.inr (Or.inr ⟨h.1, h.2, hf, f2, f3⟩)
  · left
    unfold ident_fill
    split_ifs <;> first
      | (exfalso; omega)
      | simp [ident_set_mode_frame, ident_set_displ_frame, getstatic_frame]

theorem ident_add_predef_cases (K : Defs) (sx : Sx) (r : Nat) (type mode fd : Int) :
    ((ident_add K sx r type mode fd).2.prdf = sx.prdf ∧
      (ident_add K sx r type mode fd).2.predef = sx.predef) ∨
    (1 < type ∧ type < 1000 ∧ fd = 2 ∧
      (ident_add K sx r type mode fd).2.prdf = sx.prdf + 1 ∧
      (ident_add K sx r type mode fd).2.predef = tsetI sx.predef (sx.prdf + 1) (toInt r)) ∨
    (1 < type ∧ type < 1000 ∧ fd ≠ 2 ∧
      (ident_add K sx r type mode fd).2.prdf = sx.prdf ∧
      (ident_add K sx r type mode fd).2.predef = predef_clear sx.predef sx.prdf r) := by
  unfold ident_add
  dsimp only
  split_ifs
  · exact Or.inl ⟨rfl, rfl⟩
  · left
    simp [ident_link_prdf, ident_link_predef]
  · have h := ident_fill_predef_cases K (ident_link { sx with id := addSize sx.id 4 } sx.id r)
      sx.id r type mode fd
    simp only [ident_link_prdf, ident_link_predef] at h
    exact h

/-- A second `ident_add` on `main` returns `SIZE_MAX` and only advances `id`. -/
theorem ident_add_main_again (K : Defs) (sx : Sx) (r : Nat) (type mode fd : Int)
    (href : repr_get_reference sx r = 0) (hmain : sx.main_ref ≠ 0) :
    ident_add K sx r type mode fd = (SIZE_MAX, { sx with id := addSize sx.id 4 }) := by
  have h : repr_get_reference { sx with id := addSize sx.id 4 } r = 0 := href
  unfold ident_add
  dsimp only
  rw [if_pos ⟨h, hmain⟩]

/-- The first `ident_add` on `main` passes the collision test. -/
theorem ident_add_main_first (K : Defs) (sx : Sx) (r : Nat) (type mode fd : Int)
    (hr : r < sx.rp) (hslot : sx.reprtab (r + 1) = 0) (hmain : sx.main_ref = 0)
    (hcur : 1 ≤ sx.curid) :
    ident_add K sx r type mode fd
      = (sx.id, ident_fill K (ident_link { sx with id := addSize sx.id 4 } sx.id r) sx.id r
          type mode fd) ∧
    (ident_add K sx r type mode fd).2.main_ref = toInt sx.id ∧
    (ident_add K sx r type mode fd).2.reprtab = sx.reprtab := by
  have href : repr_get_reference { sx with id := addSize sx.id 4 } r = 0 := by
    unfold repr_get_reference
    dsimp only
    rw [if_neg (by omega)]
    exact hslot
  have hzero : toSize 0 = 0 := by decide
  have hncol : ¬ (sx.curid ≤ 0) := by omega
  have hadd : ident_add K sx r type mode fd
      = (sx.id, ident_fill K (ident_link { sx with id := addSize sx.id 4 } sx.id r) sx.id r
          type mode fd) := by
    unfold ident_add
    simp only [hmain, ne_eq, not_true_eq_false, and_false, if_false, ident_link_identab,
      ident_link_curid, tset_eq, hslot, hzero, ge_iff_le, hncol, false_and]
  refine ⟨hadd, ?_, ?_⟩
  · rw [hadd]
    dsimp only
    rw [(ident_fill_more K _ _ _ _ _ _).1, ident_link_main_ref, if_pos href]
  · rw [hadd]
    dsimp only
    rw [(ident_fill_frame K _ _ _ _ _ _).2.2.2.2.2, ident_link_reprtab]
    simp [hslot, hzero]

/-- Once `main_ref` is set, no `ident_add` changes it, nor the slot 0 of a
representation below `rp`. -/
theorem ident_add_keeps_main (K : Defs) (sx : Sx) (r q : Nat) (type mode fd : Int)
    (hr : r < sx.rp) (hslot : sx.reprtab (r + 1) = 0) (hmain : sx.main_ref ≠ 0) :
    (ident_add K sx q type mode fd).2.main_ref = sx.main_ref ∧
    (ident_add K sx q type mode fd).2.reprtab (r + 1) = 0 ∧
    (ident_add K sx q type mode fd).2.rp = sx.rp := by
  refine ⟨?_, ?_, (ident_add_frame K sx q type mode fd).2.2.1⟩
  · by_cases href : repr_get_reference sx q = 0
    · rw [ident_add_main_again K sx q type mode fd href hmain]
    · have h : ¬ (repr_get_reference { sx with id := addSize sx.id 4 } q = 0) := href
      unfold ident_add
      dsimp only
      split_ifs
      · rfl
      · rw [ident_link_main_ref, if_neg h]
      · rw [(ident_fill_more K _ _ _ _ _ _).1, ident_link_main_ref, if_neg h]
  · by_cases href : repr_get_reference sx q = 0
    · rw [ident_add_main_again K sx q type mode fd href hmain]
      exact hslot
    · have hq : q ≠ r := by
        intro e
        apply href
        rw [e]
        unfold repr_get_reference
        rw [if_neg (by omega)]
        exact hslot
      have hl : (ident_link { sx with id := addSize sx.id 4 } sx.id q).reprtab (r + 1) = 0 := by
        rw [ident_link_reprtab]
        dsimp only
        split_ifs
        · rw [tset_ne _ _ _ _ (by omega)]; exact hslot
        · exact hslot
      unfold ident_add
      dsimp only
      split_ifs
      · exact hslot
      · exact hl
      · rw [(ident_fill_frame K _ _ _ _ _ _).2.2.2.2.2]; exact hl

theorem ident_adds_keeps_main (K : Defs) (sx : Sx) (r : Nat) (calls : List IdentCall)
    (hr : r < sx.rp) (hslot : sx.reprtab (r + 1) = 0) (hmain : sx.main_ref ≠ 0) :
    (ident_adds K sx calls).main_ref = sx.main_ref ∧
    (ident_adds K sx calls).reprtab (r + 1) = 0 ∧
    (ident_adds K sx calls).rp = sx.rp := by
  induction calls using List.reverseRecOn with
  | nil => exact ⟨rfl, hslot, rfl⟩
  | append_singleton calls c ih =>
    obtain ⟨i1, i2, i3⟩ := ih
    obtain ⟨k1, k2, k3⟩ := ident_add_keeps_main K (ident_adds K sx calls) r c.repr c.type c.mode
      c.func_def (by omega) i2 (by rw [i1]; exact hmain)
    rw [ident_adds_snoc]
    exact ⟨by rw [k1, i1], k2, by rw [k3, i3]⟩

/-- C11: for a representation below `rp` whose current-binding slot is 0, in a
context where `main_ref` is still 0 (with `1 <= curid` and `0 < id < 2^31`, as
every context has from `sx_init` on), `ident_add` of any kind and `func_def`
returns the fresh handle `id`, sets `main_ref` to that handle, which is not 0,
and leaves the slot 0; after any further `ident_add` calls, every `ident_add` on
the representation returns `SIZE_MAX`, whatever the kind and `func_def`. -/
theorem ident_add_main_once (K : Defs) (sx : Sx) (r : Nat) (type mode func_def : Int)
    (calls : List IdentCall) (type2 mode2 func_def2 : Int)
    (hr : r < sx.rp) (hslot : sx.reprtab (r + 1) = 0) (hmain : sx.main_ref = 0)
    (hcur : 1 ≤ sx.curid) (hid0 : 0 < sx.id) (hid : sx.id < 2147483648) :
    (ident_add K sx r type mode func_def).1 = sx.id ∧
    (ident_add K sx r type mode func_def).2.main_ref
      = ((ident_add K sx r type mode func_def).1 : Int) ∧
    (ident_add K sx r type mode func_def).2.main_ref ≠ 0 ∧
    (ident_add K sx r type mode func_def).2.reprtab (r + 1) = 0 ∧
    (ident_add K (ident_adds K (ident_add K sx r type mode func_def).2 calls) r
      type2 mode2 func_def2).1 = SIZE_MAX := by
  obtain ⟨hadd, hm, ht⟩ := ident_add_main_first K sx r type mode func_def hr hslot hmain hcur
  have h1 : (ident_add K sx r type mode func_def).1 = sx.id := by rw [hadd]
  have hm2 : (ident_add K sx r type mode func_def).2.main_ref = (sx.id : Int) := by
    rw [hm, toInt_of_lt _ hid]
  have hrp : (ident_add K sx r type mode func_def).2.rp = sx.rp :=
    (ident_add_frame K sx r type mode func_def).2.2.1
  have hs : (ident_add K sx r type mode func_def).2.reprtab (r + 1) = 0 := by rw [ht]; exact hslot
  have hne : (ident_add K sx r type mode func_def).2.main_ref ≠ 0 := by rw [hm2]; omega
  refine ⟨h1, by rw [hm2, h1], hne, hs, ?_⟩
  obtain ⟨k1, k2, k3⟩ := ident_adds_keeps_main K (ident_add K sx r type mode func_def).2 r calls
    (by omega) hs hne
  have href : repr_get_reference (ident_adds K (ident_add K sx r type mode func_def).2 calls) r
      = 0 := by
    unfold repr_get_reference
    rw [if_neg (by omega)]
    exact k2
  rw [ident_add_main_again K _ r type2 mode2 func_def2 href (by rw [k1]; exact hne)]

/-- Witness for C11: `main` declared in `ex_main`, then redeclared as a function
after a declaration of the same representation in between. -/
theorem ident_add_main_once_witness :
    (ident_add sampleDefs ex_main 1 0 (-1) 0).1 = ex_main.id ∧
    (ident_add sampleDefs (ident_adds sampleDefs (ident_add sampleDefs ex_main 1 0 (-1) 0).2
      [{ repr := 1, type := 0, mode := -1, func_def := 0 }]) 1 2 0 1).1 = SIZE_MAX :=
  ⟨(ident_add_main_once sampleDefs ex_main 1 0 (-1) 0
      [{ repr := 1, type := 0, mode := -1, func_def := 0 }] 2 0 1
      (by decide) (by decide) (by decide) (by decide) (by decide) (by decide)).1,
   (ident_add_main_once sampleDefs ex_main 1 0 (-1) 0
      [{ repr := 1, type := 0, mode := -1, func_def := 0 }] 2 0 1
      (by decide) (by decide) (by decide) (by decide) (by decide) (by decide)).2.2.2.2⟩

/-! ## The final check -/

theorem sx_check_fold (predef : Table) (l : List Nat) :
    ∀ r0 : Int × List Diag, (r0.1 = 0 ∨ r0.1 = -1) →
      ((l.foldl (sx_check_step predef) r0).1 = 0 ↔ (r0.1 = 0 ∧ ∀ i ∈ l, predef i = 0)) ∧
      ((l.foldl (sx_check_step predef) r0).1 = 0 ∨
        (l.foldl (sx_check_step predef) r0).1 = -1) := by
  induction l with
  | nil => intro r0 h; simp [h]
  | cons a l ih =>
    intro r0 h
    simp only [List.foldl_cons]
    by_cases ha : predef a = 0
    · have e : sx_check_step predef r0 a = r0 := by unfold sx_check_step; simp [ha]
      rw [e]
      obtain ⟨i1, i2⟩ := ih r0 h
      refine ⟨?_, i2⟩
      rw [i1]; simp [ha]
    · have e : (sx_check_step predef r0 a).1 = -1 := by unfold sx_check_step; simp [ha]
      obtain ⟨i1, i2⟩ := ih (sx_check_step predef r0 a) (Or.inr e)
      refine ⟨?_, i2⟩
      rw [i1, e]; simp [ha]

/-- The flag of `sx_check` is 0 exactly when `main_ref` is set and the cells
`predef[0..prdf]` are all 0, and it is -1 otherwise. -/
theorem sx_check_flag (sx : Sx) :
    ((sx_check sx).1 = 0 ↔
      (sx.main_ref ≠ 0 ∧ ∀ i : Nat, (i : Int) ≤ sx.prdf → sx.predef i = 0)) ∧
    ((sx_check sx).1 = 0 ∨ (sx_check sx).1 = -1) := by
  have hr0 : ((if sx.main_ref = 0 then ((-1 : Int), [Diag.no_main_in_program])
      else ((0 : Int), ([] : List Diag))).1 = 0 ↔ sx.main_ref ≠ 0) ∧
      ((if sx.main_ref = 0 then ((-1 : Int), [Diag.no_main_in_program])
      else ((0 : Int), ([] : List Diag))).1 = 0 ∨
      (if sx.main_ref = 0 then ((-1 : Int), [Diag.no_main_in_program])
      else ((0 : Int), ([] : List Diag))).1 = -1) := by
    split_ifs with h <;> simp [h]
  obtain ⟨i1, i2⟩ := sx_check_fold sx.predef (List.range (sx.prdf + 1).toNat) _ hr0.2
  unfold sx_check
  dsimp only
  refine ⟨?_, i2⟩
  rw [i1, hr0.1]
  constructor
  · rintro ⟨hm, hall⟩
    exact ⟨hm, fun i hi => hall i (by rw [List.mem_range]; omega)⟩
  · rintro ⟨hm, hall⟩
    exact ⟨hm, fun i hi => hall i (by rw [List.mem_range] at hi; omega)⟩

/-- A pending predeclaration of `r` stays in `predef` across an `ident_add` that
is not a definition of `r`. -/
theorem ident_add_keeps_pending (K : Defs) (sx : Sx) (r q : Nat) (type mode fd : Int)
    (hr : r < 2147483648)
    (hnd : ¬ (q = r ∧ 1 < type ∧ type < 1000 ∧ fd ≠ 2))
    (hp : ∃ i : Nat, (i : Int) ≤ sx.prdf ∧ sx.predef i = (r : Int)) :
    ∃ i : Nat, (i : Int) ≤ (ident_add K sx q type mode fd).2.prdf ∧
      (ident_add K sx q type mode fd).2.predef i = (r : Int) := by
  obtain ⟨i, hi, he⟩ := hp
  rcases ident_add_predef_cases K sx q type mode fd with ⟨a, b⟩ | ⟨_, _, _, a, b⟩ |
    ⟨c1, c2, c3, a, b⟩
  · exact ⟨i, by rw [a]; exact hi, by rw [b]; exact he⟩
  · refine ⟨i, by rw [a]; omega, ?_⟩
    rw [b]
    unfold tsetI
    split_ifs
    · rw [tset_ne _ _ _ _ (by omega)]; exact he
    · exact he
  · have hq : q ≠ r := fun e => hnd ⟨e, c1, c2, c3⟩
    refine ⟨i, by rw [a]; exact hi, ?_⟩
    rw [b]
    unfold predef_clear
    rw [predef_clear_range, if_neg]
    · exact he
    · rintro ⟨_, h⟩
      rw [he, toSize_natCast r (by omega)] at h
      exact hq h.symm

theorem ident_adds_keeps_pending (K : Defs) (sx : Sx) (r : Nat) (calls : List IdentCall)
    (hr : r < 2147483648)
    (hcalls : ∀ c ∈ calls, ¬ (c.repr = r ∧ 1 < c.type ∧ c.type < 1000 ∧ c.func_def ≠ 2))
    (hp : ∃ i : Nat, (i : Int) ≤ sx.prdf ∧ sx.predef i = (r : Int)) :
    ∃ i : Nat, (i : Int) ≤ (ident_adds K sx calls).prdf ∧
      (ident_adds K sx calls).predef i = (r : Int) := by
  induction calls using List.reverseRecOn with
  | nil => exact hp
  | append_singleton calls c ih =>
    rw [ident_adds_snoc]
    exact ident_add_keeps_pending K _ r c.repr c.type c.mode c.func_def hr
      (hcalls c (by simp)) (ih (fun d hd => hcalls d (by simp [hd])))

/-- A function predeclaration on an unbound user representation is stored. -/
theorem ident_add_predeclares (K : Defs) (sx : Sx) (r : Nat) (type mode : Int)
    (hslot : sx.reprtab (r + 1) = 1) (hcur : 2 ≤ sx.curid)
    (h1 : 1 < type) (h2 : type < 1000) (hr : r < 2147483648) (hprdf : -1 ≤ sx.prdf) :
    (ident_add K sx r type mode 2).1 = sx.id ∧
    (ident_add K sx r type mode 2).2.prdf = sx.prdf + 1 ∧
    (ident_add K sx r type mode 2).2.predef (sx.prdf + 1).toNat = (r : Int) := by
  have hmain : ¬ (repr_get_reference { sx with id := addSize sx.id 4 } r = 0) :=
    repr_get_reference_ne_zero _ r (by simp [hslot])
  have hone : toSize 1 = 1 := by decide
  have hncol : ¬ (sx.curid ≤ 1) := by omega
  have hadd : ident_add K sx r type mode 2
      = (sx.id, ident_fill K (ident_link { sx with id := addSize sx.id 4 } sx.id r) sx.id r
          type mode 2) := by
    unfold ident_add
    simp only [hmain, false_and, if_false, ident_link_identab, ident_link_curid, tset_eq, hslot,
      hone, ge_iff_le, hncol, and_false]
  obtain ⟨_, f2, f3⟩ := ident_fill_predecl K (ident_link { sx with id := addSize sx.id 4 } sx.id r)
    sx.id r type mode h1 h2
  rw [hadd]
  simp only [f2, f3, ident_link_prdf, ident_link_predef, toInt_of_lt r hr]
  refine ⟨trivial, trivial, ?_⟩
  unfold tsetI
  rw [if_pos (by omega)]
  exact tset_eq _ _ _

/-- C12: `sx_check` returns 0 if and only if `main_ref` is not 0 and every cell
`predef[i]`, `0 <= i <= prdf`, is 0, and it returns -1 otherwise.  In particular,
after a function predeclaration of an unbound user representation `r` (which
succeeds) followed by any `ident_add` calls none of which is a definition of
`r` (function kind on `r` with `func_def` other than 2), `sx_check` returns -1.
The context has `2 <= curid` and `-1 <= prdf`, as every context has from
`sx_init` on, and the handle `r >= 1` fits an `int`. -/
theorem sx_check_result (K : Defs) (sx : Sx) (r : Nat) (type mode : Int)
    (calls : List IdentCall)
    (hslot : sx.reprtab (r + 1) = 1) (hcur : 2 ≤ sx.curid) (h1 : 1 < type) (h2 : type < 1000)
    (hr1 : 1 ≤ r) (hr : r < 2147483648) (hprdf : -1 ≤ sx.prdf)
    (hcalls : ∀ c ∈ calls, ¬ (c.repr = r ∧ 1 < c.type ∧ c.type < 1000 ∧ c.func_def ≠ 2)) :
    ((sx_check sx).1 = 0 ↔
      (sx.main_ref ≠ 0 ∧ ∀ i : Nat, (i : Int) ≤ sx.prdf → sx.predef i = 0)) ∧
    ((sx_check sx).1 = 0 ∨ (sx_check sx).1 = -1) ∧
    (ident_add K sx r type mode 2).1 = sx.id ∧
    (sx_check (ident_adds K (ident_add K sx r type mode 2).2 calls)).1 = -1 := by
  obtain ⟨p1, p2, p3⟩ := ident_add_predeclares K sx r type mode hslot hcur h1 h2 hr hprdf
  refine ⟨(sx_check_flag sx).1, (sx_check_flag sx).2, p1, ?_⟩
  obtain ⟨i, hi, he⟩ := ident_adds_keeps_pending K (ident_add K sx r type mode 2).2 r calls hr
    hcalls ⟨(sx.prdf + 1).toNat, by rw [p2]; omega, p3⟩
  obtain ⟨q1, q2⟩ := sx_check_flag (ident_adds K (ident_add K sx r type mode 2).2 calls)
  rcases q2 with q2 | q2
  · exfalso
    have h := (q1.mp q2).2 i hi
    rw [he] at h
    omega
  · exact q2

/-- Witness for C12: in `ex_program`, where `main` is defined, the check returns
0; after `f` (handle 8) is predeclared and then declared again as a variable,
it returns -1. -/
theorem sx_check_result_witness :
    (sx_check ex_program).1 = 0 ∧
    (sx_check (ident_adds sampleDefs (ident_add sampleDefs ex_program 8 3 0 2).2
      [{ repr := 8, type := 0, mode := -1, func_def := 0 }])).1 = -1 :=
  ⟨(sx_check_result sampleDefs ex_program 8 3 0
      [{ repr := 8, type := 0, mode := -1, func_def := 0 }]
      (by decide) (by decide) (by decide) (by decide) (by decide) (by decide) (by decide)
      (by decide)).1.mpr ⟨by decide, fun i hi => by
        have h : ex_program.prdf = -1 := by decide
        rw [h] at hi
        omega⟩,
   (sx_check_result sampleDefs ex_program 8 3 0
      [{ repr := 8, type := 0, mode := -1, func_def := 0 }]
      (by decide) (by decide) (by decide) (by decide) (by decide) (by decide) (by decide)
      (by decide)).2.2.2⟩

/-- C13, counterexample: in `ex_main` the representation 1 is `main` (slot 0)
and nothing is bound; `ident_add` declares it as a variable (type 0) and returns
the handle 2, and `sx_check` then returns 0. -/
theorem sx_check_accepts_variable_main :
    ex_main.reprtab 2 = 0 ∧ ex_main.main_ref = 0 ∧
    (ident_add sampleDefs ex_main 1 0 (-1) 0).1 = 2 ∧
    (sx_check (ident_add sampleDefs ex_main 1 0 (-1) 0).2).1 = 0 := by
  decide

/-- C13, amended: `sx_check` tests only that `main_ref` is not 0, and `ident_add`
sets `main_ref` when it binds `main`, whatever the kind.  In a context where
`main` is not yet bound and no predeclaration is pending, `sx_check` returns -1;
after `main` has been bound by an `ident_add` of any kind other than a function
predeclaration, a variable (type 0) included, it returns 0. -/
theorem sx_check_main_any_kind (K : Defs) (sx : Sx) (r : Nat) (type mode func_def : Int)
    (hr : r < sx.rp) (hslot : sx.reprtab (r + 1) = 0) (hmain : sx.main_ref = 0)
    (hcur : 1 ≤ sx.curid) (hid0 : 0 < sx.id) (hid : sx.id < 2147483648)
    (hpre : ¬ (1 < type ∧ type < 1000 ∧ func_def = 2))
    (hempty : ∀ i : Nat, (i : Int) ≤ sx.prdf → sx.predef i = 0) :
    (sx_check sx).1 = -1 ∧ (sx_check (ident_add K sx r type mode func_def).2).1 = 0 := by
  constructor
  · obtain ⟨q1, q2⟩ := sx_check_flag sx
    rcases q2 with q2 | q2
    · exact absurd hmain (q1.mp q2).1
    · exact q2
  · obtain ⟨_, hm, _⟩ := ident_add_main_first K sx r type mode func_def hr hslot hmain hcur
    rw [(sx_check_flag _).1]
    refine ⟨by rw [hm, toInt_of_lt _ hid]; omega, ?_⟩
    intro i hi
    rcases ident_add_predef_cases K sx r type mode func_def with ⟨a, b⟩ | ⟨c1, c2, c3, _, _⟩ |
      ⟨_, _, _, a, b⟩
    · rw [a] at hi
      rw [b]
      exact hempty i hi
    · exact absurd ⟨c1, c2, c3⟩ hpre
    · rw [a] at hi
      rw [b]
      unfold predef_clear
      rw [predef_clear_range]
      split_ifs
      · rfl
      · exact hempty i hi

/-- Witness for C13: `main` declared as a variable in `ex_main`. -/
theorem sx_check_main_any_kind_witness :
    (sx_check ex_main).1 = -1 ∧ (sx_check (ident_add sampleDefs ex_main 1 0 (-1) 0).2).1 = 0 :=
  sx_check_main_any_kind sampleDefs ex_main 1 0 (-1) 0 (by decide) (by decide) (by decide)
    (by decide) (by decide) (by decide) (by decide) (fun i hi => by
      have h : ex_main.prdf = -1 := by decide
      rw [h] at hi
      omega)

/-! ## Variable allocation -/

theorem size_of_congr (K : Defs) (s1 s2 : Sx) (mode : Int) (h1 : s1.md = s2.md)
    (h2 : s1.modetab = s2.modetab) : size_of K s1 mode = size_of K s2 mode := by
  unfold size_of mode_get
  rw [h1, h2]

theorem getstatic_displ (K : Defs) (sx : Sx) (m : Int) :
    (getstatic K sx m).1 = sx.displ ∧
    (getstatic K sx m).2.displ = sx.displ + sx.lg * size_of K sx m := by
  unfold getstatic
  dsimp only
  split_ifs <;> exact ⟨rfl, rfl⟩

/-- The record cells and the displacement after the variable branch of
`ident_add`. -/
theorem ident_fill_variable (K : Defs) (sx : Sx) (l r : Nat) (mode fd : Int) (hl : l < sx.id) :
    (ident_fill K sx l r 0 mode fd).identab (l + 2) = mode ∧
    (ident_fill K sx l r 0 mode fd).identab (l + 3) = sx.displ ∧
    (ident_fill K sx l r 0 mode fd).displ = sx.displ + sx.lg * size_of K sx mode := by
  have hg : ¬ (l ≥ sx.id) := by omega
  have e1 : ident_set_mode { sx with identab := tset sx.identab (l + 1) (toInt r) } l mode
      = (0, { sx with identab := tset (tset sx.identab (l + 1) (toInt r)) (l + 2) mode }) := by
    unfold ident_set_mode
    dsimp only
    rw [if_neg hg]
  have a1 : ¬ ((0 : Int) = 1) := by omega
  have a2 : ¬ ((0 : Int) ≥ 1000) := by omega
  have e : ident_fill K sx l r 0 mode fd
      = (ident_set_displ
          (getstatic K { sx with identab := tset (tset sx.identab (l + 1) (toInt r)) (l + 2) mode }
            mode).2 l
          (getstatic K { sx with identab := tset (tset sx.identab (l + 1) (toInt r)) (l + 2) mode }
            mode).1).2 := by
    unfold ident_fill
    simp only [a1, a2, if_false, ne_eq, not_true_eq_false, e1]
  obtain ⟨g1, g2⟩ := getstatic_displ K
    { sx with identab := tset (tset sx.identab (l + 1) (toInt r)) (l + 2) mode } mode
  obtain ⟨gid, _, _, _, _, _, gtab, _⟩ := getstatic_frame K
    { sx with identab := tset (tset sx.identab (l + 1) (toInt r)) (l + 2) mode } mode
  have hs : size_of K { sx with identab := tset (tset sx.identab (l + 1) (toInt r)) (l + 2) mode }
      mode = size_of K sx mode := size_of_congr K _ _ mode rfl rfl
  rw [e]
  refine ⟨?_, ?_, ?_⟩
  · rw [ident_set_displ_identab _ _ _ _ (by omega), gtab]
    exact tset_eq _ _ _
  · have hg2 : ¬ (l ≥ (getstatic K
        { sx with identab := tset (tset sx.identab (l + 1) (toInt r)) (l + 2) mode } mode).2.id) := by
      rw [gid]; exact hg
    unfold ident_set_displ
    rw [if_neg hg2]
    dsimp only
    rw [tset_eq, g1]
  · rw [(ident_set_displ_frame _ _ _).2.2.2.2.2.2.1, g2, hs]

/-- C14, counterexample: in `ex_main` the representation 1 is `main` (slot 0);
`ident_add` of variable kind succeeds and returns the handle 2, and the slot of
the representation is still 0 afterwards, not the handle. -/
theorem ident_add_variable_main :
    1 < ex_main.rp ∧ ex_main.reprtab 2 = 0 ∧
    (ident_add sampleDefs ex_main 1 0 (-1) 0).1 = 2 ∧
    (ident_add sampleDefs ex_main 1 0 (-1) 0).2.reprtab 2 = 0 := by
  decide

/-- C14, amended: a successful `ident_add` of variable kind (type 0) with mode
`m` on a representation below `rp` returns the handle `h`, the old `id`, with
`ident_get_mode(h) = m` and `ident_get_displ(h)` the `displ` before the call;
afterwards `displ` is the old `displ` plus `lg * size_of(m)` and `identab[h]`
holds the previous binding; the current binding becomes `h` unless the previous
binding is 0, the slot of `main`, which stays 0.  The symbol table cursor stays
below `2^31` and the slot holds an `int`. -/
theorem ident_add_variable (K : Defs) (sx : Sx) (r : Nat) (mode func_def : Int)
    (hr : r < sx.rp) (hid : sx.id + 4 < 2147483648)
    (hcell : -2147483648 ≤ sx.reprtab (r + 1) ∧ sx.reprtab (r + 1) < 2147483648)
    (hsucc : (ident_add K sx r 0 mode func_def).1 ≠ SIZE_MAX ∧
      (ident_add K sx r 0 mode func_def).1 ≠ SIZE_MAX - 1) :
    (ident_add K sx r 0 mode func_def).1 = sx.id ∧
    ident_get_mode (ident_add K sx r 0 mode func_def).2 (ident_add K sx r 0 mode func_def).1
      = mode ∧
    ident_get_displ (ident_add K sx r 0 mode func_def).2 (ident_add K sx r 0 mode func_def).1
      = sx.displ ∧
    (ident_add K sx r 0 mode func_def).2.displ = sx.displ + sx.lg * size_of K sx mode ∧
    (ident_add K sx r 0 mode func_def).2.identab (ident_add K sx r 0 mode func_def).1
      = sx.reprtab (r + 1) ∧
    (sx.reprtab (r + 1) ≠ 0 →
      (ident_add K sx r 0 mode func_def).2.reprtab (r + 1)
        = ((ident_add K sx r 0 mode func_def).1 : Int)) ∧
    (sx.reprtab (r + 1) = 0 → (ident_add K sx r 0 mode func_def).2.reprtab (r + 1) = 0) := by
  have hadd : ident_add K sx r 0 mode func_def
      = (sx.id, ident_fill K (ident_link { sx with id := addSize sx.id 4 } sx.id r) sx.id r
          0 mode func_def) := by
    obtain ⟨s1, s2⟩ := hsucc
    revert s1 s2
    unfold ident_add
    dsimp only
    split_ifs
    · intro s1 _; exact absurd rfl s1
    · intro _ s2; exact absurd rfl s2
    · intro _ _; rfl
  have hid4 : addSize sx.id 4 = sx.id + 4 := addSize_of_lt _ _ (by omega)
  have hlid : (ident_link { sx with id := addSize sx.id 4 } sx.id r).id = sx.id + 4 := by
    rw [(ident_link_frame _ _ _).1]; exact hid4
  obtain ⟨v1, v2, v3⟩ := ident_fill_variable K
    (ident_link { sx with id := addSize sx.id 4 } sx.id r) sx.id r mode func_def
    (by rw [hlid]; omega)
  have hfid : (ident_fill K (ident_link { sx with id := addSize sx.id 4 } sx.id r) sx.id r
      0 mode func_def).id = sx.id + 4 := by
    rw [(ident_fill_frame K _ _ _ _ _ _).1]; exact hlid
  have hgd : ¬ (sx.id ≥ (ident_fill K (ident_link { sx with id := addSize sx.id 4 } sx.id r)
      sx.id r 0 mode func_def).id) := by
    rw [hfid]; omega
  obtain ⟨_, _, _, _, ldispl, llg⟩ := ident_link_frame { sx with id := addSize sx.id 4 } sx.id r
  obtain ⟨_, lmodetab, lmd, _⟩ := ident_link_more { sx with id := addSize sx.id 4 } sx.id r
  have hs : size_of K (ident_link { sx with id := addSize sx.id 4 } sx.id r) mode
      = size_of K sx mode := size_of_congr K _ _ mode lmd lmodetab
  have hrt : (ident_fill K (ident_link { sx with id := addSize sx.id 4 } sx.id r) sx.id r
      0 mode func_def).reprtab
      = if toSize (sx.reprtab (r + 1)) ≠ 0 ∧ r < sx.rp
        then tset sx.reprtab (r + 1) (toInt sx.id) else sx.reprtab := by
    rw [(ident_fill_frame K _ _ _ _ _ _).2.2.2.2.2, ident_link_reprtab]
  rw [hadd]
  dsimp only
  refine ⟨rfl, ?_, ?_, ?_, ?_, ?_, ?_⟩
  · unfold ident_get_mode
    rw [if_neg hgd]
    exact v1
  · unfold ident_get_displ
    rw [if_neg hgd, v2]
    exact ldispl
  · rw [v3, ldispl, llg, hs]
  · rw [ident_fill_identab K _ _ _ _ _ _ sx.id (by omega), ident_link_identab]
    exact tset_eq _ _ _
  · intro hne
    have hts : toSize (sx.reprtab (r + 1)) ≠ 0 := by unfold toSize; omega
    rw [hrt, if_pos ⟨hts, hr⟩, tset_eq, toInt_of_lt _ (by omega)]
  · intro h0
    have hts : toSize (sx.reprtab (r + 1)) = 0 := by rw [h0]; decide
    rw [hrt, if_neg (fun h => h.1 hts)]
    exact h0

/-- Witness for C14: the representation 1 of `ex_interned`, unbound, declared as
a variable of the mode `LFLOAT` in program scope. -/
theorem ident_add_variable_witness :
    (ident_add sampleDefs ex_interned 1 0 (-3) 0).1 = ex_interned.id ∧
    (ident_add sampleDefs ex_interned 1 0 (-3) 0).2.displ
      = ex_interned.displ + ex_interned.lg * size_of sampleDefs ex_interned (-3) :=
  ⟨(ident_add_variable sampleDefs ex_interned 1 (-3) 0 (by decide) (by decide) (by decide)
      (by decide)).1,
   (ident_add_variable sampleDefs ex_interned 1 (-3) 0 (by decide) (by decide) (by decide)
      (by decide)).2.2.2.1⟩

/-! ## Function scopes and nested scopes -/

theorem ident_adds_more (K : Defs) (sx : Sx) (calls : List IdentCall) :
    (ident_adds K sx calls).tree = sx.tree ∧ (ident_adds K sx calls).modetab = sx.modetab ∧
    (ident_adds K sx calls).md = sx.md ∧ (ident_adds K sx calls).lg = sx.lg := by
  induction calls using List.reverseRecOn with
  | nil => exact ⟨rfl, rfl, rfl, rfl⟩
  | append_singleton calls c ih =>
    obtain ⟨i1, i2, i3, i4⟩ := ih
    obtain ⟨f1, f2, f3, f4⟩ :=
      ident_add_more K (ident_adds K sx calls) c.repr c.type c.mode c.func_def
    rw [ident_adds_snoc, f1, f2, f3, f4]
    exact ⟨i1, i2, i3, i4⟩

/-- C18, at a failing input: in `ex_two` the representation 5 is unbound (slot
1).  A block scope A is entered and 5 is declared as a variable (handle 6); a
block scope B is entered and the representation 1 is declared (handle 10); B is
left, then A is left, both exits returning 0.  The slot of 5 is then still 6,
the record made in A, not 1.  The same happens when A is a function scope. -/
theorem nested_exit_keeps_outer_binding :
    ex_two.reprtab (5 + 1) = 1 ∧
    (ident_add sampleDefs (enter_block_scope ex_two).2 5 0 (-1) 0).1 = 6 ∧
    (ident_add sampleDefs (enter_block_scope ex_outer).2 1 0 (-1) 0).1 = 10 ∧
    ((exit_block_scope 4 ex_inner (enter_block_scope ex_outer).1.1
        (enter_block_scope ex_outer).1.2).bind
      (fun rB => exit_block_scope 4 rB.2 (enter_block_scope ex_two).1.1
        (enter_block_scope ex_two).1.2)).map (fun rA => (rA.1, rA.2.reprtab (5 + 1)))
      = some (0, 6) ∧
    ((exit_block_scope 4 ex_inner_func (enter_block_scope ex_outer_func).1.1
        (enter_block_scope ex_outer_func).1.2).bind
      (fun rB => exit_func_scope 4 rB.2 0 (enter_func_scope { ex_two with tc := 1 }).1)).map
        (fun rA => (rA.1, rA.2.reprtab (5 + 1)))
      = some (0, 6) := by
  decide

/-! ## The global high-water mark -/

theorem getstatic_global (K : Defs) (sx : Sx) (m : Int) (hlg : sx.lg = -1) :
    (getstatic K sx m).2.displ = sx.displ - size_of K sx m ∧
    (getstatic K sx m).2.maxdisplg = -(sx.displ - size_of K sx m) := by
  have hn : ¬ (sx.lg > 0) := by omega
  unfold getstatic
  dsimp only
  rw [if_neg hn]
  dsimp only
  rw [hlg]
  constructor <;> ring

/-- The variable branch of `ident_add` in program scope. -/
theorem ident_fill_variable_global (K : Defs) (sx : Sx) (l r : Nat) (mode fd : Int)
    (hlg : sx.lg = -1) :
    (ident_fill K sx l r 0 mode fd).displ = sx.displ - size_of K sx mode ∧
    (ident_fill K sx l r 0 mode fd).maxdisplg = -(sx.displ - size_of K sx mode) := by
  have a1 : ¬ ((0 : Int) = 1) := by omega
  have a2 : ¬ ((0 : Int) ≥ 1000) := by omega
  have e : ident_fill K sx l r 0 mode fd
      = (ident_set_displ
          (getstatic K (ident_set_mode { sx with identab := tset sx.identab (l + 1) (toInt r) }
            l mode).2 mode).2 l
          (getstatic K (ident_set_mode { sx with identab := tset sx.identab (l + 1) (toInt r) }
            l mode).2 mode).1).2 := by
    unfold ident_fill
    simp only [a1, a2, if_false, ne_eq, not_true_eq_false]
  obtain ⟨_, _, _, _, _, _, fd1, fl1, _⟩ :=
    ident_set_mode_frame { sx with identab := tset sx.identab (l + 1) (toInt r) } l mode
  obtain ⟨_, _, fm1, fmd1, _⟩ :=
    ident_set_mode_more { sx with identab := tset sx.identab (l + 1) (toInt r) } l mode
  have hs : size_of K (ident_set_mode { sx with identab := tset sx.identab (l + 1) (toInt r) }
      l mode).2 mode = size_of K sx mode := size_of_congr K _ _ mode fmd1 fm1
  obtain ⟨g1, g2⟩ := getstatic_global K
    (ident_set_mode { sx with identab := tset sx.identab (l + 1) (toInt r) } l mode).2 mode
    (by rw [fl1]; exact hlg)
  rw [e, (ident_set_displ_frame _ _ _).2.2.2.2.2.2.1, (ident_set_displ_more _ _ _).2.2.2.2.2,
    g1, g2, hs, fd1]
  exact ⟨rfl, rfl⟩

/-- One variable declaration in program scope: `maxdisplg` is `-displ` again
afterwards, and `displ` moves down by the size of the mode or stays. -/
theorem ident_add_variable_global (K : Defs) (sx : Sx) (r : Nat) (mode fd : Int)
    (hlg : sx.lg = -1) (hmax : sx.maxdisplg = -sx.displ) :
    (ident_add K sx r 0 mode fd).2.lg = -1 ∧
    (ident_add K sx r 0 mode fd).2.maxdisplg = -(ident_add K sx r 0 mode fd).2.displ ∧
    ((ident_add K sx r 0 mode fd).2.displ = sx.displ ∨
      (ident_add K sx r 0 mode fd).2.displ = sx.displ - size_of K sx mode) := by
  obtain ⟨_, _, _, _, ldispl, llg⟩ := ident_link_frame { sx with id := addSize sx.id 4 } sx.id r
  obtain ⟨_, lmodetab, lmd, _, lmaxg⟩ := ident_link_more { sx with id := addSize sx.id 4 } sx.id r
  have hs : size_of K (ident_link { sx with id := addSize sx.id 4 } sx.id r) mode
      = size_of K sx mode := size_of_congr K _ _ mode lmd lmodetab
  obtain ⟨v1, v2⟩ := ident_fill_variable_global K
    (ident_link { sx with id := addSize sx.id 4 } sx.id r) sx.id r mode fd (by rw [llg]; exact hlg)
  refine ⟨by rw [(ident_add_more K sx r 0 mode fd).2.2.2]; exact hlg, ?_, ?_⟩
  · unfold ident_add
    dsimp only
    split_ifs
    · exact hmax
    · rw [lmaxg, ldispl]; exact hmax
    · rw [v1, v2]
  · unfold ident_add
    dsimp only
    split_ifs
    · left; rfl
    · left; exact ldispl
    · right; rw [v1, hs, ldispl]

/-- Without a scope exit in between, `maxdisplg` is the largest `-displ` reached:
across variable declarations in program scope whose modes have a non-negative
size, `maxdisplg` stays equal to `-displ`, and `displ` never goes up. -/
theorem maxdisplg_tracks_displ (K : Defs) (sx : Sx) (calls : List IdentCall)
    (hlg : sx.lg = -1) (hmax : sx.maxdisplg = -sx.displ)
    (hcalls : ∀ c ∈ calls, c.type = 0 ∧ 0 ≤ size_of K sx c.mode) :
    (ident_adds K sx calls).lg = -1 ∧
    (ident_adds K sx calls).maxdisplg = -(ident_adds K sx calls).displ ∧
    (ident_adds K sx calls).displ ≤ sx.displ ∧
    sx.maxdisplg ≤ (ident_adds K sx calls).maxdisplg := by
  induction calls using List.reverseRecOn with
  | nil => exact ⟨hlg, hmax, le_refl _, le_refl _⟩
  | append_singleton calls c ih =>
    obtain ⟨i1, i2, i3, i4⟩ := ih (fun d hd => hcalls d (List.mem_append_left _ hd))
    obtain ⟨ht, hsz⟩ := hcalls c (by simp)
    obtain ⟨_, mtab, mmd, _⟩ := ident_adds_more K sx calls
    have hs : size_of K (ident_adds K sx calls) c.mode = size_of K sx c.mode :=
      size_of_congr K _ _ c.mode mmd mtab
    obtain ⟨k1, k2, k3⟩ :=
      ident_add_variable_global K (ident_adds K sx calls) c.repr c.mode c.func_def i1 i2
    rw [ident_adds_snoc, ht]
    refine ⟨k1, k2, ?_, ?_⟩
    · rcases k3 with k3 | k3
      · rw [k3]; exact i3
      · rw [k3, hs]; omega
    · rw [k2]
      rcases k3 with k3 | k3
      · rw [k3]; omega
      · rw [k3, hs]; omega

/-- C20, at a failing input: `ex_two` is in program scope (`lg = -1`,
`displ = -4`, `maxdisplg = 4`).  A block scope is entered and two variables are
declared, which brings `displ` to -6 and `maxdisplg` to 6; the block is left,
which puts `displ` back to -4; the next variable declared (handle 14) brings
`displ` to -5 and `maxdisplg` down to 5, below the 6 reached before. -/
theorem maxdisplg_decreases :
    (ex_two.lg, ex_two.displ, ex_two.maxdisplg) = (-1, -4, 4) ∧
    (ex_global_block.lg, ex_global_block.displ, ex_global_block.maxdisplg) = (-1, -6, 6) ∧
    (exit_block_scope 4 ex_global_block (enter_block_scope ex_two).1.1
        (enter_block_scope ex_two).1.2).map
      (fun r => (r.1, r.2.lg, r.2.displ, r.2.maxdisplg)) = some (0, -1, -4, 6) ∧
    (exit_block_scope 4 ex_global_block (enter_block_scope ex_two).1.1
        (enter_block_scope ex_two).1.2).map
      (fun r => ((ident_add sampleDefs r.2 5 0 (-1) 0).1,
        (ident_add sampleDefs r.2 5 0 (-1) 0).2.displ,
        (ident_add sampleDefs r.2 5 0 (-1) 0).2.maxdisplg)) = some (14, -5, 5) := by
  decide

/-! ## Reading a spelling back -/

/-- C21, at a failing input: `repr_add` of the spelling `ab` right after `sx_init`
returns the handle 1.  `repr_get_spelling(1, buf)` on a buffer filled with the
code point 88 returns 0 and leaves `buf[0]` and `buf[1]` as they were, puts `a`
and `b` in `buf[2]` and `buf[3]`, and writes no terminator after them. -/
theorem repr_get_spelling_offset :
    (repr_add 4 ex_init [97, 98]).map (fun r => r.1) = some 1 ∧
    (repr_get_spelling 4 ex_ab 1 (fun _ => 88)).map
      (fun r => (r.1, [r.2 0, r.2 1, r.2 2, r.2 3, r.2 4])) = some (0, [88, 88, 97, 98, 88]) := by
  decide

/-! ## The first mode record -/

/-- C22, at a failing input: right after `sx_init` (`md = startmode = 1`),
`mode_add` of the descriptor of a function with one parameter returns the handle
2 but leaves `md = 1` and `startmode = 1`, and `mode_get` at the handle returns
`INT_MAX`; a second `mode_add`, of the descriptor of a different mode, returns the
handle 2 as well and overwrites the cell at 2. -/
theorem mode_add_first_finds_itself :
    (ex_init.md, ex_init.startmode) = (1, 1) ∧
    (mode_add sampleDefs 2 ex_init [1001, -1, 1, -1]).map
      (fun r => (r.1, r.2.md, r.2.startmode, mode_get r.2 r.1)) = some (2, 1, 1, INT_MAX) ∧
    ((mode_add sampleDefs 2 ex_init [1001, -1, 1, -1]).bind
      (fun r => mode_add sampleDefs 2 r.2 [1004, -1])).map
      (fun r => (r.1, r.2.md, r.2.modetab 2)) = some (2, 1, 1004) := by
  decide

/-! ## The macro storage -/

/-- Whatever the callees are, `storage_add_arg` returns 0 when
`storage_add_arg_by_index` reports success, and `SIZE_MAX` when it reports
failure: the index found by `storage_get_index` is not returned. -/
theorem storage_add_arg_status {Stg Id Arg : Type} (gi : Stg → Id → Nat × Stg)
    (ab : Stg → Nat → Nat → Arg → Int × Stg) (stg : Stg) (id : Id) (index : Nat) (arg : Arg) :
    ((ab (gi stg id).2 (gi stg id).1 index arg).1 = 0 →
      (storage_add_arg gi ab stg id index arg).1 = 0) ∧
    ((ab (gi stg id).2 (gi stg id).1 index arg).1 = -1 →
      (storage_add_arg gi ab stg id index arg).1 = SIZE_MAX) := by
  unfold storage_add_arg
  dsimp only
  constructor
  · intro h; rw [h]; decide
  · intro h; rw [h]; decide

/-- C23, at a failing input: in the sample storage the macro `B` is the record
with index 1.  Adding its first argument succeeds (the argument is stored), and
`storage_add_arg` returns 0, not the index 1; for a name that is not in the
storage it returns `SIZE_MAX`. -/
theorem storage_add_arg_returns_zero :
    (sample_get_index ex_storage [66]).1 = 1 ∧
    storage_add_arg sample_get_index sample_add_arg_by_index ex_storage [66] 0 [120]
      = (0, [([65], []), ([66], [[120]])]) ∧
    (storage_add_arg sample_get_index sample_add_arg_by_index ex_storage [67] 0 [120]).1
      = SIZE_MAX := by
  decide

/-! ## The bounds of the restore loop -/

/-- C29, at a failing input: right after `sx_init` (`curid = id = 2`) a block
scope is entered and left at once.  The counter of the restore loop starts at
`2 - 4`, which is `2 ^ 64 - 2` for a `size_t` and lies outside `[curid, id)`, and
the loop never ends: `exit_block_scope` returns for no amount of fuel, and
neither does `exit_func_scope` after `enter_func_scope`. -/
theorem restore_loop_never_ends (fuel : Nat) :
    (ex_init.curid, ex_init.id) = (2, 2) ∧
    subSize (enter_block_scope ex_init).2.id 4 = 18446744073709551614 ∧
    exit_block_scope fuel (enter_block_scope ex_init).2 (enter_block_scope ex_init).1.1
      (enter_block_scope ex_init).1.2 = none ∧
    exit_func_scope fuel (enter_func_scope { ex_init with tc := 1 }).2 0
      (enter_func_scope { ex_init with tc := 1 }).1 = none := by
  refine ⟨by decide, by decide, ?_, ?_⟩
  · exact exit_block_scope_wraps fuel _ _ _ rfl (by decide)
  · have hg : ¬ (toInt 0 ≥ (enter_func_scope { ex_init with tc := 1 }).2.tc) := by decide
    have hc : (enter_func_scope { ex_init with tc := 1 }).2.curid = 2 := rfl
    unfold exit_func_scope
    rw [if_neg hg, hc, restore_loop_wraps _ fuel _ _ (by decide)]

/-! ## A failing declaration -/

/-- C30, counterexample: in `ex_variable` (`id = 6`) the representation 1 is bound
to the record at 2 in the current scope.  Declaring it again returns
`SIZE_MAX - 1`; afterwards `id` is 10, the slot of the representation is 6 and
`identab[6]` holds 2. -/
theorem ident_add_collision_writes :
    (ex_variable.id, ex_variable.reprtab (1 + 1), ex_variable.identab 6) = (6, 2, 0) ∧
    (ident_add sampleDefs ex_variable 1 0 (-1) 0).1 = SIZE_MAX - 1 ∧
    ((ident_add sampleDefs ex_variable 1 0 (-1) 0).2.id,
      (ident_add sampleDefs ex_variable 1 0 (-1) 0).2.reprtab (1 + 1),
      (ident_add sampleDefs ex_variable 1 0 (-1) 0).2.identab 6) = (10, 6, 2) := by
  decide

/-- C30, amended: whenever `ident_add` returns a sentinel, `id` has advanced by 4.
When the sentinel is `SIZE_MAX` (a second `main`), the representation table and
the symbol table are as before the call.  When it is `SIZE_MAX - 1` (a
collision), `identab[old id]` holds the previous binding of the representation,
no other cell of `identab` has changed, the current-binding slot of the
representation points to the old `id`, and no other cell of `reprtab` has
changed.  The cursor `id` is below `2 ^ 31`, the representation lies below `rp`
and `1 <= curid`. -/
theorem ident_add_failure_effect (K : Defs) (sx : Sx) (r : Nat) (type mode func_def : Int)
    (hid : sx.id + 4 < 2147483648) (hr : r < sx.rp) (hcur : 1 ≤ sx.curid) :
    ((ident_add K sx r type mode func_def).1 = SIZE_MAX →
      (ident_add K sx r type mode func_def).2.id = sx.id + 4 ∧
      (ident_add K sx r type mode func_def).2.reprtab = sx.reprtab ∧
      (ident_add K sx r type mode func_def).2.identab = sx.identab) ∧
    ((ident_add K sx r type mode func_def).1 = SIZE_MAX - 1 →
      (ident_add K sx r type mode func_def).2.id = sx.id + 4 ∧
      (ident_add K sx r type mode func_def).2.identab = tset sx.identab sx.id (sx.reprtab (r + 1)) ∧
      (ident_add K sx r type mode func_def).2.reprtab = tset sx.reprtab (r + 1) (sx.id : Int)) := by
  have hid4 : addSize sx.id 4 = sx.id + 4 := addSize_of_lt _ _ (by omega)
  have hne1 : sx.id ≠ SIZE_MAX := by unfold SIZE_MAX; omega
  have hne2 : sx.id ≠ SIZE_MAX - 1 := by unfold SIZE_MAX; omega
  have hne3 : SIZE_MAX - 1 ≠ SIZE_MAX := by decide
  have hidf := (ident_add_frame K sx r type mode func_def).1
  rw [hid4] at hidf
  constructor
  · intro h
    refine ⟨hidf, ?_⟩
    revert h
    unfold ident_add
    dsimp only
    split_ifs
    · intro _; exact ⟨rfl, rfl⟩
    · intro h; exact absurd h hne3
    · intro h; exact absurd h hne1
  · intro h
    refine ⟨hidf, ?_⟩
    revert h
    unfold ident_add
    dsimp only
    split_ifs with h1 h2
    · intro h; exact absurd h.symm hne3
    · intro _
      have hpred := h2.2.1
      rw [ident_link_identab, tset_eq, ident_link_curid] at hpred
      have hts : toSize (sx.reprtab (r + 1)) ≠ 0 := by
        have : 1 ≤ toSize (sx.reprtab (r + 1)) := le_trans hcur hpred
        omega
      refine ⟨?_, ?_⟩
      · rw [ident_link_identab]
      · rw [ident_link_reprtab, if_pos ⟨hts, hr⟩, toInt_of_lt _ (by omega)]
    · intro h; exact absurd h hne2

/-- Witness for C30: the representation 1 of `ex_variable` declared again. -/
theorem ident_add_failure_effect_witness :
    (ident_add sampleDefs ex_variable 1 0 (-1) 0).2.id = ex_variable.id + 4 ∧
    (ident_add sampleDefs ex_variable 1 0 (-1) 0).2.reprtab
      = tset ex_variable.reprtab (1 + 1) (ex_variable.id : Int) :=
  ⟨((ident_add_failure_effect sampleDefs ex_variable 1 0 (-1) 0 (by decide) (by decide)
      (by decide)).2 (by decide)).1,
   ((ident_add_failure_effect sampleDefs ex_variable 1 0 (-1) 0 (by decide) (by decide)
      (by decide)).2 (by decide)).2.2⟩

/-! ## What `mode_is_equal` compares -/

/-- C24, counterexample: `ex_struct_pair` holds two structure records laid out
as the claim has it, tag, size in cells, number of fields `n = 1`, then the mode
and the name of the field; they differ in the name of the field (5 and 9), and
`mode_is_equal` returns 1 for them.  Likewise `mode_add` of the second descriptor
after the first returns the handle of the first. -/
theorem mode_is_equal_ignores_names :
    (ex_struct_pair.modetab (2 + 4), ex_struct_pair.modetab (8 + 4)) = (5, 9) ∧
    mode_is_equal sampleDefs ex_struct_pair 2 8 = some true ∧
    ((mode_add sampleDefs 2 ex_mode_empty [1002, 1, 1, -1, 5]).bind
      (fun r => (mode_add sampleDefs 2 r.2 [1002, 1, 1, -1, 9]).map
        (fun r2 => (r.1, r2.1)))) = some (2, 2) := by
  decide

/-- C24, amended: `mode_is_equal(a, b)` returns 1 exactly when the two records
have the same tag and the same compared cells, and 0 otherwise.  For a structure
or a function the compared cells are the cells 1 to `2 + c` of the record, where
`c` is the count in cell 2: the return mode, the parameter count and the `c`
parameter modes of a function; the size in cells, the count and the `c` cells
that follow it for a structure, so the count of a structure is the number of
cells after it and not the number of fields.  For every other tag the one cell
after the tag is compared.  The count is a non-negative `int`. -/
theorem mode_is_equal_compares (K : Defs) (sx : Sx) (a b : Nat)
    (hc : CountOK K sx.modetab a) :
    (mode_is_equal K sx a b = some true ∨ mode_is_equal K sx a b = some false) ∧
    ((sx.modetab a = K.MSTRUCT ∨ sx.modetab a = K.MFUNCTION) →
      (mode_is_equal K sx a b = some true ↔
        (sx.modetab a = sx.modetab b ∧
          ∀ i : Nat, 1 ≤ i → (i : Int) ≤ 2 + sx.modetab (a + 2) →
            sx.modetab (a + i) = sx.modetab (b + i)))) ∧
    (¬ (sx.modetab a = K.MSTRUCT ∨ sx.modetab a = K.MFUNCTION) →
      (mode_is_equal K sx a b = some true ↔
        (sx.modetab a = sx.modetab b ∧ sx.modetab (a + 1) = sx.modetab (b + 1)))) := by
  have hiff : mode_is_equal K sx a b = some true ↔ ModeEq K sx.modetab a b := by
    constructor
    · intro h
      by_contra hn
      rw [mode_is_equal_false K sx a b hn] at h
      exact absurd h (by simp)
    · intro h
      apply mode_is_equal_true K sx a b _ h
      by_cases htag : sx.modetab a = K.MSTRUCT ∨ sx.modetab a = K.MFUNCTION
      · have h1 := (mode_length_count K sx.modetab a hc htag).1
        have h2 := (hc htag).2
        unfold SIZE_MAX
        omega
      · rw [mode_length_plain K sx.modetab a htag]
        decide
  refine ⟨?_, ?_, ?_⟩
  · by_cases h : ModeEq K sx.modetab a b
    · exact Or.inl (hiff.2 h)
    · exact Or.inr (mode_is_equal_false K sx a b h)
  · intro htag
    have h1 := (mode_length_count K sx.modetab a hc htag).1
    rw [hiff]
    unfold ModeEq
    constructor
    · rintro ⟨e, hall⟩
      refine ⟨e, fun i hi1 hi2 => ?_⟩
      obtain ⟨k, rfl⟩ : ∃ k, i = k + 1 := ⟨i - 1, by omega⟩
      exact hall k (by omega)
    · rintro ⟨e, hall⟩
      exact ⟨e, fun k hk => hall (k + 1) (by omega) (by omega)⟩
  · intro htag
    rw [hiff]
    unfold ModeEq
    rw [mode_length_plain K sx.modetab a htag]
    constructor
    · rintro ⟨e, hall⟩
      exact ⟨e, hall 0 (by omega)⟩
    · rintro ⟨e, h1⟩
      refine ⟨e, fun k hk => ?_⟩
      obtain rfl : k = 0 := by omega
      exact h1

/-- Witness for C24: in `ex_struct_pair` the two structure records agree on the
cells 1 to 3. -/
theorem mode_is_equal_compares_witness :
    mode_is_equal sampleDefs ex_struct_pair 2 8 = some true ↔
      (ex_struct_pair.modetab 2 = ex_struct_pair.modetab 8 ∧
        ∀ i : Nat, 1 ≤ i → (i : Int) ≤ 2 + ex_struct_pair.modetab (2 + 2) →
          ex_struct_pair.modetab (2 + i) = ex_struct_pair.modetab (8 + i)) :=
  (mode_is_equal_compares sampleDefs ex_struct_pair 2 8
    (by unfold CountOK; decide)).2.1 (by decide)

/-! ## Seeding and bucket linking of a new representation -/

theorem repr_write_hash_eq (sp : List Nat) (hnz : ∀ c ∈ sp, c ≠ 0) :
    ∀ (t : Table) (rp hash : Nat), hash < 256 →
      (repr_write sp t rp hash).2.2 = (hash + (sp.map (fun c => c % 256)).sum) % 256 := by
  induction sp with
  | nil => intro t rp hash hh; simp only [repr_write, List.map_nil, List.sum_nil]; omega
  | cons c cs ih =>
    intro t rp hash hh
    have hc : c ≠ 0 := hnz c (List.mem_cons_self _ _)
    simp only [repr_write, if_neg hc, List.map_cons, List.sum_cons]
    rw [ih (fun x hx => hnz x (List.mem_cons_of_mem _ hx)) _ _ _ (by omega)]
    omega

/-- The hash that `repr_add` computes is the sum of the low bytes modulo 256. -/
theorem repr_hash_eq (sx : Sx) (sp : List Nat) (hnz : ∀ c ∈ sp, c ≠ 0) :
    repr_hash sx sp = spelling_hash sp := by
  unfold repr_hash spelling_hash
  rw [repr_write_hash_eq sp hnz _ _ 0 (by omega)]
  simp

/-- C25, counterexample: right after `sx_init`, with `keywordsnum = 1`, `repr_add`
of the spelling `main` creates the record with handle 1, whose current-binding
slot is 0 and not a negative value; `keywordsnum` becomes 2. -/
theorem repr_add_seeds_zero :
    (repr_add 4 { ex_init with keywordsnum := 1 } [109, 97, 105, 110]).map
      (fun r => (r.1, r.2.rp, r.2.reprtab (r.1 + 1), r.2.keywordsnum)) = some (1, 8, 0, 2) := by
  decide

/-- C25, amended: whenever `repr_add` creates a new record (`rp` has grown), the
handle is the old `rp` and the current-binding slot is 1 if `keywordsnum` is 0
(and `keywordsnum` stays 0); if `keywordsnum` is non-zero the slot is the keyword
class `-((keywordsnum - 1) / 4)`, with the division of C, and `keywordsnum` is
incremented by one: the class is 0, that of `main`, for `keywordsnum` from 1 to 4,
and negative from 5 on.  On a hit (`rp` is as before) `keywordsnum` does not
change, nor does the slot of the record found, which lies below `rp`. -/
theorem repr_add_seed (fuel : Nat) (sx : Sx) (sp : List Nat) (h : Nat) (s2 : Sx)
    (hres : repr_add fuel sx sp = some (h, s2)) :
    (s2.rp ≠ sx.rp → h = sx.rp ∧
      (sx.keywordsnum = 0 → s2.reprtab (h + 1) = 1 ∧ s2.keywordsnum = 0) ∧
      (sx.keywordsnum ≠ 0 → s2.reprtab (h + 1) = -(Int.tdiv (sx.keywordsnum - 1) 4) ∧
        s2.keywordsnum = sx.keywordsnum + 1) ∧
      (1 ≤ sx.keywordsnum → sx.keywordsnum ≤ 4 → s2.reprtab (h + 1) = 0) ∧
      (5 ≤ sx.keywordsnum → s2.reprtab (h + 1) < 0)) ∧
    (s2.rp = sx.rp → s2.keywordsnum = sx.keywordsnum ∧
      (h < sx.rp → s2.reprtab (h + 1) = sx.reprtab (h + 1))) := by
  have hw := repr_write_below sp sx.reprtab (sx.rp + 2) 0
  have hcur := repr_write_cursor sp sx.reprtab (sx.rp + 2) 0
  have hrp : sx.rp + 2 < (repr_written sx sp).rp := hcur
  have hkw : (repr_written sx sp).keywordsnum = sx.keywordsnum := rfl
  rw [repr_add_eq] at hres
  split at hres
  · exact absurd hres (by simp)
  · simp only [Option.some.injEq, Prod.mk.injEq] at hres
    obtain ⟨rfl, rfl⟩ := hres
    refine ⟨fun hne => absurd rfl hne, fun _ => ⟨rfl, fun hlt => ?_⟩⟩
    exact hw _ (by omega)
  · rw [hkw] at hres
    by_cases hk : sx.keywordsnum = 0
    · rw [if_neg (by simp [hk])] at hres
      simp only [Option.some.injEq, Prod.mk.injEq] at hres
      obtain ⟨rfl, rfl⟩ := hres
      have hslot : (tset (tset (repr_written sx sp).reprtab sx.rp
          (toInt ((repr_written sx sp).hashtab (repr_hash sx sp)))) (sx.rp + 1) 1) (sx.rp + 1)
          = 1 := tset_eq _ _ _
      refine ⟨fun _ => ⟨rfl, fun _ => ⟨hslot, hk⟩, fun hn => absurd hk hn, ?_, ?_⟩, ?_⟩
      · intro h1 _; omega
      · intro h5; omega
      · intro he
        exfalso
        have : (repr_written sx sp).rp = sx.rp := he
        omega
    · rw [if_pos hk] at hres
      simp only [Option.some.injEq, Prod.mk.injEq] at hres
      obtain ⟨rfl, rfl⟩ := hres
      have he : sx.keywordsnum + 1 - 2 = sx.keywordsnum - 1 := by omega
      refine ⟨fun _ => ⟨rfl, fun h0 => absurd h0 hk, fun _ => ⟨?_, rfl⟩, ?_, ?_⟩, ?_⟩
      · show (tset _ _ _) (sx.rp + 1) = _
        rw [tset_eq, he]
      · intro h1 h4
        show (tset _ _ _) (sx.rp + 1) = 0
        rw [tset_eq, he, Int.tdiv_eq_zero_of_lt (by omega) (by omega)]
        rfl
      · intro h5
        show (tset _ _ _) (sx.rp + 1) < 0
        rw [tset_eq, he, Int.tdiv_eq_ediv (by omega) (by omega)]
        omega
      · intro he2
        exfalso
        have : (repr_written sx sp).rp = sx.rp := he2
        omega

/-- Witness for C25: the spelling `f` interned right after `sx_init`, with
`keywordsnum = 0`. -/
theorem repr_add_seed_witness :
    ex_interned.reprtab (1 + 1) = 1 ∧ ex_interned.keywordsnum = 0 :=
  ((repr_add_seed 4 ex_init [102] 1 ex_interned rfl).1 (by decide)).2.1 (by decide)

/-- C26: on a miss (`repr_add` commits a record, so `rp` has grown) the new
record has the old `rp` as its handle and is the head of the bucket
`(sum of c mod 256 over the code points c of the spelling) mod 256`: `sx->hash` is
that bucket, `hashtab` at the bucket is the new handle, cell 0 of the new record
holds the previous head of the bucket, and no other bucket changes.  The previous
head fits an `int`. -/
theorem repr_add_links_bucket (fuel : Nat) (sx : Sx) (sp : List Nat) (h : Nat) (s2 : Sx)
    (hsp : ∀ c ∈ sp, c ≠ 0) (hhead : sx.hashtab (spelling_hash sp) < 2147483648)
    (hres : repr_add fuel sx sp = some (h, s2)) (hmiss : s2.rp ≠ sx.rp) :
    h = sx.rp ∧ s2.hash = (spelling_hash sp : Int) ∧ s2.hashtab (spelling_hash sp) = h ∧
    s2.reprtab h = (sx.hashtab (spelling_hash sp) : Int) ∧
    ∀ b, b ≠ spelling_hash sp → s2.hashtab b = sx.hashtab b := by
  have hh := repr_hash_eq sx sp hsp
  have hht : (repr_written sx sp).hashtab = sx.hashtab := rfl
  have hhash : (repr_written sx sp).hash = (repr_hash sx sp : Int) := rfl
  rw [repr_add_eq] at hres
  split at hres
  · exact absurd hres (by simp)
  · simp only [Option.some.injEq, Prod.mk.injEq] at hres
    obtain ⟨_, rfl⟩ := hres
    exact absurd rfl hmiss
  · rw [hht, hh] at hres
    split_ifs at hres <;>
    · simp only [Option.some.injEq, Prod.mk.injEq] at hres
      obtain ⟨rfl, rfl⟩ := hres
      refine ⟨rfl, ?_, ?_, ?_, ?_⟩
      · show (repr_written sx sp).hash = _
        rw [hhash, hh]
      · show (if spelling_hash sp = spelling_hash sp then sx.rp else _) = sx.rp
        rw [if_pos rfl]
      · show (tset (tset _ sx.rp _) (sx.rp + 1) _) sx.rp = _
        rw [tset_ne _ _ _ _ (by omega), tset_eq, toInt_of_lt _ hhead]
      · intro b hb
        show (if b = spelling_hash sp then sx.rp else sx.hashtab b) = _
        rw [if_neg hb]

/-- Witness for C26: the spelling `g` interned in `ex_variable`, where bucket 103
is empty. -/
theorem repr_add_links_bucket_witness :
    ex_two.hash = (spelling_hash [103] : Int) ∧ ex_two.hashtab (spelling_hash [103]) = 5 :=
  ⟨(repr_add_links_bucket 4 ex_variable [103] 5 ex_two (by decide) (by decide) rfl
      (by decide)).2.1,
   (repr_add_links_bucket 4 ex_variable [103] 5 ex_two (by decide) (by decide) rfl
      (by decide)).2.2.1⟩

/-! ## The frame high-water mark -/

theorem getstatic_local (K : Defs) (sx : Sx) (m : Int) (hlg : sx.lg = 1) :
    (getstatic K sx m).2.displ = sx.displ + size_of K sx m ∧
    (getstatic K sx m).2.maxdispl = max sx.maxdispl (sx.displ + size_of K sx m) := by
  have hp : sx.lg > 0 := by omega
  unfold getstatic
  dsimp only
  rw [if_pos hp]
  dsimp only
  rw [hlg]
  refine ⟨by ring, ?_⟩
  split_ifs with h
  · have e : 1 * size_of K sx m = size_of K sx m := by ring
    rw [e] at h ⊢
    omega
  · have e : 1 * size_of K sx m = size_of K sx m := by ring
    rw [e] at h
    omega

/-- The variable branch of `ident_add` inside a function. -/
theorem ident_fill_variable_local (K : Defs) (sx : Sx) (l r : Nat) (mode fd : Int)
    (hlg : sx.lg = 1) :
    (ident_fill K sx l r 0 mode fd).displ = sx.displ + size_of K sx mode ∧
    (ident_fill K sx l r 0 mode fd).maxdispl
      = max sx.maxdispl (sx.displ + size_of K sx mode) := by
  have a1 : ¬ ((0 : Int) = 1) := by omega
  have a2 : ¬ ((0 : Int) ≥ 1000) := by omega
  have e : ident_fill K sx l r 0 mode fd
      = (ident_set_displ
          (getstatic K (ident_set_mode { sx with identab := tset sx.identab (l + 1) (toInt r) }
            l mode).2 mode).2 l
          (getstatic K (ident_set_mode { sx with identab := tset sx.identab (l + 1) (toInt r) }
            l mode).2 mode).1).2 := by
    unfold ident_fill
    simp only [a1, a2, if_false, ne_eq, not_true_eq_false]
  obtain ⟨_, _, _, _, _, _, fd1, fl1, _⟩ :=
    ident_set_mode_frame { sx with identab := tset sx.identab (l + 1) (toInt r) } l mode
  obtain ⟨_, _, fm1, fmd1, fmax1, _⟩ :=
    ident_set_mode_more { sx with identab := tset sx.identab (l + 1) (toInt r) } l mode
  have hs : size_of K (ident_set_mode { sx with identab := tset sx.identab (l + 1) (toInt r) }
      l mode).2 mode = size_of K sx mode := size_of_congr K _ _ mode fmd1 fm1
  obtain ⟨g1, g2⟩ := getstatic_local K
    (ident_set_mode { sx with identab := tset sx.identab (l + 1) (toInt r) } l mode).2 mode
    (by rw [fl1]; exact hlg)
  rw [e, (ident_set_displ_frame _ _ _).2.2.2.2.2.2.1, (ident_set_displ_more _ _ _).2.2.2.2.1,
    g1, g2, hs, fd1, fmax1]
  exact ⟨rfl, rfl⟩

/-- One variable declaration inside a function: `displ` stays, or moves up by
the size of the mode with `maxdispl` following it. -/
theorem ident_add_variable_local (K : Defs) (sx : Sx) (r : Nat) (mode fd : Int)
    (hlg : sx.lg = 1) :
    (ident_add K sx r 0 mode fd).2.lg = 1 ∧
    (((ident_add K sx r 0 mode fd).2.displ = sx.displ ∧
        (ident_add K sx r 0 mode fd).2.maxdispl = sx.maxdispl) ∨
      ((ident_add K sx r 0 mode fd).2.displ = sx.displ + size_of K sx mode ∧
        (ident_add K sx r 0 mode fd).2.maxdispl
          = max sx.maxdispl (sx.displ + size_of K sx mode))) := by
  obtain ⟨_, _, _, _, ldispl, llg⟩ := ident_link_frame { sx with id := addSize sx.id 4 } sx.id r
  obtain ⟨_, lmodetab, lmd, lmax, _⟩ := ident_link_more { sx with id := addSize sx.id 4 } sx.id r
  have hs : size_of K (ident_link { sx with id := addSize sx.id 4 } sx.id r) mode
      = size_of K sx mode := size_of_congr K _ _ mode lmd lmodetab
  obtain ⟨v1, v2⟩ := ident_fill_variable_local K
    (ident_link { sx with id := addSize sx.id 4 } sx.id r) sx.id r mode fd (by rw [llg]; exact hlg)
  refine ⟨by rw [(ident_add_more K sx r 0 mode fd).2.2.2]; exact hlg, ?_⟩
  unfold ident_add
  dsimp only
  split_ifs
  · left; exact ⟨rfl, rfl⟩
  · left; exact ⟨ldispl, lmax⟩
  · right
    rw [v1, v2, hs, ldispl, lmax]
    exact ⟨rfl, rfl⟩

theorem exit_block_scope_eq (fuel : Nat) (s : Sx) (d l : Int) (k : Nat)
    (h4 : 4 ≤ s.curid) (hid : s.id = s.curid + 4 * k) (hb : s.id < 18446744073709551616)
    (hf : k ≤ fuel) :
    exit_block_scope fuel s d l
      = some (0, { s with reprtab := restore_records s.identab s.curid k s.reprtab,
                          displ := d, lg := l }) := by
  have hloop := restore_loop_eq s.identab s.curid h4 k fuel s.reprtab (by omega) hf
  unfold exit_block_scope
  rw [hid, hloop]

theorem frame_nested_alloc (d : Nat) (r : Nat) (m f : Int) (ops : List FrameOp)
    (h : frame_nested d (FrameOp.alloc r m f :: ops)) : frame_nested d ops := by
  cases d <;> simpa [frame_nested] using h

theorem frame_nested_enter (d : Nat) (ops : List FrameOp)
    (h : frame_nested d (FrameOp.enter :: ops)) : frame_nested (d + 1) ops := by
  cases d <;> simpa [frame_nested] using h

theorem frame_nested_leave (d : Nat) (ops : List FrameOp)
    (h : frame_nested (d + 1) (FrameOp.leave :: ops)) : frame_nested d ops := by
  simpa [frame_nested] using h

/-- The invariant of the steps inside a function scope.  `P` stands for the
assumption that the sizes of the declared modes are not negative. -/
theorem frame_run_inv (K : Defs) (s0 : Sx) (fuel : Nat) (P : Prop) :
    ∀ (ops : List FrameOp) (s : Sx) (saved : List (Int × Int)) (high : Int) (k : Nat),
      frame_nested saved.length ops →
      (P → ∀ r m f, FrameOp.alloc r m f ∈ ops → 0 ≤ size_of K s0 m) →
      s.lg = 1 → s.md = s0.md → s.modetab = s0.modetab →
      s.maxdispl = high → s.displ ≤ high → 3 ≤ high →
      (∀ p ∈ saved, p.2 = 1 ∧ p.1 ≤ high ∧ (P → p.1 ≤ s.displ)) →
      (P → saved.Pairwise (fun a b => b.1 ≤ a.1)) →
      4 ≤ s.curid → s.id = s.curid + 4 * k → k + ops.length ≤ fuel →
      s.id + 4 * ops.length < 18446744073709551616 →
      ∃ s2 saved2 high2 k2, frame_run K fuel ops s saved high = some (s2, saved2, high2) ∧
        s2.lg = 1 ∧ s2.maxdispl = high2 ∧ s2.displ ≤ high2 ∧ 3 ≤ high2 ∧ high ≤ high2 ∧
        (∀ p ∈ saved2, p.2 = 1 ∧ p.1 ≤ high2 ∧ (P → p.1 ≤ s2.displ)) ∧
        4 ≤ s2.curid ∧ s2.id = s2.curid + 4 * k2 ∧ k2 ≤ fuel ∧
        s2.id < 18446744073709551616 := by
  intro ops
  induction ops with
  | nil =>
    intro s saved high k _ _ hlg _ _ hmax hd h3 hsv _ h4 hid hf hb
    exact ⟨s, saved, high, k, rfl, hlg, hmax, hd, h3, le_refl _, hsv, h4, hid,
      by simpa using hf, by simpa using hb⟩
  | cons op ops ih =>
    intro s saved high k hn hsz hlg hmd hmt hmax hd h3 hsv hpw h4 hid hf hb
    rw [List.length_cons] at hf hb
    cases op with
    | alloc r m f =>
      obtain ⟨f1, f2, _, _, _⟩ := ident_add_frame K s r 0 m f
      obtain ⟨_, g2, g3, _⟩ := ident_add_more K s r 0 m f
      obtain ⟨a1, a2⟩ := ident_add_variable_local K s r m f hlg
      have hs : size_of K s m = size_of K s0 m := size_of_congr K _ _ m hmd hmt
      rw [addSize_of_lt _ _ (by omega)] at f1
      have hstep : (ident_add K s r 0 m f).2.maxdispl = max high (ident_add K s r 0 m f).2.displ ∧
          (ident_add K s r 0 m f).2.displ ≤ max high (ident_add K s r 0 m f).2.displ ∧
          (P → s.displ ≤ (ident_add K s r 0 m f).2.displ) := by
        rcases a2 with ⟨e1, e2⟩ | ⟨e1, e2⟩
        · rw [e1, e2, hmax]
          exact ⟨by omega, by omega, fun _ => le_refl _⟩
        · rw [e1, e2, hmax]
          refine ⟨by omega, by omega, fun hp => ?_⟩
          have := hsz hp r m f (List.mem_cons_self _ _)
          rw [hs]
          omega
      obtain ⟨s2, saved2, high2, k2, hrun, r1, r2, r3, r4, r5, r6, r7⟩ :=
        ih (ident_add K s r 0 m f).2 saved (max high (ident_add K s r 0 m f).2.displ) (k + 1)
          (frame_nested_alloc _ _ _ _ _ hn)
          (fun hp r' m' f' hm => hsz hp r' m' f' (List.mem_cons_of_mem _ hm))
          a1 (by rw [g3]; exact hmd) (by rw [g2]; exact hmt) hstep.1 hstep.2.1 (by omega)
          (fun p hp => by
            obtain ⟨q1, q2, q3⟩ := hsv p hp
            exact ⟨q1, by omega, fun hP => le_trans (q3 hP) (hstep.2.2 hP)⟩)
          hpw
          (by rw [f2]; exact h4) (by rw [f1, f2, hid]; omega) (by omega) (by rw [f1]; omega)
      exact ⟨s2, saved2, high2, k2, hrun, r1, r2, r3, r4, by omega, r6, r7⟩
    | enter =>
      have e1 : (enter_block_scope s).2.displ = s.displ := rfl
      obtain ⟨s2, saved2, high2, k2, hrun, r1, r2, r3, r4, r5, r6, r7⟩ :=
        ih (enter_block_scope s).2 ((enter_block_scope s).1 :: saved)
          (max high (enter_block_scope s).2.displ) 0
          (frame_nested_enter _ _ hn)
          (fun hp r' m' f' hm => hsz hp r' m' f' (List.mem_cons_of_mem _ hm))
          hlg hmd hmt (by rw [e1]; show s.maxdispl = _; rw [hmax]; omega)
          (by rw [e1]; omega) (by omega)
          (fun p hp => by
            rcases List.mem_cons.1 hp with rfl | hp
            · exact ⟨hlg, by rw [e1]; show s.displ ≤ _; omega, fun _ => le_refl _⟩
            · obtain ⟨q1, q2, q3⟩ := hsv p hp
              exact ⟨q1, by omega, q3⟩)
          (fun hP => List.Pairwise.cons (fun b hb => (hsv b hb).2.2 hP) (hpw hP))
          (show 4 ≤ s.id by omega) (show s.id = s.id + 4 * 0 by omega) (by omega)
          (show s.id + 4 * ops.length < _ by omega)
      exact ⟨s2, saved2, high2, k2, hrun, r1, r2, r3, r4, by omega, r6, r7⟩
    | leave =>
      cases saved with
      | nil => exact absurd hn (by simp [frame_nested])
      | cons p saved =>
        obtain ⟨q1, q2, q3⟩ := hsv p (List.mem_cons_self _ _)
        have hex := exit_block_scope_eq fuel s p.1 p.2 k h4 hid (by omega) (by omega)
        have hrun0 : frame_run K fuel (FrameOp.leave :: ops) s (p :: saved) high
            = frame_run K fuel ops
                { s with reprtab := restore_records s.identab s.curid k s.reprtab,
                         displ := p.1, lg := p.2 } saved
                (max high p.1) := by
          simp only [frame_run, hex]
        obtain ⟨s2, saved2, high2, k2, hrun, r1, r2, r3, r4, r5, r6, r7⟩ :=
          ih { s with reprtab := restore_records s.identab s.curid k s.reprtab,
                      displ := p.1, lg := p.2 } saved (max high p.1) k
            (frame_nested_leave _ _ hn)
            (fun hp r' m' f' hm => hsz hp r' m' f' (List.mem_cons_of_mem _ hm))
            q1 hmd hmt (show s.maxdispl = _ by rw [hmax]; omega)
            (show p.1 ≤ _ by omega) (by omega)
            (fun p2 hp2 => by
              obtain ⟨t1, t2, t3⟩ := hsv p2 (List.mem_cons_of_mem _ hp2)
              refine ⟨t1, by omega, fun hP => ?_⟩
              show p2.1 ≤ p.1
              exact (List.pairwise_cons.1 (hpw hP)).1 p2 hp2)
            (fun hP => (List.pairwise_cons.1 (hpw hP)).2)
            h4 hid (by omega) (show s.id + 4 * ops.length < _ by omega)
        exact ⟨s2, saved2, high2, k2, by rw [hrun0]; exact hrun, r1, r2, r3, r4, by omega, r6, r7⟩

/-- C27: after `enter_func_scope`, in a context that holds a symbol record
(`4 <= id`), every well-nested sequence of variable declarations (`ident_add` with
`type = 0`), block scope entries and block scope exits (each with the pair saved
by its entry) runs to its end, given fuel for the restore loops, and afterwards
`maxdispl` is the largest value `displ` has had since the function scope was
entered, `displ <= maxdispl` and `3 <= maxdispl`.  A block exit at that point
returns and leaves `maxdispl` as it is; the `displ` it restores is at most
`maxdispl`, and at most the `displ` before the exit when no declared mode has a
negative size. -/
theorem frame_high_water (K : Defs) (sx : Sx) (ops : List FrameOp) (fuel : Nat)
    (hid : 4 ≤ sx.id) (hb : sx.id + 4 * ops.length < 18446744073709551616)
    (hf : ops.length ≤ fuel) (hn : frame_nested 0 ops) :
    ∃ s saved high,
      frame_run K fuel ops (enter_func_scope sx).2 [] (enter_func_scope sx).2.displ
        = some (s, saved, high) ∧
      s.maxdispl = high ∧ s.displ ≤ s.maxdispl ∧ 3 ≤ s.maxdispl ∧
      ∀ p rest, saved = p :: rest →
        ∃ r, exit_block_scope fuel s p.1 p.2 = some r ∧ r.2.maxdispl = s.maxdispl ∧
          r.2.displ ≤ s.maxdispl ∧
          ((∀ r m f, FrameOp.alloc r m f ∈ ops → 0 ≤ size_of K sx m) → r.2.displ ≤ s.displ) := by
  obtain ⟨s, saved, high, k, hrun, r1, r2, r3, r4, _, r6, r7, r8, r9, r10⟩ :=
    frame_run_inv K (enter_func_scope sx).2 fuel
      (∀ r m f, FrameOp.alloc r m f ∈ ops → 0 ≤ size_of K sx m)
      ops (enter_func_scope sx).2 [] (enter_func_scope sx).2.displ 0 hn
      (fun hP r m f hm => by
        rw [size_of_congr K (enter_func_scope sx).2 sx m rfl rfl]
        exact hP r m f hm)
      rfl rfl rfl rfl (le_refl _) (by show (3 : Int) ≤ 3; omega)
      (fun p hp => absurd hp (List.not_mem_nil p)) (fun _ => List.Pairwise.nil)
      (show 4 ≤ sx.id from hid) (show sx.id = sx.id + 4 * 0 by omega) (by omega)
      (show sx.id + 4 * ops.length < _ from hb)
  refine ⟨s, saved, high, hrun, r2, by rw [r2]; exact r3, by rw [r2]; exact r4, ?_⟩
  intro p rest hsv
  obtain ⟨q1, q2, q3⟩ := r6 p (by rw [hsv]; exact List.mem_cons_self _ _)
  have hex := exit_block_scope_eq fuel s p.1 p.2 k r7 r8 r10 r9
  exact ⟨_, hex, rfl, by show p.1 ≤ s.maxdispl; rw [r2]; exact q2, q3⟩

/-- Witness for C27: in the function scope entered from `ex_variable`, a floating
variable is declared, a block is entered, an `int` variable is declared in it and
the block is left. -/
theorem frame_high_water_witness :
    ∃ s saved high,
      frame_run sampleDefs 4
          [FrameOp.alloc 1 (-3) 0, FrameOp.enter, FrameOp.alloc 1 (-1) 0, FrameOp.leave]
          (enter_func_scope ex_variable).2 [] (enter_func_scope ex_variable).2.displ
        = some (s, saved, high) ∧
      s.maxdispl = high ∧ s.displ ≤ s.maxdispl ∧ 3 ≤ s.maxdispl := by
  obtain ⟨s, saved, high, h1, h2, h3, h4, _⟩ :=
    frame_high_water sampleDefs ex_variable
      [FrameOp.alloc 1 (-3) 0, FrameOp.enter, FrameOp.alloc 1 (-1) 0, FrameOp.leave] 4
      (by decide) (by decide) (by decide) (by simp [frame_nested])
  exact ⟨s, saved, high, h1, h2, h3, h4⟩

/-! ## Injectivity of the interner -/

theorem toInt_inj (a b : Nat) (ha : a < 4294967296) (hb : b < 4294967296)
    (h : toInt a = toInt b) : a = b := by
  unfold toInt at h; omega

theorem SpellingAt_cell_ne_zero (t : Table) (h : Nat) (sp : List Nat) (hsp : Spelling sp)
    (hat : SpellingAt t h sp) (i : Nat) (hi : i < sp.length) : t (h + 2 + i) ≠ 0 := by
  rw [hat.1 i hi]
  have hm : sp.getD i 0 ∈ sp := by
    rw [List.getD_eq_getElem _ _ hi]
    exact List.getElem_mem _
  exact toInt_ne_zero _ (hsp _ hm).1 (hsp _ hm).2

theorem list_eq_of_getD (l1 l2 : List Nat) (hl : l1.length = l2.length)
    (h : ∀ j, j < l1.length → l1.getD j 0 = l2.getD j 0) : l1 = l2 := by
  apply List.ext_getElem hl
  intro n h1 h2
  have := h n h1
  rw [List.getD_eq_getElem _ _ h1, List.getD_eq_getElem _ _ h2] at this
  exact this

/-- The loop of `repr_is_equal` on two records that hold spellings returns 1
only when it has seen the two spellings end together. -/
theorem repr_is_equal_loop_sound (t : Table) (a b : Nat) (sp1 sp2 : List Nat)
    (h1 : Spelling sp1) (h2 : Spelling sp2) (ha : SpellingAt t a sp1) (hb : SpellingAt t b sp2) :
    ∀ (fuel k : Nat), k ≤ sp1.length → k ≤ sp2.length →
      (∀ j, j < k → sp1.getD j 0 = sp2.getD j 0) →
      ¬ (k = sp1.length ∧ k = sp2.length) →
      repr_is_equal_loop t a b fuel (2 + k) = some true → sp1 = sp2 := by
  intro fuel
  induction fuel with
  | zero => intro k _ _ _ _ h; simp [repr_is_equal_loop] at h
  | succ f ih =>
    intro k hk1 hk2 hpre hnot h
    have ea : a + (2 + k) = a + 2 + k := by omega
    have eb : b + (2 + k) = b + 2 + k := by omega
    have ea1 : a + (2 + k + 1) = a + 2 + (k + 1) := by omega
    have eb1 : b + (2 + k + 1) = b + 2 + (k + 1) := by omega
    simp only [repr_is_equal_loop, ea, eb, ea1, eb1] at h
    by_cases hc : t (a + 2 + k) = t (b + 2 + k)
    · rw [if_pos hc] at h
      -- neither spelling has ended at `k`
      have hlt : k < sp1.length ∧ k < sp2.length := by
        by_contra hcon
        by_cases e1 : k = sp1.length
        · have hz : t (a + 2 + k) = 0 := by rw [e1]; exact ha.2
          have hk2' : k < sp2.length := by omega
          exact SpellingAt_cell_ne_zero t b sp2 h2 hb k hk2' (by rw [← hc]; exact hz)
        · have hk1' : k < sp1.length := by omega
          have e2 : k = sp2.length := by omega
          have hz : t (b + 2 + k) = 0 := by rw [e2]; exact hb.2
          exact SpellingAt_cell_ne_zero t a sp1 h1 ha k hk1' (by rw [hc]; exact hz)
      obtain ⟨l1, l2⟩ := hlt
      have hk : sp1.getD k 0 = sp2.getD k 0 := by
        have m1 : sp1.getD k 0 ∈ sp1 := by
          rw [List.getD_eq_getElem _ _ l1]; exact List.getElem_mem _
        have m2 : sp2.getD k 0 ∈ sp2 := by
          rw [List.getD_eq_getElem _ _ l2]; exact List.getElem_mem _
        apply toInt_inj _ _ (h1 _ m1).2 (h2 _ m2).2
        rw [← ha.1 k l1, ← hb.1 k l2]
        exact hc
      have hpre2 : ∀ j, j < k + 1 → sp1.getD j 0 = sp2.getD j 0 := by
        intro j hj
        by_cases e : j = k
        · rw [e]; exact hk
        · exact hpre j (by omega)
      by_cases hend : t (a + 2 + (k + 1)) = 0 ∧ t (b + 2 + (k + 1)) = 0
      · -- both end at `k + 1`
        have e1 : k + 1 = sp1.length := by
          by_contra hne
          exact SpellingAt_cell_ne_zero t a sp1 h1 ha (k + 1) (by omega) hend.1
        have e2 : k + 1 = sp2.length := by
          by_contra hne
          exact SpellingAt_cell_ne_zero t b sp2 h2 hb (k + 1) (by omega) hend.2
        exact list_eq_of_getD sp1 sp2 (by omega) (fun j hj => hpre2 j (by omega))
      · rw [if_neg hend] at h
        apply ih (k + 1) (by omega) (by omega) hpre2 _ (by
          rw [show 2 + (k + 1) = 2 + k + 1 by omega]; exact h)
        rintro ⟨e1, e2⟩
        apply hend
        constructor
        · rw [e1]; exact ha.2
        · rw [e2]; exact hb.2
    · rw [if_neg hc] at h
      simp at h

/-- The function `repr_is_equal` never returns 1 for two records that hold
different spellings. -/
theorem repr_is_equal_sound (fuel : Nat) (sx : Sx) (a b : Nat) (sp1 sp2 : List Nat)
    (h1 : Spelling sp1) (h2 : Spelling sp2) (ha : SpellingAt sx.reprtab a sp1)
    (hb : SpellingAt sx.reprtab b sp2) (h : repr_is_equal fuel sx a b = some true) :
    sp1 = sp2 := by
  by_cases he : 0 = sp1.length ∧ 0 = sp2.length
  · exact list_eq_of_getD sp1 sp2 (by omega) (fun j hj => by omega)
  · exact repr_is_equal_loop_sound sx.reprtab a b sp1 sp2 h1 h2 ha hb fuel 0 (by omega) (by omega)
      (fun j hj => by omega) he h

set_option maxRecDepth 100000 in
/-- C28, at a failing input: the spellings `*2*` and `x` are interned right after
`sx_init` (handles 1 and 7).  The representation 1 is declared, a block is
entered, the representation 7 is declared in it and declared again, which fails
leaving a record with a previous-binding cell of 6 and no back-reference, and the
block is left: the restore loop then stores 6 in `reprtab[1]`, the hash link of
the representation 1.  After that `repr_add` walks the bucket of `*2*` on to the
offset 6 and compares with the cells from 8 on, which are the slot and the
spelling of the representation 7.  When that slot is 14, the spelling made of
the code points 14 and `x` receives the handle 6; when the slot is 270, the
different spelling made of 270 and `x` receives the handle 6 as well. -/
theorem repr_add_shares_handle :
    ((repr_add 4 ex_init [42, 50, 42]).map (fun r => r.1),
      ((repr_add 4 ex_init [42, 50, 42]).bind (fun r => repr_add 4 r.2 [120])).map
        (fun r => r.1)) = (some 1, some 7) ∧
    (ex_chain_b.identab 10, ex_chain_b.identab 11) = (6, 0) ∧
    (exit_block_scope 4 ex_chain_b ex_chain_a.displ ex_chain_a.lg).map
      (fun r => (r.1, r.2.reprtab 1)) = some (0, 6) ∧
    (ex_chain_c.reprtab 8, ex_chain_d.reprtab 8) = (14, 270) ∧
    (repr_add 4 ex_chain_c [14, 120]).map (fun r => r.1) = some 6 ∧
    (repr_add 4 ex_chain_d [270, 120]).map (fun r => r.1) = some 6 := by
  refine ⟨by decide, by decide, by decide, by decide, by decide, by decide⟩


/-! ## The interner while the hash links are intact -/

theorem ident_set_mode_hashtab (sx : Sx) (i : Nat) (m : Int) :
    (ident_set_mode sx i m).2.hashtab = sx.hashtab := by
  unfold ident_set_mode
  split_ifs <;> rfl

theorem ident_set_displ_hashtab (sx : Sx) (i : Nat) (m : Int) :
    (ident_set_displ sx i m).2.hashtab = sx.hashtab := by
  unfold ident_set_displ
  split_ifs <;> rfl

theorem getstatic_hashtab (K : Defs) (sx : Sx) (m : Int) :
    (getstatic K sx m).2.hashtab = sx.hashtab := by
  unfold getstatic
  dsimp only
  split_ifs <;> rfl

theorem ident_link_hashtab (sx : Sx) (l r : Nat) : (ident_link sx l r).hashtab = sx.hashtab := by
  unfold ident_link repr_set_reference
  dsimp only
  split_ifs <;> rfl

theorem ident_fill_hashtab (K : Defs) (sx : Sx) (l r : Nat) (type mode fd : Int) :
    (ident_fill K sx l r type mode fd).hashtab = sx.hashtab := by
  unfold ident_fill
  split_ifs <;>
    simp [ident_set_mode_hashtab, ident_set_displ_hashtab, getstatic_hashtab]

theorem ident_add_hashtab (K : Defs) (sx : Sx) (r : Nat) (type mode fd : Int) :
    (ident_add K sx r type mode fd).2.hashtab = sx.hashtab := by
  unfold ident_add
  dsimp only
  split_ifs <;> simp [ident_fill_hashtab, ident_link_hashtab]

/-- A hit of the bucket walk is a record of the chain that `repr_is_equal`
accepts. -/
theorem repr_find_hit (s1 : Sx) (old fuel : Nat) (Hp : Nat → Prop)
    (hl : ∀ c, Hp c → 0 ≤ s1.reprtab c ∧ s1.reprtab c < 18446744073709551616 ∧
      (s1.reprtab c = 0 ∨ Hp (s1.reprtab c).toNat)) :
    ∀ (n cur c : Nat), (cur = 0 ∨ Hp cur) →
      repr_find s1 old fuel n cur = some (some c) →
      Hp c ∧ repr_is_equal fuel s1 c old = some true := by
  intro n
  induction n with
  | zero =>
    intro cur c _ h
    simp only [repr_find] at h
    by_cases h0 : cur = 0
    · rw [if_pos h0] at h; simp at h
    · rw [if_neg h0] at h; simp at h
  | succ n ih =>
    intro cur c hcur h
    simp only [repr_find] at h
    by_cases h0 : cur = 0
    · rw [if_pos h0] at h; simp at h
    · rw [if_neg h0] at h
      have hp : Hp cur := by
        rcases hcur with hcur | hcur
        · exact absurd hcur h0
        · exact hcur
      split at h
      · exact absurd h (by simp)
      · rename_i heq
        simp only [Option.some.injEq] at h
        subst h
        exact ⟨hp, heq⟩
      · obtain ⟨l1, l2, l3⟩ := hl cur hp
        apply ih _ c _ h
        rw [toSize_of_nonneg _ l1 l2]
        rcases l3 with l3 | l3
        · left; rw [l3]; rfl
        · right; exact l3

theorem repr_written_spelling (s : Sx) (sp : List Nat) (hsp : Spelling sp) :
    SpellingAt (repr_written s sp).reprtab s.rp sp := by
  have hnz : ∀ c ∈ sp, c ≠ 0 := fun c hc => (hsp c hc).1
  have hget := repr_write_get sp hnz s.reprtab (s.rp + 2) 0
  constructor
  · intro i hi
    show (repr_write sp s.reprtab (s.rp + 2) 0).1 (s.rp + 2 + i) = _
    rw [hget, if_pos (by omega)]
    congr 2
    omega
  · show (repr_write sp s.reprtab (s.rp + 2) 0).1 (s.rp + 2 + sp.length) = _
    rw [hget, if_neg (by omega), if_pos rfl]

theorem SpellingAt_congr (t t2 : Table) (h : Nat) (sp : List Nat)
    (hc : ∀ i, i ≤ sp.length → t2 (h + 2 + i) = t (h + 2 + i)) (hat : SpellingAt t h sp) :
    SpellingAt t2 h sp :=
  ⟨fun i hi => by rw [hc i (by omega)]; exact hat.1 i hi, by rw [hc _ (le_refl _)]; exact hat.2⟩

/-- The invariant after a hit of `repr_add`. -/
theorem InternInv_hit (s s2 : Sx) (log : List (Nat × List Nat)) (e0 : Nat × List Nat)
    (hinv : InternInv s log) (he0 : e0 ∈ log) (e_rp : s2.rp = s.rp)
    (e_tab : ∀ j, j < s.rp → s2.reprtab j = s.reprtab j) (e_ht : s2.hashtab = s.hashtab) :
    InternInv s2 (e0 :: log) := by
  obtain ⟨hrp, hrec, hbuck, huniq, hdisj⟩ := hinv
  have hmem : ∀ e, e ∈ e0 :: log → e ∈ log := by
    intro e he
    rcases List.mem_cons.1 he with rfl | he
    · exact he0
    · exact he
  refine ⟨by rw [e_rp]; exact hrp, ?_, ?_, ?_, ?_⟩
  · intro e he
    obtain ⟨r1, r2, r3, r4, r5, r6, r7⟩ := hrec e (hmem e he)
    have hl : s2.reprtab e.1 = s.reprtab e.1 := e_tab _ (by omega)
    refine ⟨r1, r2, by rw [e_rp]; exact r3, ?_, by rw [hl]; exact r5, by rw [hl]; exact r6, ?_⟩
    · exact SpellingAt_congr _ _ _ _ (fun i hi => e_tab _ (by omega)) r4
    · rw [hl]
      rcases r7 with r7 | ⟨e2, h2, h3⟩
      · exact Or.inl r7
      · exact Or.inr ⟨e2, List.mem_cons_of_mem _ h2, h3⟩
  · intro b hb
    rw [e_ht]
    rcases hbuck b hb with h | ⟨e, h1, h2⟩
    · exact Or.inl h
    · exact Or.inr ⟨e, List.mem_cons_of_mem _ h1, h2⟩
  · intro e1 h1 e2 h2
    exact huniq e1 (hmem e1 h1) e2 (hmem e2 h2)
  · intro e1 h1 e2 h2
    exact hdisj e1 (hmem e1 h1) e2 (hmem e2 h2)

/-- The invariant after a miss of `repr_add`, whatever the seed of the slot. -/
theorem InternInv_commit (s s2 : Sx) (log : List (Nat × List Nat)) (sp : List Nat) (seed : Int)
    (hinv : InternInv s log) (hsp : Spelling sp) (hb : s.rp + sp.length + 3 < 2147483648)
    (e_rp : s2.rp = (repr_written s sp).rp)
    (e_tab : s2.reprtab = tset (tset (repr_written s sp).reprtab s.rp
      (toInt (s.hashtab (repr_hash s sp)))) (s.rp + 1) seed)
    (e_ht : s2.hashtab = fun j => if j = repr_hash s sp then s.rp else s.hashtab j) :
    InternInv s2 ((s.rp, sp) :: log) := by
  obtain ⟨⟨hrp1, hrp2⟩, hrec, hbuck, huniq, hdisj⟩ := hinv
  have hnz : ∀ c ∈ sp, c ≠ 0 := fun c hc => (hsp c hc).1
  have hbelow : ∀ j, j < s.rp + 2 → (repr_written s sp).reprtab j = s.reprtab j :=
    repr_write_below sp s.reprtab (s.rp + 2) 0
  have hcur : (repr_written s sp).rp = s.rp + 2 + sp.length + 1 :=
    repr_write_cursor_eq sp hnz _ _ _
  have hnew := repr_written_spelling s sp hsp
  have hhash : repr_hash s sp < 256 := by
    rw [repr_hash_eq s sp hnz]
    unfold spelling_hash
    omega
  have hold : ∀ j, j < s.rp → s2.reprtab j = s.reprtab j := by
    intro j hj
    rw [e_tab, tset_ne _ _ _ _ (by omega), tset_ne _ _ _ _ (by omega)]
    exact hbelow j (by omega)
  have hhead : s.hashtab (repr_hash s sp) = 0 ∨
      ∃ e ∈ log, e.1 = s.hashtab (repr_hash s sp) := hbuck _ hhash
  have hheadlt : s.hashtab (repr_hash s sp) < s.rp := by
    rcases hhead with h | ⟨e, h1, h2⟩
    · omega
    · have := (hrec e h1).2.2.1
      omega
  have hlink : s2.reprtab s.rp = (s.hashtab (repr_hash s sp) : Int) := by
    rw [e_tab, tset_ne _ _ _ _ (by omega), tset_eq, toInt_of_lt _ (by omega)]
  refine ⟨by rw [e_rp, hcur]; omega, ?_, ?_, ?_, ?_⟩
  · intro e he
    rcases List.mem_cons.1 he with rfl | he
    · dsimp only
      refine ⟨hsp, hrp1, by rw [e_rp, hcur]; omega, ?_, by rw [hlink]; omega,
        by rw [hlink]; omega, ?_⟩
      · apply SpellingAt_congr _ _ _ _ _ hnew
        intro i hi
        rw [e_tab, tset_ne _ _ _ _ (by omega), tset_ne _ _ _ _ (by omega)]
      · rw [hlink]
        rcases hhead with h | ⟨e, h1, h2⟩
        · left; rw [h]; rfl
        · right
          exact ⟨e, List.mem_cons_of_mem _ h1, by rw [h2]; simp⟩
    · obtain ⟨r1, r2, r3, r4, r5, r6, r7⟩ := hrec e he
      have hl : s2.reprtab e.1 = s.reprtab e.1 := hold _ (by omega)
      refine ⟨r1, r2, by rw [e_rp, hcur]; omega, ?_, by rw [hl]; exact r5,
        by rw [hl]; exact r6, ?_⟩
      · exact SpellingAt_congr _ _ _ _ (fun i hi => hold _ (by omega)) r4
      · rw [hl]
        rcases r7 with r7 | ⟨e2, h2, h3⟩
        · exact Or.inl r7
        · exact Or.inr ⟨e2, List.mem_cons_of_mem _ h2, h3⟩
  · intro b hb
    rw [e_ht]
    dsimp only
    split_ifs with hbb
    · exact Or.inr ⟨(s.rp, sp), List.mem_cons_self _ _, rfl⟩
    · rcases hbuck b hb with h | ⟨e, h1, h2⟩
      · exact Or.inl h
      · exact Or.inr ⟨e, List.mem_cons_of_mem _ h1, h2⟩
  · intro e1 h1 e2 h2 he
    rcases List.mem_cons.1 h1 with rfl | h1 <;> rcases List.mem_cons.1 h2 with rfl | h2
    · rfl
    · exfalso
      have := (hrec e2 h2).2.2.1
      dsimp only at he
      omega
    · exfalso
      have := (hrec e1 h1).2.2.1
      dsimp only at he
      omega
    · exact huniq e1 h1 e2 h2 he
  · intro e1 h1 e2 h2 he
    rcases List.mem_cons.1 h1 with rfl | h1 <;> rcases List.mem_cons.1 h2 with rfl | h2
    · exfalso; dsimp only at he; omega
    · exfalso
      have := (hrec e2 h2).2.2.1
      dsimp only at he
      omega
    · have := (hrec e1 h1).2.2.1
      dsimp only
      omega
    · exact hdisj e1 h1 e2 h2 he

theorem InternInv_intern (s : Sx) (log : List (Nat × List Nat)) (fuel : Nat) (sp : List Nat)
    (h : Nat) (s2 : Sx) (hinv : InternInv s log) (hsp : Spelling sp)
    (hb : s.rp + sp.length + 3 < 2147483648) (hres : repr_add fuel s sp = some (h, s2)) :
    InternInv s2 ((h, sp) :: log) := by
  have hrec := hinv.2.1
  have hbuck := hinv.2.2.1
  have hnz : ∀ c ∈ sp, c ≠ 0 := fun c hc => (hsp c hc).1
  have hbelow : ∀ j, j < s.rp + 2 → (repr_written s sp).reprtab j = s.reprtab j :=
    repr_write_below sp s.reprtab (s.rp + 2) 0
  have hhash : repr_hash s sp < 256 := by
    rw [repr_hash_eq s sp hnz]
    unfold spelling_hash
    omega
  rw [repr_add_eq] at hres
  split at hres
  · exact absurd hres (by simp)
  · rename_i cur hfind
    simp only [Option.some.injEq, Prod.mk.injEq] at hres
    obtain ⟨rfl, rfl⟩ := hres
    obtain ⟨⟨e0, he0, hc0⟩, heq⟩ := repr_find_hit (repr_written s sp) s.rp fuel
      (fun c => ∃ e ∈ log, e.1 = c)
      (fun c ⟨e, he, hc⟩ => by
        obtain ⟨_, _, r3, _, r5, r6, r7⟩ := hrec e he
        rw [← hc, hbelow _ (by omega)]
        exact ⟨r5, by omega, r7⟩)
      fuel _ _ (hbuck _ hhash) hfind
    have hat0 : SpellingAt (repr_written s sp).reprtab e0.1 e0.2 :=
      SpellingAt_congr _ _ _ _ (fun i hi => hbelow _ (by have := (hrec e0 he0).2.2.1; omega))
        (hrec e0 he0).2.2.2.1
    have hsame : e0.2 = sp := by
      apply repr_is_equal_sound fuel (repr_written s sp) e0.1 s.rp e0.2 sp (hrec e0 he0).1 hsp
        hat0 (repr_written_spelling s sp hsp)
      rw [hc0]; exact heq
    have hpair : (cur, sp) = e0 := by
      rw [← hc0, ← hsame]
    rw [hpair]
    exact InternInv_hit s _ log e0 hinv he0 rfl (fun j hj => hbelow j (by omega)) rfl
  · split_ifs at hres
    · simp only [Option.some.injEq, Prod.mk.injEq] at hres
      obtain ⟨rfl, rfl⟩ := hres
      exact InternInv_commit s _ log sp _ hinv hsp hb rfl rfl rfl
    · simp only [Option.some.injEq, Prod.mk.injEq] at hres
      obtain ⟨rfl, rfl⟩ := hres
      exact InternInv_commit s _ log sp _ hinv hsp hb rfl rfl rfl

/-- The invariant survives a step that changes slots of logged handles only:
a slot is no hash link and no cell of a spelling. -/
theorem InternInv_slots (s s2 : Sx) (log : List (Nat × List Nat)) (hinv : InternInv s log)
    (e_rp : s2.rp = s.rp) (e_ht : s2.hashtab = s.hashtab)
    (hcell : ∀ c, (∀ e ∈ log, c ≠ e.1 + 1) → s2.reprtab c = s.reprtab c) :
    InternInv s2 log := by
  obtain ⟨hrp, hrec, hbuck, huniq, hdisj⟩ := hinv
  have hout : ∀ e ∈ log, ∀ i, i = 0 ∨ (2 ≤ i ∧ i ≤ 2 + e.2.length) →
      ∀ er ∈ log, e.1 + i ≠ er.1 + 1 := by
    intro e he i hi er her
    by_cases h1 : e.1 = er.1
    · omega
    · by_cases h2 : e.1 < er.1
      · have := hdisj e he er her h2
        omega
      · have := hdisj er her e he (by omega)
        omega
  refine ⟨by rw [e_rp]; exact hrp, ?_, by rw [e_ht]; exact hbuck, huniq, hdisj⟩
  intro e he
  obtain ⟨r1, r2, r3, r4, r5, r6, r7⟩ := hrec e he
  have hl : s2.reprtab e.1 = s.reprtab e.1 :=
    hcell _ (fun er her => by have := hout e he 0 (Or.inl rfl) er her; omega)
  refine ⟨r1, r2, by rw [e_rp]; exact r3, ?_, by rw [hl]; exact r5, by rw [hl]; exact r6,
    by rw [hl]; exact r7⟩
  apply SpellingAt_congr _ _ _ _ _ r4
  intro i hi
  apply hcell
  intro er her
  have := hout e he (2 + i) (Or.inr ⟨by omega, by omega⟩) er her
  omega

theorem InternInv_declare (K : Defs) (s : Sx) (log : List (Nat × List Nat)) (r : Nat)
    (type mode fd : Int) (hinv : InternInv s log) (hr : ∃ e ∈ log, e.1 = r) :
    InternInv (ident_add K s r type mode fd).2 log := by
  obtain ⟨er, her, hrr⟩ := hr
  apply InternInv_slots s _ log hinv (ident_add_frame K s r type mode fd).2.2.1
    (ident_add_hashtab K s r type mode fd)
  intro c hc
  have hj : c ≠ r + 1 := by rw [← hrr]; exact hc er her
  rcases (ident_add_link K s r type mode fd).1 with e | e
  · rw [e]
  · rw [e]; exact tset_ne _ _ _ _ hj

/-- The restore loop over records that carry handles of representations writes
slots of logged handles only. -/
theorem InternInv_restore (s s2 : Sx) (log : List (Nat × List Nat)) (k : Nat)
    (hinv : InternInv s log)
    (hrecs : ∀ j, j < k → ∃ e ∈ log, s.identab (s.curid + 4 * j + 1) = (e.1 : Int))
    (e_rp : s2.rp = s.rp) (e_ht : s2.hashtab = s.hashtab)
    (e_tab : s2.reprtab = restore_records s.identab s.curid k s.reprtab) :
    InternInv s2 log := by
  apply InternInv_slots s s2 log hinv e_rp e_ht
  intro c hc
  rw [e_tab]
  apply restore_records_untargeted
  intro j hj
  obtain ⟨e, he, hje⟩ := hrecs j hj
  rw [hje]
  have := hc e he
  omega

theorem exit_func_scope_eq (fuel : Nat) (s : Sx) (pred : Nat) (start : Int) (k : Nat)
    (h4 : 4 ≤ s.curid) (hid : s.id = s.curid + 4 * k) (hb : s.id < 18446744073709551616)
    (hf : k ≤ fuel) :
    exit_func_scope fuel s pred start = some (-1, s) ∨
    exit_func_scope fuel s pred start
      = some (0, { s with reprtab := restore_records s.identab s.curid k s.reprtab, curid := 2,
                          tree := tset s.tree pred s.maxdispl, lg := -1, displ := start }) := by
  have hloop := restore_loop_eq s.identab s.curid h4 k fuel s.reprtab (by omega) hf
  by_cases hg : toInt pred ≥ s.tc
  · left
    unfold exit_func_scope
    rw [if_pos hg]
  · right
    unfold exit_func_scope
    rw [if_neg hg, hid, hloop]

/-- Every interned context satisfies the invariant. -/
theorem Interned_inv (K : Defs) (m0 s : Sx) (log : List (Nat × List Nat))
    (h : Interned K m0 s log) : InternInv s log := by
  induction h with
  | init =>
    have hrp : (sx_init m0).2.rp = 1 := rfl
    refine ⟨⟨by rw [hrp], by rw [hrp]; omega⟩, fun e he => absurd he (List.not_mem_nil e), ?_,
      fun e he => absurd he (List.not_mem_nil e), fun e he => absurd he (List.not_mem_nil e)⟩
    intro b hb
    left
    show (if b < 256 then 0 else m0.hashtab b) = 0
    rw [if_pos hb]
  | intern s log fuel sp h s2 _ hsp hb hres ih => exact InternInv_intern s log fuel sp h s2 ih hsp hb hres
  | declare s log r type mode fd _ hr ih => exact InternInv_declare K s log r type mode fd ih hr
  | block_entry s log _ ih => exact ih
  | func_entry s log _ ih => exact ih
  | block_exit s log fuel k d l res _ h4 hid hb hf hrecs hres ih =>
    rw [exit_block_scope_eq fuel s d l k h4 hid hb hf] at hres
    simp only [Option.some.injEq] at hres
    subst hres
    exact InternInv_restore s _ log k ih hrecs rfl rfl rfl
  | func_exit s log fuel k pred start res _ h4 hid hb hf hrecs hres ih =>
    rcases exit_func_scope_eq fuel s pred start k h4 hid hb hf with e | e
    · rw [e] at hres
      simp only [Option.some.injEq] at hres
      subst hres
      exact ih
    · rw [e] at hres
      simp only [Option.some.injEq] at hres
      subst hres
      exact InternInv_restore s _ log k ih hrecs rfl rfl rfl

/-- As long as no scope exit runs over a record without the handle of a
representation in its back-reference cell, the interner is injective: in such a
context no handle has been returned by `repr_add` for two different spellings,
and every handle returned is a record that holds its spelling. -/
theorem interned_injective (K : Defs) (m0 s : Sx) (log : List (Nat × List Nat))
    (hreach : Interned K m0 s log) (h : Nat) (sp1 sp2 : List Nat)
    (h1 : (h, sp1) ∈ log) (h2 : (h, sp2) ∈ log) :
    sp1 = sp2 ∧ SpellingAt s.reprtab h sp1 :=
  ⟨(Interned_inv K m0 s log hreach).2.2.2.1 (h, sp1) h1 (h, sp2) h2 rfl,
   ((Interned_inv K m0 s log hreach).2.1 (h, sp1) h1).2.2.2.1⟩
end RuC
